import Mathlib

/-!
# Constant-argument call specialization pass: a verification development

Shallow embedding of `compiler/noirc_evaluator/src/ssa/opt/inline_const_brillig_calls.rs`.

The pass itself (`Ssa::inline_const_brillig_calls`, `Func::inline_const_brillig_calls`,
`Func::optimize_const_brillig_call`, `Func::copy_constant_to_function`) is translated
from the source file. The surrounding IR (value store, blocks, instructions) and the
optimization sub-pipeline are external collaborators of that file; they are modelled from the
specification's data model (spec sections 3 and 6) and, for the sub-pipeline, kept as an opaque
parameter (an oracle), since only its `Result` interface is visible to the pass.
-/

set_option maxHeartbeats 1000000

/- Value identifiers, function identifiers, instruction identifiers and block identifiers are
arena indices; they are plain naturals here (`omega` in this toolchain does not see through
`Nat` abbreviations, so no type synonyms are introduced for them). -/

/-- Modelled from the spec: a value in a function's value store is a scalar numeric constant
(value plus numeric type), a compound/array constant (ordered element identifiers plus element
type), a function reference, or an opaque non-constant value (instruction result, parameter,
and so on). Field-element values and numeric types are opaque to the pass and are represented
as naturals. -/
inductive Value where
  | numericConstant (value : Nat) (typ : Nat)
  | arrayConstant (elements : List Nat) (typ : Nat)
  | function (id : Nat)
  | other
deriving DecidableEq, Repr

/-- Modelled from the spec: an instruction is either a call (callee value plus ordered
arguments) or some other instruction, opaque to this pass. -/
inductive Instruction where
  | call (func : Nat) (arguments : List Nat)
  | other
deriving DecidableEq, Repr

/-- Modelled from the spec: a terminator is either a Return holding the ordered returned value
identifiers, or some other terminator (jump, conditional jump, ...), opaque to this pass. -/
inductive Terminator where
  | ret (returnValues : List Nat)
  | other
deriving DecidableEq, Repr

/-- Modelled from the spec: a block owns ordered formal parameters, an ordered instruction
list, and one terminator. -/
structure Block where
  parameters : List Nat
  instructions : List Nat
  terminator : Terminator
deriving DecidableEq, Repr

/-- Modelled from the spec: the per-function data-flow graph, holding the value store (an
arena indexed by `Nat`), the instruction arena (indexed by `Nat`), the results
each instruction produces, and the blocks (indexed by block id). -/
structure DataFlowGraph where
  values : List Value
  instructions : List Instruction
  results : List (List Nat)
  blocks : List Block
deriving DecidableEq, Repr

/-- Modelled from the spec: the inlining-strategy enumeration. -/
inductive InlineType where
  | inlineTag
  | inlineAlways
  | fold
  | noPredicates
deriving DecidableEq, Repr

/-- Modelled from the spec: a function's runtime kind is constrained (ACIR) or unconstrained
(Brillig), each carrying an inlining strategy. -/
inductive RuntimeType where
  | acir (inlineType : InlineType)
  | brillig (inlineType : InlineType)
deriving DecidableEq, Repr

/-- Modelled from the spec: a function has a stable identifier, an entry block, its own
data-flow graph (value identifiers are not valid outside their owning function), and a
runtime kind. -/
structure Func where
  id : Nat
  entryBlock : Nat
  dfg : DataFlowGraph
  runtime : RuntimeType
deriving DecidableEq, Repr

/-- Modelled from the spec: the program owns a function mapping (a `BTreeMap` in the source,
rendered as a key-ordered association list), a designated `main` identifier, and the set of
entry-point identifiers (the keys of `entry_point_to_generated_index`). The error-selector
metadata table is only threaded through to the sub-pipeline and is absorbed into the oracle. -/
structure Ssa where
  functions : List (Nat × Func)
  mainId : Nat
  entryPoints : List Nat
deriving DecidableEq, Repr

/-- Modelled from the spec: value lookup in the store; out-of-range identifiers are treated as
opaque non-constant values. -/
def DataFlowGraph.getValue (dfg : DataFlowGraph) (v : Nat) : Value :=
  dfg.values.getD v .other

/-- Modelled from the spec: instruction lookup in the arena. -/
def DataFlowGraph.getInstruction (dfg : DataFlowGraph) (i : Nat) : Instruction :=
  dfg.instructions.getD i .other

/-- Modelled from the spec: `instruction_results`, the ordered result identifiers of an
instruction. -/
def DataFlowGraph.instructionResults (dfg : DataFlowGraph) (i : Nat) : List Nat :=
  dfg.results.getD i []

def emptyBlock : Block := ⟨[], [], .other⟩

/-- Modelled from the spec: block lookup. -/
def DataFlowGraph.getBlock (dfg : DataFlowGraph) (b : Nat) : Block :=
  dfg.blocks.getD b emptyBlock

/-- Modelled from the spec: block replacement. -/
def DataFlowGraph.setBlock (dfg : DataFlowGraph) (b : Nat) (blk : Block) : DataFlowGraph :=
  { dfg with blocks := dfg.blocks.set b blk }

/-- Modelled from the spec: constant introspection. A value is a compile-time constant when it
is a scalar numeric constant or a compound/array constant. -/
def DataFlowGraph.isConstant (dfg : DataFlowGraph) (v : Nat) : Bool :=
  match dfg.getValue v with
  | .numericConstant _ _ => true
  | .arrayConstant _ _ => true
  | _ => false

/-- Modelled from the spec: `get_numeric_constant_with_type`. -/
def DataFlowGraph.getNumericConstantWithType (dfg : DataFlowGraph) (v : Nat) :
    Option (Nat × Nat) :=
  match dfg.getValue v with
  | .numericConstant value typ => some (value, typ)
  | _ => none

/-- Modelled from the spec: `get_array_constant`. -/
def DataFlowGraph.getArrayConstant (dfg : DataFlowGraph) (v : Nat) :
    Option (List Nat × Nat) :=
  match dfg.getValue v with
  | .arrayConstant elements typ => some (elements, typ)
  | _ => none

/-- Modelled from the spec: `make_constant` constructs a fresh scalar constant in the store and
returns its identifier (arena-and-index pattern: the new identifier is the next free index). -/
def DataFlowGraph.makeConstant (dfg : DataFlowGraph) (value typ : Nat) :
    DataFlowGraph × Nat :=
  ({ dfg with values := dfg.values ++ [.numericConstant value typ] }, dfg.values.length)

/-- Modelled from the spec: `make_array` constructs a fresh compound constant from the given
element identifiers. -/
def DataFlowGraph.makeArray (dfg : DataFlowGraph) (elements : List Nat) (typ : Nat) :
    DataFlowGraph × Nat :=
  ({ dfg with values := dfg.values ++ [.arrayConstant elements typ] }, dfg.values.length)

/-- Modelled from the spec: `set_value_from_id target source` binds `target` to the value
currently stored at `source` (substitution of the identifier's binding, not a new
instruction). -/
def DataFlowGraph.setValueFromId (dfg : DataFlowGraph) (target source : Nat) :
    DataFlowGraph :=
  { dfg with values := dfg.values.set target (dfg.getValue source) }

/-- Modelled from the spec: `Func::clone_with_id` clones a function (independent value
store and blocks; in this pure embedding, plain structure copy) under a given identifier. -/
def cloneWithId (fid : Nat) (f : Func) : Func :=
  { f with id := fid }

/-- Key lookup in the function mapping (`BTreeMap::get`). -/
def assocFind : List (Nat × Func) → Nat → Option Func
  | [], _ => none
  | (k, v) :: rest, fid => if k = fid then some v else assocFind rest fid

/-- `Func::runtime()` matching `RuntimeType::Brillig(..)`. -/
def isBrillig (f : Func) : Bool :=
  match f.runtime with
  | .brillig _ => true
  | .acir _ => false

/-- The sub-pipeline (`optimize_ssa_after_inline_const_brillig_calls`) is an external, opaque
composition of rewrite passes; the pass only observes its `Result`. It is kept as a parameter
taking the inliner aggressiveness and the function to fold. The error type is likewise opaque
and kept generic, so that the pass's own result type visibly cannot carry it. -/
def Oracle (ε : Type) : Type :=
  Int → Func → Except ε Func

/-- Translation of `optimize` (source lines 221-240): re-tag the working clone as an ACIR
function with `InlineType::InlineAlways`, then run the external sub-pipeline on it. The
wrapping of the single function into a fresh `Ssa` and the unwrapping of the result are
internal to the sub-pipeline call and are absorbed into the oracle. -/
def optimize {ε : Type} (oracle : Oracle ε) (inlinerAggressiveness : Int)
    (function : Func) : Except ε Func :=
  oracle inlinerAggressiveness { function with runtime := .acir .inlineAlways }

/-- Result of trying to optimize an instruction in this pass (source lines 69-79). -/
inductive OptimizeResult where
  | NotABrilligCall
  | CannotOptimize (fid : Nat)
  | Optimized (function : Func) (returnValues : List Nat)
deriving DecidableEq, Repr

/-- Errors of the embedded `copy_constant_to_function`: `fatal` models the `unreachable!`
panic branch; `fuelExhausted` is an artifact of the fuel that bounds the non-structural
recursion (never reached at the fuel used by the pass on a well-formed store). -/
inductive CopyError where
  | fatal
  | fuelExhausted
deriving DecidableEq, Repr

mutual

/-- Translation of `Func::copy_constant_to_function` (source lines 202-214), with explicit
fuel bounding the recursion depth: a scalar constant is re-made in the destination store; an
array constant has its elements recursively copied in order and a fresh array is made from the
copies; any other value hits the `unreachable!` branch, modelled as `CopyError.fatal`. Only the
source's value store is read; only the destination store is extended. -/
def copyConstantFueled (fuel : Nat) (src : DataFlowGraph) (constantId : Nat)
    (dst : DataFlowGraph) : Except CopyError (DataFlowGraph × Nat) :=
  match fuel with
  | 0 => .error .fuelExhausted
  | Nat.succ f =>
    match src.getNumericConstantWithType constantId with
    | some (value, typ) => .ok (dst.makeConstant value typ)
    | none =>
      match src.getArrayConstant constantId with
      | some (elements, typ) =>
        match copyConstantListFueled f src elements dst with
        | .ok (dst1, newIds) => .ok (dst1.makeArray newIds typ)
        | .error e => .error e
      | none => .error .fatal
termination_by (fuel, 0, 0)

/-- The element loop of `copy_constant_to_function`'s array case: copy each element identifier
in order, threading the destination store. -/
def copyConstantListFueled (fuel : Nat) (src : DataFlowGraph) (ids : List Nat)
    (dst : DataFlowGraph) : Except CopyError (DataFlowGraph × List Nat) :=
  match ids with
  | [] => .ok (dst, [])
  | c :: rest =>
    match copyConstantFueled fuel src c dst with
    | .ok (dst1, nid) =>
      match copyConstantListFueled fuel src rest dst1 with
      | .ok (dst2, nids) => .ok (dst2, nid :: nids)
      | .error e => .error e
    | .error e => .error e
termination_by (fuel, 1, ids.length)

end

/-- `copy_constant_to_function` at the canonical fuel. Under the store invariant (array
elements were created before the array, hence have smaller indices) the depth of a constant
never exceeds the store size, so this fuel is never exhausted. -/
def copyConstantToFunction (src : DataFlowGraph) (constantId : Nat)
    (dst : DataFlowGraph) : Except CopyError (DataFlowGraph × Nat) :=
  copyConstantFueled (src.values.length + 1) src constantId dst

/-- The argument-substitution loop of `optimize_const_brillig_call` (source lines 165-169):
for each (parameter, argument) pair, copy the caller's argument constant into the working
clone's store and bind the parameter identifier to the copy. -/
def copyArgumentsIntoFunction (self : Func) :
    List (Nat × Nat) → Func → Except CopyError Func
  | [], function => .ok function
  | (parameterId, argumentId) :: rest, function =>
    match copyConstantToFunction self.dfg argumentId function.dfg with
    | .ok (dfg1, newArgumentId) =>
      copyArgumentsIntoFunction self rest
        { function with dfg := dfg1.setValueFromId parameterId newArgumentId }
    | .error e => .error e

/-- The clone-preparation step of `optimize_const_brillig_call` (source lines 153-169,
extracted as a named helper): clone the snapshot entry again under the callee's identifier,
drain the entry block's formal parameters (`take_parameters`), and for each (parameter,
argument) pair deep-copy the caller's argument constant into the working clone and bind the
parameter identifier to the copy. The `assert_eq` between the argument and parameter counts
is a structural precondition; as in the source, the pairing is a `zip`. -/
def preparedClone (self : Func) (funcId : Nat) (f : Func) (arguments : List Nat) :
    Except CopyError Func :=
  let function := cloneWithId funcId f
  let entryBlockId := function.entryBlock
  let entryBlock := function.dfg.getBlock entryBlockId
  let entryBlockParameters := entryBlock.parameters
  let function :=
    { function with
      dfg := function.dfg.setBlock entryBlockId { entryBlock with parameters := [] } }
  copyArgumentsIntoFunction self (entryBlockParameters.zip arguments) function

/-- Translation of `Func::optimize_const_brillig_call` (source lines 126-196). The
receiver `self` is only read (the Rust receiver is `&mut self` but no statement mutates it),
so the embedding returns no updated caller. The set of brillig functions we could not inline
is threaded and returned, because the leftover-instructions branch inserts into it (source
line 181). `take_terminator` is modelled by reading the terminator (the drained clone is
discarded, or used afterwards only for its value store). -/
def optimizeConstBrilligCall {ε : Type} (oracle : Oracle ε) (inlinerAggressiveness : Int)
    (self : Func) (instructionId : Nat)
    (brilligFunctions : List (Nat × Func))
    (couldNotInline : List Nat) :
    Except CopyError (OptimizeResult × List Nat) :=
  match self.dfg.getInstruction instructionId with
  | .other => .ok (.NotABrilligCall, couldNotInline)
  | .call funcValueId arguments =>
    match self.dfg.getValue funcValueId with
    | .function funcId =>
      match assocFind brilligFunctions funcId with
      | none => .ok (.NotABrilligCall, couldNotInline)
      | some function =>
        if ¬ (arguments.all fun argument => self.dfg.isConstant argument) then
          .ok (.CannotOptimize funcId, couldNotInline)
        else
          let entryBlockId := (cloneWithId funcId function).entryBlock
          match preparedClone self funcId function arguments with
          | .error e => .error e
          | .ok function =>
            match optimize oracle inlinerAggressiveness function with
            | .error _ => .ok (.CannotOptimize funcId, couldNotInline)
            | .ok function =>
              let entryBlock := function.dfg.getBlock entryBlockId
              if ¬ (entryBlock.instructions.isEmpty) then
                .ok (.CannotOptimize funcId, couldNotInline.insert funcId)
              else
                match entryBlock.terminator with
                | .ret returnValues =>
                  if ¬ (returnValues.all fun valueId => function.dfg.isConstant valueId) then
                    .ok (.CannotOptimize funcId, couldNotInline)
                  else
                    .ok (.Optimized function returnValues, couldNotInline)
                | .other => .ok (.CannotOptimize funcId, couldNotInline)
    | _ => .ok (.NotABrilligCall, couldNotInline)

/-- Re-emit an instruction: push its identifier back onto a block's instruction list
(`self.dfg[block_id].instructions_mut().push(instruction_id)`). -/
def Func.pushInstruction (self : Func) (blockId : Nat) (instructionId : Nat) :
    Func :=
  let b := self.dfg.getBlock blockId
  { self with
    dfg := self.dfg.setBlock blockId { b with instructions := b.instructions ++ [instructionId] } }

/-- The result-rebinding loop of `Func::inline_const_brillig_calls` (source lines
111-117): for each (original result, returned value) pair, copy the returned constant from
the working clone's store into the caller's store and bind the result identifier to the
copy. -/
def copyReturnValues (function : Func) :
    List (Nat × Nat) → Func → Except CopyError Func
  | [], self => .ok self
  | (currentResultId, returnValueId) :: rest, self =>
    match copyConstantToFunction function.dfg returnValueId self.dfg with
    | .ok (dfg1, newReturnValueId) =>
      copyReturnValues function rest
        { self with dfg := dfg1.setValueFromId currentResultId newReturnValueId }
    | .error e => .error e

/-- The per-instruction loop of `Func::inline_const_brillig_calls` (source lines 90-120):
classify each drained instruction; re-emit it on `NotABrilligCall`; re-emit it and mark the
callee on `CannotOptimize`; on `Optimized`, drop it and rebind its results to migrated
constants. -/
def processInstructions {ε : Type} (oracle : Oracle ε) (inlinerAggressiveness : Int)
    (brilligFunctions : List (Nat × Func)) (blockId : Nat) :
    List Nat → Func → List Nat →
    Except CopyError (Func × List Nat)
  | [], self, couldNotInline => .ok (self, couldNotInline)
  | instructionId :: rest, self, couldNotInline =>
    match optimizeConstBrilligCall oracle inlinerAggressiveness self instructionId
        brilligFunctions couldNotInline with
    | .error e => .error e
    | .ok (.NotABrilligCall, couldNotInline1) =>
      processInstructions oracle inlinerAggressiveness brilligFunctions blockId rest
        (self.pushInstruction blockId instructionId) couldNotInline1
    | .ok (.CannotOptimize funcId, couldNotInline1) =>
      processInstructions oracle inlinerAggressiveness brilligFunctions blockId rest
        (self.pushInstruction blockId instructionId) (couldNotInline1.insert funcId)
    | .ok (.Optimized function returnValues, couldNotInline1) =>
      let currentResults := self.dfg.instructionResults instructionId
      match copyReturnValues function (currentResults.zip returnValues) self with
      | .error e => .error e
      | .ok self1 =>
        processInstructions oracle inlinerAggressiveness brilligFunctions blockId rest
          self1 couldNotInline1

/-- The per-block loop of `Func::inline_const_brillig_calls` (source lines 89-121): drain
each block's instruction list (`take_instructions`) and process the drained instructions. -/
def processBlocks {ε : Type} (oracle : Oracle ε) (inlinerAggressiveness : Int)
    (brilligFunctions : List (Nat × Func)) :
    List Nat → Func → List Nat → Except CopyError (Func × List Nat)
  | [], self, couldNotInline => .ok (self, couldNotInline)
  | blockId :: rest, self, couldNotInline =>
    let drained := (self.dfg.getBlock blockId).instructions
    let self1 :=
      { self with
        dfg := self.dfg.setBlock blockId
          { self.dfg.getBlock blockId with instructions := [] } }
    match processInstructions oracle inlinerAggressiveness brilligFunctions blockId drained
        self1 couldNotInline with
    | .error e => .error e
    | .ok (self2, couldNotInline1) =>
      processBlocks oracle inlinerAggressiveness brilligFunctions rest self2 couldNotInline1

/-- Translation of `Func::inline_const_brillig_calls` (source lines 82-122). Reachable
blocks are modelled from the spec as all of the function's blocks, visited in order. -/
def Func.inlineConstBrilligCalls {ε : Type} (oracle : Oracle ε)
    (inlinerAggressiveness : Int) (brilligFunctions : List (Nat × Func))
    (self : Func) (couldNotInline : List Nat) :
    Except CopyError (Func × List Nat) :=
  processBlocks oracle inlinerAggressiveness brilligFunctions
    (List.range self.dfg.blocks.length) self couldNotInline

/-- The per-function loop of `Ssa::inline_const_brillig_calls` (source lines 36-43): process
every function of the program in mapping order, threading the must-keep set. -/
def processFunctions {ε : Type} (oracle : Oracle ε) (inlinerAggressiveness : Int)
    (brilligFunctions : List (Nat × Func)) :
    List (Nat × Func) → List Nat →
    Except CopyError (List (Nat × Func) × List Nat)
  | [], couldNotInline => .ok ([], couldNotInline)
  | (fid, f) :: rest, couldNotInline =>
    match Func.inlineConstBrilligCalls oracle inlinerAggressiveness brilligFunctions f
        couldNotInline with
    | .error e => .error e
    | .ok (f1, couldNotInline1) =>
      match processFunctions oracle inlinerAggressiveness brilligFunctions rest
          couldNotInline1 with
      | .error e => .error e
      | .ok (rest1, couldNotInline2) => .ok ((fid, f1) :: rest1, couldNotInline2)

/-- The snapshot loop of `Ssa::inline_const_brillig_calls` (source lines 25-31): collect all
brillig functions, keyed by identifier, as independent clones. -/
def snapshotBrilligFunctions (functions : List (Nat × Func)) :
    List (Nat × Func) :=
  (functions.filter fun p => isBrillig p.2).map fun p => (p.1, cloneWithId p.1 p.2)

/-- The end-of-pass deletion loop of `Ssa::inline_const_brillig_calls` (source lines 46-63):
for each snapshot key, skip `main`, skip must-keep members, skip entry points, and otherwise
remove the identifier from the function mapping (key removal rendered as filtering the key,
per the mapping's key-uniqueness invariant). -/
def removeFunctions (mainId : Nat) (entryPoints : List Nat)
    (couldNotInline : List Nat) (snapshotIds : List Nat)
    (functions : List (Nat × Func)) : List (Nat × Func) :=
  match snapshotIds with
  | [] => functions
  | fid :: rest =>
    if fid = mainId then
      removeFunctions mainId entryPoints couldNotInline rest functions
    else if fid ∈ couldNotInline then
      removeFunctions mainId entryPoints couldNotInline rest functions
    else if fid ∈ entryPoints then
      removeFunctions mainId entryPoints couldNotInline rest functions
    else
      removeFunctions mainId entryPoints couldNotInline rest
        (functions.filter fun p => ¬ p.1 = fid)

/-- Translation of `Ssa::inline_const_brillig_calls` (source lines 21-66): snapshot the
brillig functions, process every function against the snapshot while accumulating the
must-keep set, then delete the eligible snapshot functions, all deletions strictly after all
processing. -/
def Ssa.inlineConstBrilligCalls {ε : Type} (oracle : Oracle ε)
    (inlinerAggressiveness : Int) (self : Ssa) : Except CopyError Ssa :=
  let brilligFunctions := snapshotBrilligFunctions self.functions
  match processFunctions oracle inlinerAggressiveness brilligFunctions self.functions [] with
  | .error e => .error e
  | .ok (functions1, couldNotInline) =>
    .ok { self with
          functions :=
            removeFunctions self.mainId self.entryPoints couldNotInline
              (brilligFunctions.map fun p => p.1) functions1 }

/-! ## Constant trees

A specification-side denotation of compile-time constants: the tree of values a constant
identifier stands for in a store. It is used to state structural equality of migrated
constants and to characterize `copy_constant_to_function`. -/

/-- The shape of a compile-time constant: a scalar (value, numeric type) leaf or an ordered
compound node with an element type. -/
inductive ConstTree where
  | num (value : Nat) (typ : Nat)
  | arr (elements : List ConstTree) (typ : Nat)

mutual

/-- Read the constant tree denoted by an identifier in a store, with fuel bounding the
recursion depth; `none` when the identifier does not denote a (deep) compile-time constant
within the fuel. -/
def denoteFueled (fuel : Nat) (values : List Value) (v : Nat) : Option ConstTree :=
  match fuel with
  | 0 => none
  | Nat.succ f =>
    match values.getD v .other with
    | .numericConstant value typ => some (.num value typ)
    | .arrayConstant elements typ =>
      match denoteListFueled f values elements with
      | some ts => some (.arr ts typ)
      | none => none
    | _ => none
termination_by (fuel, 0, 0)

/-- Read the constant trees of a list of identifiers, in order. -/
def denoteListFueled (fuel : Nat) (values : List Value) (ids : List Nat) :
    Option (List ConstTree) :=
  match ids with
  | [] => some []
  | v :: rest =>
    match denoteFueled fuel values v with
    | some t =>
      match denoteListFueled fuel values rest with
      | some ts => some (t :: ts)
      | none => none
    | none => none
termination_by (fuel, 1, ids.length)

end

/-- The constant tree denoted by an identifier, at the canonical fuel (one more than the
store size, which bounds the depth of any constant in a well-formed store). -/
def denoteConstant (values : List Value) (v : Nat) : Option ConstTree :=
  denoteFueled (values.length + 1) values v

mutual

/-- Depth of a constant tree (used for fuel accounting). -/
def treeDepth : ConstTree → Nat
  | .num _ _ => 0
  | .arr elements _ => treeDepthList elements + 1

/-- Maximum depth over a list of constant trees. -/
def treeDepthList : List ConstTree → Nat
  | [] => 0
  | t :: ts => max (treeDepth t) (treeDepthList ts)

end

mutual

/-- The run of store entries a successful copy of tree `t` appends to a destination store of
size `base`, in copy order (elements first, compound cell last). -/
def flatConst (base : Nat) : ConstTree → List Value
  | .num value typ => [.numericConstant value typ]
  | .arr elements typ =>
    (flatList base elements).1 ++ [.arrayConstant (flatList base elements).2 typ]

/-- The store entries appended by copying a list of trees starting at offset `base`, together
with the root identifiers of the copies, in order. -/
def flatList (base : Nat) : List ConstTree → List Value × List Nat
  | [] => ([], [])
  | t :: ts =>
    let v := flatConst base t
    let rest := flatList (base + v.length) ts
    (v ++ rest.1, (base + v.length - 1) :: rest.2)

end

/-- The classifier implicit in the guard cascade of `optimize_const_brillig_call` (source
lines 134-147): an instruction is a specialization candidate when it is a call, its callee
value is a function reference, and the referenced function is in the unconstrained snapshot;
the classifier returns the callee identifier, the snapshot entry, and the arguments. -/
def candidateCallee (self : Func) (instructionId : Nat)
    (brilligFunctions : List (Nat × Func)) :
    Option (Nat × Func × List Nat) :=
  match self.dfg.getInstruction instructionId with
  | .call funcValueId arguments =>
    match self.dfg.getValue funcValueId with
    | .function funcId =>
      match assocFind brilligFunctions funcId with
      | some f => some (funcId, f, arguments)
      | none => none
    | _ => none
  | .other => none

/-- `isConstant` as a predicate on raw store entries. -/
def isConstantValue : Value → Bool
  | .numericConstant _ _ => true
  | .arrayConstant _ _ => true
  | _ => false

/-- Modelled from the spec: the store invariant of a function's value store. Every element of
a compound constant is an identifier created before the compound (so it has a smaller index)
and itself holds a compile-time constant. -/
def wfStoreB (values : List Value) : Bool :=
  (List.range values.length).all fun i =>
    match values.getD i .other with
    | .arrayConstant elements _ =>
      elements.all fun e => decide (e < i) && isConstantValue (values.getD e .other)
    | _ => true

mutual

/-- Number of nodes of a constant tree; equals the number of store entries its copy appends. -/
def treeSize : ConstTree → Nat
  | .num _ _ => 1
  | .arr elements _ => treeSizeList elements + 1

/-- Total number of nodes over a list of constant trees. -/
def treeSizeList : List ConstTree → Nat
  | [] => 0
  | t :: ts => treeSize t + treeSizeList ts

end

/-- The store entry at the root of a copied constant tree, for a copy starting at offset
`base`. -/
def rootValue (base : Nat) : ConstTree → Value
  | .num value typ => .numericConstant value typ
  | .arr elements typ => .arrayConstant ((flatList base elements).2) typ

deriving instance DecidableEq for Except

/-! Concrete material used by witnesses and the idempotence counterexample: a sub-pipeline
oracle that rewrites nothing (consistent with the source's sub-pipeline on already-minimal
clones: the comment at source lines 233-237 notes that calls inside a clone are not inlined,
since the clone's `Ssa` holds a single function), and a three-function program: `main` calls
`g()`, the unconstrained `g` calls `h()`, and the unconstrained `h` returns no values. -/

def identityOracle : Oracle Unit := fun _ f => .ok f

def mainFunc : Func :=
  { id := 0, entryBlock := 0,
    dfg := { values := [.function 1], instructions := [.call 0 []], results := [[]],
             blocks := [⟨[], [0], .ret []⟩] },
    runtime := .acir .inlineTag }

def gFunc : Func :=
  { id := 1, entryBlock := 0,
    dfg := { values := [.function 2], instructions := [.call 0 []], results := [[]],
             blocks := [⟨[], [0], .ret []⟩] },
    runtime := .brillig .inlineTag }

def hFunc : Func :=
  { id := 2, entryBlock := 0,
    dfg := { values := [], instructions := [], results := [],
             blocks := [⟨[], [], .ret []⟩] },
    runtime := .brillig .inlineTag }

def exampleProgram : Ssa :=
  { functions := [(0, mainFunc), (1, gFunc), (2, hFunc)], mainId := 0, entryPoints := [] }

/-- The result of one run of the pass on `exampleProgram`: the call `g()` inside `main`
survives (the clone of `g` still holds a call instruction), the call `h()` inside `g` is
specialized away, and `h` is deleted. -/
def exampleProgramOnce : Ssa :=
  { functions :=
      [(0, mainFunc),
       (1, { id := 1, entryBlock := 0,
             dfg := { values := [.function 2], instructions := [.call 0 []], results := [[]],
                      blocks := [⟨[], [], .ret []⟩] },
             runtime := .brillig .inlineTag })],
    mainId := 0, entryPoints := [] }

/-! ## Static shape of a function, for the idempotence analysis -/

/-- The operand identifiers an instruction reads: the callee value identifier and the
arguments of a call; nothing for an opaque instruction. -/
def operands (dfg : DataFlowGraph) (iid : Nat) : List Nat :=
  match dfg.getInstruction iid with
  | .call funcValueId arguments => funcValueId :: arguments
  | .other => []

/-- The result identifiers of a list of instructions, flattened in order. -/
def resultsOfList (dfg : DataFlowGraph) (L : List Nat) : List Nat :=
  (L.map fun iid => dfg.instructionResults iid).flatten

/-- The instruction identifiers held by the given blocks of a function, flattened in
processing order. -/
def blockInstrs (f : Func) (bids : List Nat) : List Nat :=
  (bids.map fun b => (f.dfg.getBlock b).instructions).flatten

/-- All instruction identifiers of a function's blocks, in processing order. -/
def flatInstructions (f : Func) : List Nat :=
  blockInstrs f (List.range f.dfg.blocks.length)

/-- Definitions precede uses along a processing order: no instruction's operands meet the
results of instructions processed after it. -/
def defBeforeUseB (dfg : DataFlowGraph) : List Nat → Bool
  | [] => true
  | iid :: rest =>
    ((operands dfg iid).all fun o =>
      (resultsOfList dfg rest).all fun r => decide (¬ r = o)) &&
    defBeforeUseB dfg rest

/-- Result discipline along a processing order: distinct instructions write disjoint result
lists. -/
def resultsSeparatedB (dfg : DataFlowGraph) : List Nat → Bool
  | [] => true
  | iid :: rest =>
    ((dfg.instructionResults iid).all fun r =>
      (resultsOfList dfg rest).all fun r1 => decide (¬ r1 = r)) &&
    resultsSeparatedB dfg rest

/-- Modelled from the spec: static well-formedness of a function, sufficient for replaying
the pass. Definitions precede uses; result lists are pairwise disjoint, duplicate-free and
made of in-range, still-unbound store slots; and operands are in range. -/
def wellFormedFuncB (f : Func) : Bool :=
  defBeforeUseB f.dfg (flatInstructions f) &&
  resultsSeparatedB f.dfg (flatInstructions f) &&
  ((flatInstructions f).all fun iid =>
    decide (f.dfg.instructionResults iid).Nodup &&
    ((f.dfg.instructionResults iid).all fun r =>
      decide (r < f.dfg.values.length) &&
      decide (f.dfg.values.getD r .other = .other)) &&
    ((operands f.dfg iid).all fun o => decide (o < f.dfg.values.length)))

/-- A failure certificate for an instruction against a snapshot: evidence, recorded guard by
guard, that the specialization attempt at this instruction in the given caller state does not
produce an `Optimized` outcome. -/
def FailsCert {ε : Type} (oracle : Oracle ε) (agg : Int) (bf : List (Nat × Func))
    (self : Func) (iid : Nat) : Prop :=
  candidateCallee self iid bf = none ∨
  ∃ fid g args, candidateCallee self iid bf = some (fid, g, args) ∧
    (args.all (fun a => self.dfg.isConstant a) = false ∨
     (args.all (fun a => self.dfg.isConstant a) = true ∧
      ∃ fp, preparedClone self fid g args = .ok fp ∧
        ((∃ e, optimize oracle agg fp = .error e) ∨
         ∃ fn, optimize oracle agg fp = .ok fn ∧
           ((fn.dfg.getBlock g.entryBlock).instructions.isEmpty = false ∨
            ((fn.dfg.getBlock g.entryBlock).instructions.isEmpty = true ∧
             ((∃ rvs, (fn.dfg.getBlock g.entryBlock).terminator = .ret rvs ∧
                rvs.all (fun v => fn.dfg.isConstant v) = false) ∨
              (fn.dfg.getBlock g.entryBlock).terminator = .other))))))

/-- Frame facts relating a processing state to a later one: the instruction and result arenas,
identity fields and block count are unchanged, and the value store only grows. -/
def arenaFrame (V self1 : Func) : Prop :=
  self1.dfg.instructions = V.dfg.instructions ∧
  self1.dfg.results = V.dfg.results ∧
  self1.id = V.id ∧ self1.entryBlock = V.entryBlock ∧ self1.runtime = V.runtime ∧
  self1.dfg.blocks.length = V.dfg.blocks.length ∧
  V.dfg.values.length ≤ self1.dfg.values.length

/-- Store stability off a set of touched identifiers: raw entries of untouched in-range slots
are unchanged, and denotations of untouched identifiers are preserved. -/
def storeStable (V self1 : Func) (S : List Nat) : Prop :=
  (∀ id, id < V.dfg.values.length → id ∉ S →
    self1.dfg.values.getD id .other = V.dfg.values.getD id .other) ∧
  (∀ id t, denoteConstant V.dfg.values id = some t → id ∉ S →
    denoteConstant self1.dfg.values id = some t)

/-- Certificates carried by the surviving instructions: each fails against the snapshot in the
final state, and the callee of each surviving candidate is in the must-keep set. -/
def survCerts {ε : Type} (oracle : Oracle ε) (agg : Int) (bf : List (Nat × Func))
    (self1 : Func) (mk2 : List Nat) (surv : List Nat) : Prop :=
  ∀ iid ∈ surv, FailsCert oracle agg bf self1 iid ∧
    ∀ fid g args, candidateCallee self1 iid bf = some (fid, g, args) → fid ∈ mk2

/-- The per-function input/output relation established by the first run: frames are preserved,
every surviving instruction already occurred, survivors carry failure certificates, callees of
surviving candidates are in the final must-keep set, and a function none of whose instructions
is a candidate is returned unchanged. -/
def FuncR {ε : Type} (oracle : Oracle ε) (agg : Int) (bf : List (Nat × Func))
    (mkFinal : List Nat) (f f1 : Func) : Prop :=
  arenaFrame f f1 ∧
  (∀ iid ∈ flatInstructions f1, iid ∈ flatInstructions f) ∧
  (∀ iid ∈ flatInstructions f1, FailsCert oracle agg bf f1 iid) ∧
  (∀ iid ∈ flatInstructions f1, ∀ fid g args,
    candidateCallee f1 iid bf = some (fid, g, args) → fid ∈ mkFinal) ∧
  ((∀ iid ∈ flatInstructions f, candidateCallee f iid bf = none) → f1 = f)

/-- The result of a second run of the pass on `exampleProgramOnce`: the snapshot now holds the
already-specialized body of `g`, whose entry block is empty, so the surviving call `g()` inside
`main` folds away and `g` itself is deleted. -/
def exampleProgramTwice : Ssa :=
  { functions :=
      [(0, { id := 0, entryBlock := 0,
             dfg := { values := [.function 1], instructions := [.call 0 []], results := [[]],
                      blocks := [⟨[], [], .ret []⟩] },
             runtime := .acir .inlineTag })],
    mainId := 0, entryPoints := [] }

/-- Append re-emitted instruction identifiers to a block: the cumulative effect of the
re-emission pushes during the processing of one block. -/
def appendToBlock (self : Func) (bid : Nat) (L : List Nat) : Func :=
  { self with
    dfg := self.dfg.setBlock bid { self.dfg.getBlock bid with
      instructions := (self.dfg.getBlock bid).instructions ++ L } }

-- DEFS-END marker: definitions above, lemmas and theorems below.

/-! ## Store and tree lemmas -/

theorem getD_ne_default_lt (vs : List Value) (v : Nat) (h : vs.getD v .other ≠ .other) :
    v < vs.length := by
  by_contra hge
  exact h (List.getD_eq_default vs .other (by omega))

mutual

theorem flatConst_length (base : Nat) (t : ConstTree) :
    (flatConst base t).length = treeSize t := by
  match t with
  | .num v ty => simp [flatConst, treeSize]
  | .arr elements ty =>
    simp [flatConst, treeSize, flatList_length base elements]

theorem flatList_length (base : Nat) (ts : List ConstTree) :
    (flatList base ts).1.length = treeSizeList ts := by
  match ts with
  | [] => simp [flatList, treeSizeList]
  | t :: rest =>
    simp [flatList, treeSizeList, flatConst_length base t,
      flatList_length (base + treeSize t) rest]

end

mutual

theorem treeSize_pos (t : ConstTree) : 0 < treeSize t := by
  match t with
  | .num v ty => simp [treeSize]
  | .arr elements ty => simp [treeSize]

theorem treeSizeList_pos (ts : List ConstTree) : 0 ≤ treeSizeList ts := by
  exact Nat.zero_le _

end

mutual

theorem treeDepth_le_size (t : ConstTree) : treeDepth t ≤ treeSize t := by
  match t with
  | .num v ty => simp [treeDepth, treeSize]
  | .arr elements ty =>
    have := treeDepthList_le_sizeList elements
    simp only [treeDepth, treeSize]
    omega

theorem treeDepthList_le_sizeList (ts : List ConstTree) : treeDepthList ts ≤ treeSizeList ts := by
  match ts with
  | [] => simp [treeDepthList, treeSizeList]
  | t :: rest =>
    have h1 := treeDepth_le_size t
    have h2 := treeDepthList_le_sizeList rest
    have h3 := treeSize_pos t
    simp only [treeDepthList, treeSizeList]
    omega

end

theorem treeDepth_le_of_mem {t : ConstTree} {ts : List ConstTree} (h : t ∈ ts) :
    treeDepth t ≤ treeDepthList ts := by
  induction ts with
  | nil => cases h
  | cons t' rest ih =>
    rcases List.mem_cons.mp h with rfl | hmem
    · simp only [treeDepthList]; omega
    · have := ih hmem
      simp only [treeDepthList]; omega

/-! ## Denotation lemmas -/

theorem denoteList_mono_of (f : Nat)
    (hP : ∀ vs v t f', f ≤ f' → denoteFueled f vs v = some t → denoteFueled f' vs v = some t) :
    ∀ (ids : List Nat) (vs : List Value) (ts : List ConstTree) (f' : Nat), f ≤ f' →
      denoteListFueled f vs ids = some ts → denoteListFueled f' vs ids = some ts := by
  intro ids
  induction ids with
  | nil =>
    intro vs ts f' hle h
    simp [denoteListFueled] at h
    simp [denoteListFueled, ← h]
  | cons v rest ih =>
    intro vs ts f' hle h
    cases hv : denoteFueled f vs v with
    | none => simp [denoteListFueled, hv] at h
    | some t =>
      cases hrest : denoteListFueled f vs rest with
      | none => simp [denoteListFueled, hv, hrest] at h
      | some ts' =>
        simp [denoteListFueled, hv, hrest] at h
        simp [denoteListFueled, hP vs v t f' hle hv, ih vs ts' f' hle hrest, ← h]

theorem denote_mono :
    ∀ (f : Nat) (vs : List Value) (v : Nat) (t : ConstTree) (f' : Nat), f ≤ f' →
      denoteFueled f vs v = some t → denoteFueled f' vs v = some t := by
  intro f
  induction f with
  | zero =>
    intro vs v t f' _ h
    simp [denoteFueled] at h
  | succ f ih =>
    intro vs v t f' hle h
    obtain ⟨f'', rfl⟩ : ∃ f'', f' = f'' + 1 := ⟨f' - 1, by omega⟩
    have hle' : f ≤ f'' := by omega
    cases hv : vs.getD v .other with
    | numericConstant val ty =>
      simp only [denoteFueled, hv] at h ⊢
      exact h
    | arrayConstant elements ty =>
      cases hts : denoteListFueled f vs elements with
      | none =>
        simp only [denoteFueled, hv, hts] at h
        simp at h
      | some ts =>
        simp only [denoteFueled, hv, hts] at h
        simp only [denoteFueled, hv,
          denoteList_mono_of f ih elements vs ts f'' hle' hts]
        exact h
    | function fid => simp only [denoteFueled, hv] at h; simp at h
    | other => simp only [denoteFueled, hv] at h; simp at h

theorem denoteList_mono {f : Nat} {vs : List Value} {ids : List Nat}
    {ts : List ConstTree} {f' : Nat} (hle : f ≤ f')
    (h : denoteListFueled f vs ids = some ts) : denoteListFueled f' vs ids = some ts :=
  denoteList_mono_of f (fun vs v t f' hle h => denote_mono f vs v t f' hle h) ids vs ts f' hle h

theorem denoteList_append_of (f : Nat)
    (hP : ∀ vs ws v t, denoteFueled f vs v = some t → denoteFueled f (vs ++ ws) v = some t) :
    ∀ (ids : List Nat) (vs ws : List Value) (ts : List ConstTree),
      denoteListFueled f vs ids = some ts → denoteListFueled f (vs ++ ws) ids = some ts := by
  intro ids
  induction ids with
  | nil =>
    intro vs ws ts h
    simp [denoteListFueled] at h
    simp [denoteListFueled, ← h]
  | cons v rest ih =>
    intro vs ws ts h
    cases hv : denoteFueled f vs v with
    | none => simp [denoteListFueled, hv] at h
    | some t =>
      cases hrest : denoteListFueled f vs rest with
      | none => simp [denoteListFueled, hv, hrest] at h
      | some ts' =>
        simp [denoteListFueled, hv, hrest] at h
        simp [denoteListFueled, hP vs ws v t hv, ih vs ws ts' hrest, ← h]

theorem denote_append :
    ∀ (f : Nat) (vs ws : List Value) (v : Nat) (t : ConstTree),
      denoteFueled f vs v = some t → denoteFueled f (vs ++ ws) v = some t := by
  intro f
  induction f with
  | zero => intro vs ws v t h; simp [denoteFueled] at h
  | succ f ih =>
    intro vs ws v t h
    cases hv : vs.getD v .other with
    | numericConstant val ty =>
      have hlt : v < vs.length := getD_ne_default_lt vs v (by rw [hv]; simp)
      simp only [denoteFueled, hv] at h
      simp only [denoteFueled, List.getD_append vs ws .other v hlt, hv]
      exact h
    | arrayConstant elements ty =>
      have hlt : v < vs.length := getD_ne_default_lt vs v (by rw [hv]; simp)
      cases hts : denoteListFueled f vs elements with
      | none => simp only [denoteFueled, hv, hts] at h; simp at h
      | some ts' =>
        simp only [denoteFueled, hv, hts] at h
        simp only [denoteFueled, List.getD_append vs ws .other v hlt, hv,
          denoteList_append_of f (fun vs ws v t h => ih vs ws v t h) elements vs ws ts' hts]
        exact h
    | function fid => simp only [denoteFueled, hv] at h; simp at h
    | other => simp only [denoteFueled, hv] at h; simp at h

theorem denoteList_append {f : Nat} {vs ws : List Value} {ids : List Nat}
    {ts : List ConstTree} (h : denoteListFueled f vs ids = some ts) :
    denoteListFueled f (vs ++ ws) ids = some ts :=
  denoteList_append_of f (fun vs ws v t h => denote_append f vs ws v t h) ids vs ws ts h

theorem getD_set_ne (vs : List Value) (r v : Nat) (w : Value) (h : v ≠ r) :
    (vs.set r w).getD v .other = vs.getD v .other := by
  simp [List.getD_eq_getElem?_getD, List.getElem?_set_ne (Ne.symm h)]

theorem denoteList_set_untouched_of (f : Nat)
    (hP : ∀ vs r w v t, vs.getD r .other = .other →
      denoteFueled f vs v = some t → denoteFueled f (vs.set r w) v = some t) :
    ∀ (ids : List Nat) (vs : List Value) (r : Nat) (w : Value) (ts : List ConstTree),
      vs.getD r .other = .other →
      denoteListFueled f vs ids = some ts → denoteListFueled f (vs.set r w) ids = some ts := by
  intro ids
  induction ids with
  | nil =>
    intro vs r w ts _ h
    simp [denoteListFueled] at h
    simp [denoteListFueled, ← h]
  | cons v rest ih =>
    intro vs r w ts hr h
    cases hv : denoteFueled f vs v with
    | none => simp [denoteListFueled, hv] at h
    | some t =>
      cases hrest : denoteListFueled f vs rest with
      | none => simp [denoteListFueled, hv, hrest] at h
      | some ts' =>
        simp [denoteListFueled, hv, hrest] at h
        simp [denoteListFueled, hP vs r w v t hr hv, ih vs r w ts' hr hrest, ← h]

theorem denote_set_untouched :
    ∀ (f : Nat) (vs : List Value) (r : Nat) (w : Value) (v : Nat) (t : ConstTree),
      vs.getD r .other = .other →
      denoteFueled f vs v = some t → denoteFueled f (vs.set r w) v = some t := by
  intro f
  induction f with
  | zero => intro vs r w v t _ h; simp [denoteFueled] at h
  | succ f ih =>
    intro vs r w v t hr h
    cases hv : vs.getD v .other with
    | numericConstant val ty =>
      have hne : v ≠ r := by
        intro heq
        rw [heq, hr] at hv
        cases hv
      simp only [denoteFueled, hv] at h
      simp only [denoteFueled, getD_set_ne vs r v w hne, hv]
      exact h
    | arrayConstant elements ty =>
      have hne : v ≠ r := by
        intro heq
        rw [heq, hr] at hv
        cases hv
      cases hts : denoteListFueled f vs elements with
      | none => simp only [denoteFueled, hv, hts] at h; simp at h
      | some ts' =>
        simp only [denoteFueled, hv, hts] at h
        simp only [denoteFueled, getD_set_ne vs r v w hne, hv,
          denoteList_set_untouched_of f
            (fun vs r w v t hr h => ih vs r w v t hr h) elements vs r w ts' hr hts]
        exact h
    | function fid => simp only [denoteFueled, hv] at h; simp at h
    | other => simp only [denoteFueled, hv] at h; simp at h

theorem denoteList_set_untouched {f : Nat} {vs : List Value} {r : Nat} {w : Value}
    {ids : List Nat} {ts : List ConstTree} (hr : vs.getD r .other = .other)
    (h : denoteListFueled f vs ids = some ts) :
    denoteListFueled f (vs.set r w) ids = some ts :=
  denoteList_set_untouched_of f
    (fun vs r w v t hr h => denote_set_untouched f vs r w v t hr h) ids vs r w ts hr h

/-! ## Well-formed store lemmas -/

theorem wfStore_spec {vs : List Value} (hwf : wfStoreB vs = true) :
    ∀ (i : Nat) (elements : List Nat) (typ : Nat),
      vs.getD i .other = .arrayConstant elements typ →
      ∀ e ∈ elements, e < i ∧ isConstantValue (vs.getD e .other) = true := by
  intro i elements typ hi e he
  have hilt : i < vs.length := getD_ne_default_lt vs i (by rw [hi]; simp)
  unfold wfStoreB at hwf
  rw [List.all_eq_true] at hwf
  have h1 := hwf i (List.mem_range.mpr hilt)
  simp only [hi] at h1
  rw [List.all_eq_true] at h1
  have h2 := h1 e he
  simp only [Bool.and_eq_true, decide_eq_true_eq] at h2
  exact h2

theorem denote_of_wf :
    ∀ (cid : Nat) (vs : List Value), wfStoreB vs = true →
      isConstantValue (vs.getD cid .other) = true →
      ∃ t, denoteFueled (cid + 1) vs cid = some t := by
  intro cid
  induction cid using Nat.strong_induction_on with
  | _ cid ih =>
    intro vs hwf hc
    cases hv : vs.getD cid .other with
    | numericConstant val ty =>
      exact ⟨.num val ty, by simp only [denoteFueled, hv]⟩
    | arrayConstant elements ty =>
      have hspec := wfStore_spec hwf cid elements ty hv
      have hlist : ∀ (l : List Nat),
          (∀ e ∈ l, e < cid ∧ isConstantValue (vs.getD e .other) = true) →
          ∃ ts, denoteListFueled cid vs l = some ts := by
        intro l
        induction l with
        | nil => exact fun _ => ⟨[], by simp [denoteListFueled]⟩
        | cons e rest ihl =>
          intro hmem
          obtain ⟨helt, hec⟩ := hmem e (List.mem_cons_self e rest)
          obtain ⟨t, ht⟩ := ih e helt vs hwf hec
          have ht' : denoteFueled cid vs e = some t :=
            denote_mono (e + 1) vs e t cid (Nat.succ_le_of_lt helt) ht
          obtain ⟨ts, hts⟩ := ihl (fun x hx => hmem x (List.mem_cons_of_mem e hx))
          exact ⟨t :: ts, by simp [denoteListFueled, ht', hts]⟩
      obtain ⟨ts, hts⟩ := hlist elements hspec
      exact ⟨.arr ts ty, by simp only [denoteFueled, hv, hts]⟩
    | function fid => rw [hv] at hc; simp [isConstantValue] at hc
    | other => rw [hv] at hc; simp [isConstantValue] at hc

theorem isConstant_eq_isConstantValue (dfg : DataFlowGraph) (v : Nat) :
    dfg.isConstant v = isConstantValue (dfg.values.getD v .other) := by
  cases h : dfg.values.getD v .other <;>
    simp only [DataFlowGraph.isConstant, DataFlowGraph.getValue, isConstantValue, h]

theorem denoteConstant_of_wf {dfg : DataFlowGraph} {v : Nat}
    (hwf : wfStoreB dfg.values = true) (hc : dfg.isConstant v = true) :
    ∃ t, denoteConstant dfg.values v = some t := by
  rw [isConstant_eq_isConstantValue] at hc
  have hlt : v < dfg.values.length := by
    apply getD_ne_default_lt
    intro h
    rw [h] at hc
    simp [isConstantValue] at hc
  obtain ⟨t, ht⟩ := denote_of_wf v dfg.values hwf hc
  have hle : v + 1 ≤ dfg.values.length + 1 := by omega
  exact ⟨t, denote_mono (v + 1) dfg.values v t (dfg.values.length + 1) hle ht⟩

/-! ## Copy characterization -/

theorem copyList_eq_of (f : Nat)
    (hP : ∀ (src : DataFlowGraph) (cid : Nat) (dst : DataFlowGraph) (t : ConstTree),
      denoteFueled f src.values cid = some t →
      copyConstantFueled f src cid dst =
        .ok ({ dst with values := dst.values ++ flatConst dst.values.length t },
             dst.values.length + treeSize t - 1)) :
    ∀ (ids : List Nat) (src : DataFlowGraph) (dst : DataFlowGraph) (ts : List ConstTree),
      denoteListFueled f src.values ids = some ts →
      copyConstantListFueled f src ids dst =
        .ok ({ dst with values := dst.values ++ (flatList dst.values.length ts).1 },
             (flatList dst.values.length ts).2) := by
  intro ids
  induction ids with
  | nil =>
    intro src dst ts h
    simp [denoteListFueled] at h
    subst h
    simp [copyConstantListFueled, flatList]
  | cons v rest ih =>
    intro src dst ts h
    cases hv : denoteFueled f src.values v with
    | none => simp [denoteListFueled, hv] at h
    | some t =>
      cases hrest : denoteListFueled f src.values rest with
      | none => simp [denoteListFueled, hv, hrest] at h
      | some ts' =>
        simp [denoteListFueled, hv, hrest] at h
        have hc := hP src v dst t hv
        have hcl := ih src
          { dst with values := dst.values ++ flatConst dst.values.length t } ts' hrest
        simp only [copyConstantListFueled, hc, hcl]
        simp [flatList, flatConst_length, List.length_append, List.append_assoc, ← h]

theorem copy_eq_of_denote :
    ∀ (f : Nat) (src : DataFlowGraph) (cid : Nat) (dst : DataFlowGraph) (t : ConstTree),
      denoteFueled f src.values cid = some t →
      copyConstantFueled f src cid dst =
        .ok ({ dst with values := dst.values ++ flatConst dst.values.length t },
             dst.values.length + treeSize t - 1) := by
  intro f
  induction f with
  | zero => intro src cid dst t h; simp [denoteFueled] at h
  | succ f ih =>
    intro src cid dst t h
    cases hv : src.values.getD cid .other with
    | numericConstant val ty =>
      simp only [denoteFueled, hv] at h
      have ht : t = ConstTree.num val ty := by
        cases h
        rfl
      subst ht
      simp only [copyConstantFueled, DataFlowGraph.getNumericConstantWithType,
        DataFlowGraph.getValue, hv]
      simp [DataFlowGraph.makeConstant, flatConst, treeSize]
    | arrayConstant elements ty =>
      cases hts : denoteListFueled f src.values elements with
      | none => simp only [denoteFueled, hv, hts] at h; simp at h
      | some ts =>
        simp only [denoteFueled, hv, hts] at h
        have ht : t = ConstTree.arr ts ty := by
          cases h
          rfl
        subst ht
        have hcl := copyList_eq_of f ih elements src dst ts hts
        simp only [copyConstantFueled, DataFlowGraph.getNumericConstantWithType,
          DataFlowGraph.getArrayConstant, DataFlowGraph.getValue, hv, hcl]
        simp [DataFlowGraph.makeArray, flatConst, treeSize, flatList_length,
          List.length_append, List.append_assoc]
    | function fid => simp only [denoteFueled, hv] at h; simp at h
    | other => simp only [denoteFueled, hv] at h; simp at h

theorem copyList_ok_of (f : Nat)
    (hP : ∀ src cid dst p, copyConstantFueled f src cid dst = .ok p →
      ∃ t, denoteFueled f src.values cid = some t) :
    ∀ ids src dst p, copyConstantListFueled f src ids dst = .ok p →
      ∃ ts, denoteListFueled f src.values ids = some ts := by
  intro ids
  induction ids with
  | nil => exact fun src dst p _ => ⟨[], by simp [denoteListFueled]⟩
  | cons v rest ih =>
    intro src dst p h
    cases hc : copyConstantFueled f src v dst with
    | error e => simp [copyConstantListFueled, hc] at h
    | ok q =>
      obtain ⟨dst1, nid⟩ := q
      obtain ⟨t, ht⟩ := hP src v dst (dst1, nid) hc
      cases hcl : copyConstantListFueled f src rest dst1 with
      | error e => simp [copyConstantListFueled, hc, hcl] at h
      | ok q' =>
        obtain ⟨ts, hts⟩ := ih src dst1 q' hcl
        exact ⟨t :: ts, by simp [denoteListFueled, ht, hts]⟩

theorem copy_ok_denote :
    ∀ (f : Nat) (src : DataFlowGraph) (cid : Nat) (dst : DataFlowGraph) (p),
      copyConstantFueled f src cid dst = .ok p →
      ∃ t, denoteFueled f src.values cid = some t := by
  intro f
  induction f with
  | zero => intro src cid dst p h; simp [copyConstantFueled] at h
  | succ f ih =>
    intro src cid dst p h
    cases hv : src.values.getD cid .other with
    | numericConstant val ty =>
      exact ⟨.num val ty, by simp only [denoteFueled, hv]⟩
    | arrayConstant elements ty =>
      simp only [copyConstantFueled, DataFlowGraph.getNumericConstantWithType,
        DataFlowGraph.getArrayConstant, DataFlowGraph.getValue, hv] at h
      cases hcl : copyConstantListFueled f src elements dst with
      | error e => rw [hcl] at h; simp at h
      | ok q =>
        obtain ⟨ts, hts⟩ := copyList_ok_of f (fun src cid dst p h => ih src cid dst p h)
          elements src dst q hcl
        exact ⟨.arr ts ty, by simp only [denoteFueled, hv, hts]⟩
    | function fid =>
      simp only [copyConstantFueled, DataFlowGraph.getNumericConstantWithType,
        DataFlowGraph.getArrayConstant, DataFlowGraph.getValue, hv] at h
      simp at h
    | other =>
      simp only [copyConstantFueled, DataFlowGraph.getNumericConstantWithType,
        DataFlowGraph.getArrayConstant, DataFlowGraph.getValue, hv] at h
      simp at h

theorem copyConstantToFunction_eq {src dst : DataFlowGraph} {cid : Nat} {t : ConstTree}
    (h : denoteConstant src.values cid = some t) :
    copyConstantToFunction src cid dst =
      .ok ({ dst with values := dst.values ++ flatConst dst.values.length t },
           dst.values.length + treeSize t - 1) :=
  copy_eq_of_denote (src.values.length + 1) src cid dst t h

theorem copyConstantToFunction_ok {src dst : DataFlowGraph} {cid : Nat}
    {p : DataFlowGraph × Nat} (h : copyConstantToFunction src cid dst = .ok p) :
    ∃ t, denoteConstant src.values cid = some t ∧
      p = ({ dst with values := dst.values ++ flatConst dst.values.length t },
           dst.values.length + treeSize t - 1) := by
  obtain ⟨t, ht⟩ := copy_ok_denote (src.values.length + 1) src cid dst p h
  refine ⟨t, ht, ?_⟩
  have heq := copy_eq_of_denote (src.values.length + 1) src cid dst t ht
  rw [copyConstantToFunction] at h
  rw [heq] at h
  cases h
  rfl

/-! ## Denotation of freshly copied regions -/

theorem getD_at_boundary (l1 : List Value) (x : Value) (l2 : List Value) :
    (l1 ++ x :: l2).getD l1.length .other = x := by
  rw [List.getD_append_right l1 (x :: l2) .other l1.length (le_refl _)]
  simp [List.getD]

theorem getD_set_self (vs : List Value) (r : Nat) (w : Value) (h : r < vs.length) :
    (vs.set r w).getD r .other = w := by
  simp [List.getD_eq_getElem?_getD, List.getElem?_set_self, h]

theorem flatConst_root (base : Nat) (t : ConstTree) :
    ∃ pre : List Value, flatConst base t = pre ++ [rootValue base t] ∧
      pre.length = treeSize t - 1 := by
  cases t with
  | num v ty => exact ⟨[], by simp [flatConst, rootValue, treeSize]⟩
  | arr elements ty =>
    exact ⟨(flatList base elements).1,
      by simp [flatConst, rootValue, treeSize, flatList_length]⟩

theorem flat_getD_root (vs : List Value) (t : ConstTree) (ws : List Value) :
    (vs ++ flatConst vs.length t ++ ws).getD (vs.length + treeSize t - 1) .other =
      rootValue vs.length t := by
  obtain ⟨pre, hpre, hlen⟩ := flatConst_root vs.length t
  have hsz := treeSize_pos t
  rw [hpre]
  have heq : vs ++ (pre ++ [rootValue vs.length t]) ++ ws =
      (vs ++ pre) ++ rootValue vs.length t :: ws := by
    simp [List.append_assoc]
  rw [heq]
  have hidx : vs.length + treeSize t - 1 = (vs ++ pre).length := by
    simp only [List.length_append, hlen]
    omega
  rw [hidx]
  exact getD_at_boundary (vs ++ pre) _ ws

theorem flat_denote_list_of (F : Nat)
    (hP : ∀ (t : ConstTree) (u ws : List Value), treeDepth t < F →
      denoteFueled F (u ++ flatConst u.length t ++ ws) (u.length + treeSize t - 1) = some t) :
    ∀ (ts : List ConstTree) (u ws : List Value), treeDepthList ts < F →
      denoteListFueled F (u ++ (flatList u.length ts).1 ++ ws)
        ((flatList u.length ts).2) = some ts := by
  intro ts
  induction ts with
  | nil => intro u ws _; simp [flatList, denoteListFueled]
  | cons t rest ih =>
    intro u ws hd
    simp only [treeDepthList, Nat.max_lt] at hd
    obtain ⟨hd1, hd2⟩ := hd
    have hstore : u ++ (flatList u.length (t :: rest)).1 ++ ws =
        u ++ flatConst u.length t ++
          ((flatList (u.length + (flatConst u.length t).length) rest).1 ++ ws) := by
      simp [flatList, List.append_assoc]
    have hhead := hP t u
      ((flatList (u.length + (flatConst u.length t).length) rest).1 ++ ws) hd1
    rw [← hstore] at hhead
    have hulen : (u ++ flatConst u.length t).length = u.length + (flatConst u.length t).length := by
      simp
    have htail := ih (u ++ flatConst u.length t) ws hd2
    rw [hulen] at htail
    have hstore2 : u ++ flatConst u.length t ++
          (flatList (u.length + (flatConst u.length t).length) rest).1 ++ ws =
        u ++ (flatList u.length (t :: rest)).1 ++ ws := by
      simp [flatList, List.append_assoc]
    rw [hstore2] at htail
    have hroots : (flatList u.length (t :: rest)).2 =
        (u.length + (flatConst u.length t).length - 1) ::
          (flatList (u.length + (flatConst u.length t).length) rest).2 := by
      simp [flatList]
    rw [hroots]
    have hrootidx : u.length + (flatConst u.length t).length - 1 =
        u.length + treeSize t - 1 := by
      rw [flatConst_length]
    rw [hrootidx]
    simp only [List.append_assoc] at hhead htail ⊢
    simp [denoteListFueled, hhead, htail]

theorem flat_denote :
    ∀ (F : Nat) (t : ConstTree) (u ws : List Value), treeDepth t < F →
      denoteFueled F (u ++ flatConst u.length t ++ ws) (u.length + treeSize t - 1) = some t := by
  intro F
  induction F with
  | zero => intro t u ws h; exact absurd h (Nat.not_lt_zero _)
  | succ F ih =>
    intro t u ws hd
    have hroot := flat_getD_root u t ws
    cases t with
    | num val ty =>
      simp only [denoteFueled, hroot, rootValue]
    | arr elements ty =>
      simp only [denoteFueled, hroot, rootValue]
      simp only [treeDepth, Nat.add_lt_add_iff_right] at hd
      have hlist := flat_denote_list_of F ih elements u
        (Value.arrayConstant ((flatList u.length elements).2) ty :: ws) hd
      have hstore : u ++ (flatList u.length elements).1 ++
          (Value.arrayConstant ((flatList u.length elements).2) ty :: ws) =
          u ++ flatConst u.length (ConstTree.arr elements ty) ++ ws := by
        simp [flatConst, List.append_assoc]
      rw [hstore] at hlist
      simp only [List.append_assoc] at hlist ⊢
      simp [hlist]

theorem flat_denote_list {F : Nat} {ts : List ConstTree} {u ws : List Value}
    (hd : treeDepthList ts < F) :
    denoteListFueled F (u ++ (flatList u.length ts).1 ++ ws)
      ((flatList u.length ts).2) = some ts :=
  flat_denote_list_of F (fun t u ws hd => flat_denote F t u ws hd) ts u ws hd

theorem denote_set_root (vs : List Value) (t : ConstTree) (r : Nat) (F : Nat)
    (hr : r < vs.length) (hd : treeDepth t < F) :
    denoteFueled F
      ((vs ++ flatConst vs.length t).set r
        ((vs ++ flatConst vs.length t).getD (vs.length + treeSize t - 1) .other)) r
      = some t := by
  have hroot : (vs ++ flatConst vs.length t).getD (vs.length + treeSize t - 1) .other =
      rootValue vs.length t := by
    have := flat_getD_root vs t []
    simpa using this
  rw [hroot, List.set_append_left r (rootValue vs.length t) hr]
  obtain ⟨F', rfl⟩ : ∃ F', F = F' + 1 := ⟨F - 1, by omega⟩
  have hget : (vs.set r (rootValue vs.length t) ++ flatConst vs.length t).getD r .other =
      rootValue vs.length t := by
    rw [List.getD_append (vs.set r (rootValue vs.length t)) (flatConst vs.length t)
      Value.other r (by simpa using hr)]
    exact getD_set_self vs r _ hr
  cases t with
  | num val ty =>
    simp only [rootValue] at hget ⊢
    simp only [denoteFueled, hget]
  | arr elements ty =>
    simp only [treeDepth, Nat.add_lt_add_iff_right] at hd
    simp only [rootValue] at hget ⊢
    simp only [denoteFueled, hget]
    have hulen : (vs.set r (Value.arrayConstant ((flatList vs.length elements).2) ty)).length =
        vs.length := by simp
    have hlist := @flat_denote_list F' elements
      (vs.set r (Value.arrayConstant ((flatList vs.length elements).2) ty))
      [Value.arrayConstant ((flatList vs.length elements).2) ty] hd
    rw [hulen] at hlist
    have hflat : (vs.set r (Value.arrayConstant ((flatList vs.length elements).2) ty)) ++
        flatConst vs.length (ConstTree.arr elements ty) =
        (vs.set r (Value.arrayConstant ((flatList vs.length elements).2) ty)) ++
          (flatList vs.length elements).1 ++
          [Value.arrayConstant ((flatList vs.length elements).2) ty] := by
      simp [flatConst, List.append_assoc]
    rw [hflat]
    simp only [List.append_assoc] at hlist ⊢
    simp [hlist]

/-! ## The result-rebinding loop -/

theorem rebind_step_spec (self g : Func) (r v : Nat) (dfg1 : DataFlowGraph) (nid : Nat)
    (hc : copyConstantToFunction g.dfg v self.dfg = .ok (dfg1, nid))
    (hrlt : r < self.dfg.values.length)
    (hrother : self.dfg.values.getD r .other = .other) :
    ∃ t, denoteConstant g.dfg.values v = some t ∧
      denoteConstant (dfg1.setValueFromId r nid).values r = some t ∧
      (dfg1.setValueFromId r nid).instructions = self.dfg.instructions ∧
      (dfg1.setValueFromId r nid).results = self.dfg.results ∧
      (dfg1.setValueFromId r nid).blocks = self.dfg.blocks ∧
      self.dfg.values.length ≤ (dfg1.setValueFromId r nid).values.length ∧
      (∀ id, id ≠ r → id < self.dfg.values.length →
        (dfg1.setValueFromId r nid).values.getD id .other = self.dfg.values.getD id .other) ∧
      (∀ id t', id ≠ r → denoteConstant self.dfg.values id = some t' →
        denoteConstant (dfg1.setValueFromId r nid).values id = some t') := by
  obtain ⟨t, htv, hpq⟩ := copyConstantToFunction_ok hc
  injection hpq with h1 h2
  subst h1
  subst h2
  refine ⟨t, htv, ?_, ?_, ?_, ?_, ?_, ?_, ?_⟩
  · rw [denoteConstant]
    simp only [DataFlowGraph.setValueFromId, DataFlowGraph.getValue]
    have hlen : ((self.dfg.values ++ flatConst self.dfg.values.length t).set r
        ((self.dfg.values ++ flatConst self.dfg.values.length t).getD
          (self.dfg.values.length + treeSize t - 1) .other)).length =
        self.dfg.values.length + treeSize t := by
      simp [flatConst_length]
    rw [hlen]
    have hsz := treeSize_pos t
    have hdep := treeDepth_le_size t
    exact denote_set_root self.dfg.values t r (self.dfg.values.length + treeSize t + 1) hrlt
      (by omega)
  · simp [DataFlowGraph.setValueFromId]
  · simp [DataFlowGraph.setValueFromId]
  · simp [DataFlowGraph.setValueFromId]
  · simp [DataFlowGraph.setValueFromId, flatConst_length]
  · intro id hne hlt
    simp only [DataFlowGraph.setValueFromId, DataFlowGraph.getValue]
    rw [getD_set_ne _ _ _ _ hne,
      List.getD_append self.dfg.values (flatConst self.dfg.values.length t) .other id hlt]
  · intro id t' hne hd
    rw [denoteConstant] at hd
    have h1 : denoteFueled (self.dfg.values.length + 1)
        (self.dfg.values ++ flatConst self.dfg.values.length t) id = some t' :=
      denote_append _ self.dfg.values _ id t' hd
    have h2 : (self.dfg.values ++ flatConst self.dfg.values.length t).getD r .other =
        .other := by
      rw [List.getD_append self.dfg.values (flatConst self.dfg.values.length t) .other r hrlt]
      exact hrother
    have h3 := denote_set_untouched (self.dfg.values.length + 1) _ r
      ((self.dfg.values ++ flatConst self.dfg.values.length t).getD
        (self.dfg.values.length + treeSize t - 1) .other) id t' h2 h1
    rw [denoteConstant]
    simp only [DataFlowGraph.setValueFromId, DataFlowGraph.getValue]
    refine denote_mono _ _ _ _ _ ?_ h3
    simp [flatConst_length]

theorem copyReturnValues_spec (g : Func) :
    ∀ (pairs : List (Nat × Nat)) (self self1 : Func),
      copyReturnValues g pairs self = .ok self1 →
      (pairs.map Prod.fst).Nodup →
      (∀ p ∈ pairs, p.1 < self.dfg.values.length ∧
        self.dfg.values.getD p.1 .other = .other) →
      self1.dfg.instructions = self.dfg.instructions ∧
      self1.dfg.results = self.dfg.results ∧
      self1.dfg.blocks = self.dfg.blocks ∧
      self1.entryBlock = self.entryBlock ∧ self1.id = self.id ∧
      self1.runtime = self.runtime ∧
      self.dfg.values.length ≤ self1.dfg.values.length ∧
      (∀ p ∈ pairs, ∃ t, denoteConstant g.dfg.values p.2 = some t ∧
        denoteConstant self1.dfg.values p.1 = some t) ∧
      (∀ id t, denoteConstant self.dfg.values id = some t →
        id ∉ pairs.map Prod.fst → denoteConstant self1.dfg.values id = some t) ∧
      (∀ id, self.dfg.values.getD id .other = .other → id ∉ pairs.map Prod.fst →
        id < self.dfg.values.length →
        self1.dfg.values.getD id .other = .other) ∧
      (∀ id, id < self.dfg.values.length → id ∉ pairs.map Prod.fst →
        self1.dfg.values.getD id .other = self.dfg.values.getD id .other) := by
  intro pairs
  induction pairs with
  | nil =>
    intro self self1 h _ _
    simp only [copyReturnValues] at h
    cases h
    exact ⟨rfl, rfl, rfl, rfl, rfl, rfl, le_refl _, by simp, fun id t hd _ => hd,
      fun id h _ _ => h, fun id _ _ => rfl⟩
  | cons p rest ih =>
    obtain ⟨r, v⟩ := p
    intro self self1 h hnd hmem
    obtain ⟨hrlt, hrother⟩ := hmem (r, v) (List.mem_cons_self _ _)
    cases hc : copyConstantToFunction g.dfg v self.dfg with
    | error e =>
      simp only [copyReturnValues, hc] at h
      cases h
    | ok q =>
      obtain ⟨dfg1, nid⟩ := q
      simp only [copyReturnValues, hc] at h
      obtain ⟨t, htv, hrden, hfi, hfr, hfb, hflen, hgetD', hdenote'⟩ :=
        rebind_step_spec self g r v dfg1 nid hc hrlt hrother
      have hnd0 : r ∉ rest.map Prod.fst := by
        simp only [List.map_cons, List.nodup_cons] at hnd
        exact hnd.1
      have hnd' : (rest.map Prod.fst).Nodup := by
        simp only [List.map_cons, List.nodup_cons] at hnd
        exact hnd.2
      have hmem' : ∀ p ∈ rest,
          p.1 < ({ self with dfg := dfg1.setValueFromId r nid } : Func).dfg.values.length ∧
          ({ self with dfg := dfg1.setValueFromId r nid } : Func).dfg.values.getD p.1 .other =
            .other := by
        intro p hp
        obtain ⟨hlt, hother⟩ := hmem p (List.mem_cons_of_mem _ hp)
        have hne : p.1 ≠ r := by
          intro heq
          exact hnd0 (heq ▸ List.mem_map_of_mem Prod.fst hp)
        constructor
        · simp only []
          omega
        · simp only []
          rw [hgetD' p.1 hne hlt]
          exact hother
      obtain ⟨hi1, hi2, hi3, hi4, hi5, hi6, hi7, hi8, hi9, hi10, hi11⟩ :=
        ih { self with dfg := dfg1.setValueFromId r nid } self1 h hnd' hmem'
      simp only [] at hi1 hi2 hi3 hi4 hi5 hi6 hi7 hi8 hi9 hi10 hi11
      refine ⟨hi1.trans hfi, hi2.trans hfr, hi3.trans hfb, hi4, hi5, hi6, by omega,
        ?_, ?_, ?_, ?_⟩
      · intro p hp
        rcases List.mem_cons.mp hp with heq | hmemrest
        · subst heq
          exact ⟨t, htv, hi9 r t hrden hnd0⟩
        · exact hi8 p hmemrest
      · intro id t' hden hnotin
        simp only [List.map_cons, List.mem_cons, not_or] at hnotin
        exact hi9 id t' (hdenote' id t' hnotin.1 hden) hnotin.2
      · intro id hother hnotin hlt
        simp only [List.map_cons, List.mem_cons, not_or] at hnotin
        refine hi10 id ?_ hnotin.2 (by omega)
        rw [hgetD' id hnotin.1 hlt]
        exact hother
      · intro id hlt hnotin
        simp only [List.map_cons, List.mem_cons, not_or] at hnotin
        rw [hi11 id (by omega) hnotin.2]
        exact hgetD' id hnotin.1 hlt

theorem denote_flat_region (vs : List Value) (t : ConstTree) :
    denoteConstant (vs ++ flatConst vs.length t) (vs.length + treeSize t - 1) = some t := by
  have hdep := treeDepth_le_size t
  have hsz := treeSize_pos t
  have h := flat_denote ((vs ++ flatConst vs.length t).length + 1) t vs []
    (by simp only [List.length_append, flatConst_length]; omega)
  simpa [denoteConstant] using h

/-! ## Claims about constant migration -/

/-- C5: Constant migration produces a value-wise structurally equal constant in the
destination function's value store. The copy of a (deep) constant succeeds, the migrated root
identifier denotes the same constant tree (same scalar values and numeric types, element
order and nesting depth preserved, since the tree fixes all of these), the root identifier
and the whole appended region are fresh and local to the destination, and migrating the same
source constant twice yields two distinct, non-aliased destination constants in disjoint
fresh regions. -/
theorem claimC5_migration (src dst : DataFlowGraph) (cid : Nat) (t : ConstTree)
    (h : denoteConstant src.values cid = some t) :
    ∃ dst1 nid,
      copyConstantToFunction src cid dst = .ok (dst1, nid) ∧
      dst1.values = dst.values ++ flatConst dst.values.length t ∧
      dst1.instructions = dst.instructions ∧ dst1.results = dst.results ∧
      dst1.blocks = dst.blocks ∧
      denoteConstant dst1.values nid = some t ∧
      dst.values.length ≤ nid ∧ nid < dst1.values.length ∧
      ∃ dst2 nid2,
        copyConstantToFunction src cid dst1 = .ok (dst2, nid2) ∧
        denoteConstant dst2.values nid2 = some t ∧
        nid < nid2 ∧ dst1.values.length ≤ nid2 := by
  have hsz := treeSize_pos t
  have hc1 := @copyConstantToFunction_eq src dst _ _ h
  refine ⟨_, _, hc1, rfl, rfl, rfl, rfl, denote_flat_region dst.values t, by omega, ?_, ?_⟩
  · simp only [List.length_append, flatConst_length]
    omega
  · have hc2 := @copyConstantToFunction_eq src
      { dst with values := dst.values ++ flatConst dst.values.length t } _ _ h
    refine ⟨_, _, hc2, ?_, ?_, ?_⟩
    · exact denote_flat_region (dst.values ++ flatConst dst.values.length t) t
    · simp only [List.length_append, flatConst_length]
      omega
    · simp only [List.length_append, flatConst_length]
      omega

/-- Witness for C5: migrating the compound constant `[7, 8]` (store `[7, 8, [0,1]]`, root
index 2) into a one-entry destination store. -/
theorem claimC5_migration_witness :
    denoteConstant [Value.numericConstant 7 0, Value.numericConstant 8 0,
        Value.arrayConstant [0, 1] 1] 2 =
      some (ConstTree.arr [ConstTree.num 7 0, ConstTree.num 8 0] 1) ∧
    ∃ dst1 nid,
      copyConstantToFunction
          ⟨[Value.numericConstant 7 0, Value.numericConstant 8 0,
            Value.arrayConstant [0, 1] 1], [], [], []⟩ 2
          ⟨[Value.other], [], [], []⟩ = .ok (dst1, nid) ∧
      denoteConstant dst1.values nid =
        some (ConstTree.arr [ConstTree.num 7 0, ConstTree.num 8 0] 1) ∧
      1 ≤ nid := by
  have hd : denoteConstant [Value.numericConstant 7 0, Value.numericConstant 8 0,
      Value.arrayConstant [0, 1] 1] 2 =
      some (ConstTree.arr [ConstTree.num 7 0, ConstTree.num 8 0] 1) := by
    simp [denoteConstant, denoteFueled, denoteListFueled]
  obtain ⟨dst1, nid, h1, _, _, _, _, h6, h7, _, _⟩ :=
    claimC5_migration
      ⟨[Value.numericConstant 7 0, Value.numericConstant 8 0,
        Value.arrayConstant [0, 1] 1], [], [], []⟩
      ⟨[Value.other], [], [], []⟩ 2
      (ConstTree.arr [ConstTree.num 7 0, ConstTree.num 8 0] 1) hd
  exact ⟨hd, dst1, nid, h1, h6, h7⟩

/-- C6: Under the precondition that the identifier passed to constant migration is a
compile-time constant of the source function (with the source store satisfying the spec's
store invariant, which is what the caller's shallow constant check relies on), the fatal
`unreachable` branch of `copy_constant_to_function` is unreachable: migration returns a
successful result for every destination. -/
theorem claimC6_fatal_unreachable (src dst : DataFlowGraph) (cid : Nat)
    (hwf : wfStoreB src.values = true) (hc : src.isConstant cid = true) :
    (∃ p, copyConstantToFunction src cid dst = .ok p) ∧
      ∀ e, copyConstantToFunction src cid dst ≠ .error e := by
  obtain ⟨t, ht⟩ := denoteConstant_of_wf hwf hc
  have heq := @copyConstantToFunction_eq src dst _ _ ht
  refine ⟨⟨_, heq⟩, fun e he => ?_⟩
  rw [heq] at he
  cases he

/-- Witness for C6: a well-formed store holding `[7, [7]]` and its compound constant. -/
theorem claimC6_fatal_unreachable_witness :
    wfStoreB [Value.numericConstant 7 0, Value.arrayConstant [0] 1] = true ∧
    DataFlowGraph.isConstant ⟨[Value.numericConstant 7 0, Value.arrayConstant [0] 1],
      [], [], []⟩ 1 = true ∧
    ∃ p, copyConstantToFunction
        ⟨[Value.numericConstant 7 0, Value.arrayConstant [0] 1], [], [], []⟩ 1
        ⟨[], [], [], []⟩ = .ok p := by
  refine ⟨by decide, by decide, ?_⟩
  exact (claimC6_fatal_unreachable
    ⟨[Value.numericConstant 7 0, Value.arrayConstant [0] 1], [], [], []⟩
    ⟨[], [], [], []⟩ 1 (by decide) (by decide)).1

/-- C10: Constant migration never mutates the source function: the embedded
`copy_constant_to_function` takes the source store purely as input (the Rust receiver is a
shared reference), its result depends only on the source's value store, and it only extends
the destination: instructions, results and blocks of the destination are unchanged, the
destination store is extended by a nonempty fresh region, and every pre-existing destination
entry is untouched. -/
theorem claimC10_source_frame (src dst dst1 : DataFlowGraph) (cid nid : Nat)
    (h : copyConstantToFunction src cid dst = .ok (dst1, nid)) :
    (∃ newValues, dst1.values = dst.values ++ newValues ∧ newValues ≠ []) ∧
    dst1.instructions = dst.instructions ∧ dst1.results = dst.results ∧
    dst1.blocks = dst.blocks ∧
    (∀ v, v < dst.values.length → dst1.values.getD v .other = dst.values.getD v .other) ∧
    ∀ (ins : List Instruction) (res : List (List Nat)) (blks : List Block),
      copyConstantToFunction ⟨src.values, ins, res, blks⟩ cid dst = .ok (dst1, nid) := by
  obtain ⟨t, ht, hp⟩ := copyConstantToFunction_ok h
  injection hp with h1 h2
  subst h1
  subst h2
  have hsz := treeSize_pos t
  refine ⟨⟨flatConst dst.values.length t, rfl, ?_⟩, rfl, rfl, rfl, ?_, ?_⟩
  · intro hnil
    have := flatConst_length dst.values.length t
    rw [hnil] at this
    simp at this
    omega
  · intro v hv
    exact List.getD_append dst.values _ .other v hv
  · intro ins res blks
    exact @copyConstantToFunction_eq ⟨src.values, ins, res, blks⟩ dst _ _ ht

/-- Witness for C10: migrating the scalar constant `7` into a one-entry destination store. -/
theorem claimC10_source_frame_witness :
    copyConstantToFunction ⟨[Value.numericConstant 7 0], [Instruction.other], [], []⟩ 0
        ⟨[Value.other], [], [], []⟩ =
      .ok (⟨[Value.other, Value.numericConstant 7 0], [], [], []⟩, 1) ∧
    ∃ newValues, (⟨[Value.other, Value.numericConstant 7 0], [], [], []⟩ :
        DataFlowGraph).values = [Value.other] ++ newValues ∧ newValues ≠ [] := by
  have hc : copyConstantToFunction ⟨[Value.numericConstant 7 0], [Instruction.other], [], []⟩ 0
      ⟨[Value.other], [], [], []⟩ =
      .ok (⟨[Value.other, Value.numericConstant 7 0], [], [], []⟩, 1) := by
    have hd : denoteConstant [Value.numericConstant 7 0] 0 = some (ConstTree.num 7 0) := by
      simp [denoteConstant, denoteFueled]
    have := @copyConstantToFunction_eq
      ⟨[Value.numericConstant 7 0], [Instruction.other], [], []⟩
      ⟨[Value.other], [], [], []⟩ _ _ hd
    simpa [flatConst, treeSize] using this
  obtain ⟨⟨newValues, hnew, hne⟩, _, _, _, _, _⟩ :=
    claimC10_source_frame ⟨[Value.numericConstant 7 0], [Instruction.other], [], []⟩
      ⟨[Value.other], [], [], []⟩ ⟨[Value.other, Value.numericConstant 7 0], [], [], []⟩ 0 1 hc
  exact ⟨hc, newValues, hnew, hne⟩

/-! ## Classification of instructions -/

theorem candidateCallee_some {self : Func} {iid : Nat} {bf : List (Nat × Func)}
    {fid : Nat} {g : Func} {args : List Nat}
    (h : candidateCallee self iid bf = some (fid, g, args)) :
    ∃ fv, self.dfg.getInstruction iid = .call fv args ∧
      self.dfg.getValue fv = .function fid ∧ assocFind bf fid = some g := by
  unfold candidateCallee at h
  cases hi : self.dfg.getInstruction iid with
  | other => simp only [hi] at h; cases h
  | call fv args' =>
    simp only [hi] at h
    cases hv : self.dfg.getValue fv with
    | function fid' =>
      simp only [hv] at h
      cases hf : assocFind bf fid' with
      | none => simp only [hf] at h; cases h
      | some g' =>
        simp only [hf, Option.some.injEq, Prod.mk.injEq] at h
        obtain ⟨ha, hb, hc⟩ := h
        subst ha; subst hb; subst hc
        exact ⟨fv, rfl, hv, hf⟩
    | numericConstant val ty => simp only [hv] at h; cases h
    | arrayConstant el ty => simp only [hv] at h; cases h
    | other => simp only [hv] at h; cases h

theorem optimizeConstBrilligCall_not_candidate {ε : Type} (oracle : Oracle ε) (agg : Int)
    (self : Func) (iid : Nat) (bf : List (Nat × Func)) (mk : List Nat)
    (h : candidateCallee self iid bf = none) :
    optimizeConstBrilligCall oracle agg self iid bf mk = .ok (.NotABrilligCall, mk) := by
  unfold candidateCallee at h
  cases hi : self.dfg.getInstruction iid with
  | other => simp only [optimizeConstBrilligCall, hi]
  | call fv args' =>
    simp only [hi] at h
    cases hv : self.dfg.getValue fv with
    | function fid' =>
      simp only [hv] at h
      cases hf : assocFind bf fid' with
      | none => simp only [optimizeConstBrilligCall, hi, hv, hf]
      | some g' => simp only [hf] at h; cases h
    | numericConstant val ty => simp only [optimizeConstBrilligCall, hi, hv]
    | arrayConstant el ty => simp only [optimizeConstBrilligCall, hi, hv]
    | other => simp only [optimizeConstBrilligCall, hi, hv]

theorem optimizeConstBrilligCall_nonconst {ε : Type} (oracle : Oracle ε) (agg : Int)
    (self : Func) (iid : Nat) (bf : List (Nat × Func)) (mk : List Nat)
    {fid : Nat} {g : Func} {args : List Nat}
    (hc : candidateCallee self iid bf = some (fid, g, args))
    (hnc : args.all (fun a => self.dfg.isConstant a) = false) :
    optimizeConstBrilligCall oracle agg self iid bf mk = .ok (.CannotOptimize fid, mk) := by
  obtain ⟨fv, h1, h2, h3⟩ := candidateCallee_some hc
  simp only [optimizeConstBrilligCall, h1, h2, h3, hnc]
  simp

theorem optimizeConstBrilligCall_attempt {ε : Type} (oracle : Oracle ε) (agg : Int)
    (self : Func) (iid : Nat) (bf : List (Nat × Func)) (mk : List Nat)
    {fid : Nat} {g : Func} {args : List Nat}
    (hc : candidateCallee self iid bf = some (fid, g, args))
    (hconst : args.all (fun a => self.dfg.isConstant a) = true) :
    optimizeConstBrilligCall oracle agg self iid bf mk =
      match preparedClone self fid g args with
      | .error e => .error e
      | .ok fn =>
        match optimize oracle agg fn with
        | .error _ => .ok (.CannotOptimize fid, mk)
        | .ok fn =>
          if ¬ ((fn.dfg.getBlock g.entryBlock).instructions.isEmpty) then
            .ok (.CannotOptimize fid, mk.insert fid)
          else
            match (fn.dfg.getBlock g.entryBlock).terminator with
            | .ret returnValues =>
              if ¬ (returnValues.all fun v => fn.dfg.isConstant v) then
                .ok (.CannotOptimize fid, mk)
              else .ok (.Optimized fn returnValues, mk)
            | .other => .ok (.CannotOptimize fid, mk) := by
  obtain ⟨fv, h1, h2, h3⟩ := candidateCallee_some hc
  simp only [optimizeConstBrilligCall, h1, h2, h3, hconst]
  simp only [not_true, if_neg, ite_false, Bool.not_eq_true]
  rfl

/-! ## Per-instruction processing reductions -/

theorem processInstructions_cons_not {ε : Type} (oracle : Oracle ε) (agg : Int)
    (bf : List (Nat × Func)) (bid : Nat) (iid : Nat) (rest : List Nat)
    (self : Func) (mk mk1 : List Nat)
    (h : optimizeConstBrilligCall oracle agg self iid bf mk = .ok (.NotABrilligCall, mk1)) :
    processInstructions oracle agg bf bid (iid :: rest) self mk =
      processInstructions oracle agg bf bid rest (self.pushInstruction bid iid) mk1 := by
  simp only [processInstructions, h]

theorem processInstructions_cons_cannot {ε : Type} (oracle : Oracle ε) (agg : Int)
    (bf : List (Nat × Func)) (bid : Nat) (iid : Nat) (rest : List Nat)
    (self : Func) (mk mk1 : List Nat) (fid : Nat)
    (h : optimizeConstBrilligCall oracle agg self iid bf mk = .ok (.CannotOptimize fid, mk1)) :
    processInstructions oracle agg bf bid (iid :: rest) self mk =
      processInstructions oracle agg bf bid rest (self.pushInstruction bid iid)
        (mk1.insert fid) := by
  simp only [processInstructions, h]

theorem processInstructions_cons_opt {ε : Type} (oracle : Oracle ε) (agg : Int)
    (bf : List (Nat × Func)) (bid : Nat) (iid : Nat) (rest : List Nat)
    (self : Func) (mk mk1 : List Nat) (fn : Func) (rvs : List Nat)
    (h : optimizeConstBrilligCall oracle agg self iid bf mk = .ok (.Optimized fn rvs, mk1)) :
    processInstructions oracle agg bf bid (iid :: rest) self mk =
      match copyReturnValues fn ((self.dfg.instructionResults iid).zip rvs) self with
      | .error e => .error e
      | .ok self1 => processInstructions oracle agg bf bid rest self1 mk1 := by
  simp only [processInstructions, h]

theorem getD_set_self_any {α : Type} (l : List α) (i : Nat) (w d : α) (h : i < l.length) :
    (l.set i w).getD i d = w := by
  simp [List.getD_eq_getElem?_getD, List.getElem?_set_self, h]

theorem getD_set_ne_any {α : Type} (l : List α) (i j : Nat) (w d : α) (h : j ≠ i) :
    (l.set i w).getD j d = l.getD j d := by
  simp [List.getD_eq_getElem?_getD, List.getElem?_set_ne (Ne.symm h)]

/-! ## Claims about the call specializer -/

/-- C3: For every instruction whose processing step returns (rather than hitting a structural
panic), exactly one of three mutually exclusive outcomes occurs. Not a candidate (not a call,
callee not a function reference, or callee not in the snapshot): re-emitted unchanged and the
must-keep set untouched. Candidate with a non-constant argument: re-emitted unchanged and the
callee added to must-keep. Candidate with all-constant arguments: a specialization attempt,
whose failure re-emits the instruction unchanged and adds the callee to must-keep. The three
guards (no candidate / candidate with non-constant argument / candidate with constant
arguments) are pairwise contradictory, so the outcomes are mutually exclusive. -/
theorem claimC3_trichotomy {ε : Type} (oracle : Oracle ε) (agg : Int) (self : Func)
    (iid bid : Nat) (bf : List (Nat × Func)) (mk mk1 : List Nat)
    (rest : List Nat) (res : OptimizeResult)
    (h : optimizeConstBrilligCall oracle agg self iid bf mk = .ok (res, mk1)) :
    (candidateCallee self iid bf = none ∧ res = .NotABrilligCall ∧ mk1 = mk ∧
      processInstructions oracle agg bf bid (iid :: rest) self mk =
        processInstructions oracle agg bf bid rest (self.pushInstruction bid iid) mk) ∨
    (∃ fid g args, candidateCallee self iid bf = some (fid, g, args) ∧
      args.all (fun a => self.dfg.isConstant a) = false ∧ res = .CannotOptimize fid ∧
      mk1 = mk ∧
      processInstructions oracle agg bf bid (iid :: rest) self mk =
        processInstructions oracle agg bf bid rest (self.pushInstruction bid iid)
          (mk.insert fid)) ∨
    (∃ fid g args, candidateCallee self iid bf = some (fid, g, args) ∧
      args.all (fun a => self.dfg.isConstant a) = true ∧
      ((∃ fn rvs, res = .Optimized fn rvs) ∨
       (res = .CannotOptimize fid ∧
        processInstructions oracle agg bf bid (iid :: rest) self mk =
          processInstructions oracle agg bf bid rest (self.pushInstruction bid iid)
            (mk1.insert fid)))) := by
  cases hcc : candidateCallee self iid bf with
  | none =>
    left
    have heq := optimizeConstBrilligCall_not_candidate oracle agg self iid bf mk hcc
    rw [heq] at h
    simp only [Except.ok.injEq, Prod.mk.injEq] at h
    obtain ⟨hres, hmk⟩ := h
    subst hres
    subst hmk
    exact ⟨rfl, rfl, rfl,
      processInstructions_cons_not _ _ _ _ _ _ _ _ _ heq⟩
  | some trip =>
    obtain ⟨fid, g, args⟩ := trip
    cases hall : args.all (fun a => self.dfg.isConstant a) with
    | false =>
      right; left
      have heq := optimizeConstBrilligCall_nonconst oracle agg self iid bf mk hcc hall
      rw [heq] at h
      simp only [Except.ok.injEq, Prod.mk.injEq] at h
      obtain ⟨hres, hmk⟩ := h
      subst hres
      subst hmk
      exact ⟨fid, g, args, rfl, hall, rfl, rfl,
        processInstructions_cons_cannot _ _ _ _ _ _ _ _ _ _ heq⟩
    | true =>
      right; right
      refine ⟨fid, g, args, rfl, hall, ?_⟩
      have hatt := optimizeConstBrilligCall_attempt oracle agg self iid bf mk hcc hall
      cases hp : preparedClone self fid g args with
      | error e =>
        rw [hatt] at h
        simp only [hp] at h
        cases h
      | ok fn0 =>
        cases ho : optimize oracle agg fn0 with
        | error e =>
          have horig : optimizeConstBrilligCall oracle agg self iid bf mk =
              .ok (.CannotOptimize fid, mk) := by
            rw [hatt]
            simp [hp, ho]
          rw [horig] at h
          simp only [Except.ok.injEq, Prod.mk.injEq] at h
          obtain ⟨hres, hmk⟩ := h
          subst hres
          subst hmk
          exact Or.inr ⟨rfl, processInstructions_cons_cannot _ _ _ _ _ _ _ _ _ _ horig⟩
        | ok fn =>
          cases hinst : (fn.dfg.getBlock g.entryBlock).instructions with
          | cons i0 irest =>
            have horig : optimizeConstBrilligCall oracle agg self iid bf mk =
                .ok (.CannotOptimize fid, mk.insert fid) := by
              rw [hatt]
              simp [hp, ho, hinst]
            rw [horig] at h
            simp only [Except.ok.injEq, Prod.mk.injEq] at h
            obtain ⟨hres, hmk⟩ := h
            subst hres
            subst hmk
            exact Or.inr ⟨rfl, processInstructions_cons_cannot _ _ _ _ _ _ _ _ _ _ horig⟩
          | nil =>
            cases hterm : (fn.dfg.getBlock g.entryBlock).terminator with
            | other =>
              have horig : optimizeConstBrilligCall oracle agg self iid bf mk =
                  .ok (.CannotOptimize fid, mk) := by
                rw [hatt]
                simp [hp, ho, hinst, hterm]
              rw [horig] at h
              simp only [Except.ok.injEq, Prod.mk.injEq] at h
              obtain ⟨hres, hmk⟩ := h
              subst hres
              subst hmk
              exact Or.inr ⟨rfl, processInstructions_cons_cannot _ _ _ _ _ _ _ _ _ _ horig⟩
            | ret rvs =>
              cases hrc : rvs.all (fun v => fn.dfg.isConstant v) with
              | false =>
                have horig : optimizeConstBrilligCall oracle agg self iid bf mk =
                    .ok (.CannotOptimize fid, mk) := by
                  rw [hatt]
                  simp [hp, ho, hinst, hterm, hrc]
                rw [horig] at h
                simp only [Except.ok.injEq, Prod.mk.injEq] at h
                obtain ⟨hres, hmk⟩ := h
                subst hres
                subst hmk
                exact Or.inr ⟨rfl, processInstructions_cons_cannot _ _ _ _ _ _ _ _ _ _ horig⟩
              | true =>
                have horig : optimizeConstBrilligCall oracle agg self iid bf mk =
                    .ok (.Optimized fn rvs, mk) := by
                  rw [hatt]
                  simp [hp, ho, hinst, hterm, hrc]
                rw [horig] at h
                simp only [Except.ok.injEq, Prod.mk.injEq] at h
                obtain ⟨hres, hmk⟩ := h
                subst hres
                exact Or.inl ⟨fn, rvs, rfl⟩

/-- Witness for C3: an instruction that is not a call is re-emitted unchanged with the
must-keep set untouched. -/
theorem claimC3_trichotomy_witness :
    optimizeConstBrilligCall (fun _ f => Except.ok f : Oracle Unit) 0
        ⟨0, 0, ⟨[], [Instruction.other], [], [⟨[], [0], .ret []⟩]⟩, .acir .inlineTag⟩
        0 [] [] = .ok (.NotABrilligCall, []) ∧
    processInstructions (fun _ f => Except.ok f : Oracle Unit) 0 [] 0 [0]
        ⟨0, 0, ⟨[], [Instruction.other], [], [⟨[], [0], .ret []⟩]⟩, .acir .inlineTag⟩ [] =
      processInstructions (fun _ f => Except.ok f : Oracle Unit) 0 [] 0 []
        (Func.pushInstruction
          ⟨0, 0, ⟨[], [Instruction.other], [], [⟨[], [0], .ret []⟩]⟩, .acir .inlineTag⟩ 0 0)
        [] := by
  have h : optimizeConstBrilligCall (fun _ f => Except.ok f : Oracle Unit) 0
      ⟨0, 0, ⟨[], [Instruction.other], [], [⟨[], [0], .ret []⟩]⟩, .acir .inlineTag⟩
      0 [] [] = .ok (.NotABrilligCall, []) := rfl
  refine ⟨h, ?_⟩
  rcases claimC3_trichotomy (fun _ f => Except.ok f : Oracle Unit) 0
      ⟨0, 0, ⟨[], [Instruction.other], [], [⟨[], [0], .ret []⟩]⟩, .acir .inlineTag⟩
      0 0 [] [] [] [] .NotABrilligCall h with
    ⟨_, _, _, hred⟩ | ⟨fid, g, args, hc, _⟩ | ⟨fid, g, args, hc, _⟩
  · exact hred
  · rw [show candidateCallee
        ⟨0, 0, ⟨[], [Instruction.other], [], [⟨[], [0], .ret []⟩]⟩, .acir .inlineTag⟩
        0 [] = none from rfl] at hc
    cases hc
  · rw [show candidateCallee
        ⟨0, 0, ⟨[], [Instruction.other], [], [⟨[], [0], .ret []⟩]⟩, .acir .inlineTag⟩
        0 [] = none from rfl] at hc
    cases hc

/-- C4: A hard error raised by the sub-pipeline while folding a speculative callee clone is
caught at the boundary of the clone-and-fold procedure: the per-call outcome is the ordinary
specialization-local failure `CannotOptimize` (a successful `Result`, not an error), the
original call is re-emitted unchanged, and the callee is marked must-keep. The pass's entry
point cannot propagate the sub-pipeline's error by construction: its result type mentions
only the structural panic type, not the sub-pipeline's error type `ε`. -/
theorem claimC4_pipeline_error_contained {ε : Type} (oracle : Oracle ε) (agg : Int)
    (self : Func) (iid bid : Nat) (bf : List (Nat × Func)) (mk : List Nat)
    (rest : List Nat) (fid : Nat) (g : Func) (args : List Nat) (prepared : Func) (e : ε)
    (hc : candidateCallee self iid bf = some (fid, g, args))
    (hconst : args.all (fun a => self.dfg.isConstant a) = true)
    (hprep : preparedClone self fid g args = .ok prepared)
    (herr : optimize oracle agg prepared = .error e) :
    optimizeConstBrilligCall oracle agg self iid bf mk = .ok (.CannotOptimize fid, mk) ∧
    processInstructions oracle agg bf bid (iid :: rest) self mk =
      processInstructions oracle agg bf bid rest (self.pushInstruction bid iid)
        (mk.insert fid) := by
  have hres : optimizeConstBrilligCall oracle agg self iid bf mk =
      .ok (.CannotOptimize fid, mk) := by
    rw [optimizeConstBrilligCall_attempt oracle agg self iid bf mk hc hconst]
    simp [hprep, herr]
  exact ⟨hres, processInstructions_cons_cannot _ _ _ _ _ _ _ _ _ _ hres⟩

/-- Witness for C4: a zero-argument call to a snapshot function whose sub-pipeline run fails;
the callee clone is prepared successfully, the oracle error is swallowed, and the call is
re-emitted with the callee marked must-keep. -/
theorem claimC4_pipeline_error_contained_witness :
    candidateCallee ⟨0, 0, ⟨[.function 1], [.call 0 []], [[]], [⟨[], [0], .ret []⟩]⟩,
        .acir .inlineTag⟩ 0
        [(1, ⟨1, 0, ⟨[], [], [], [⟨[], [], .ret []⟩]⟩, .brillig .inlineTag⟩)] =
      some (1, ⟨1, 0, ⟨[], [], [], [⟨[], [], .ret []⟩]⟩, .brillig .inlineTag⟩, []) ∧
    optimizeConstBrilligCall (fun _ _ => Except.error () : Oracle Unit) 0
        ⟨0, 0, ⟨[.function 1], [.call 0 []], [[]], [⟨[], [0], .ret []⟩]⟩, .acir .inlineTag⟩
        0 [(1, ⟨1, 0, ⟨[], [], [], [⟨[], [], .ret []⟩]⟩, .brillig .inlineTag⟩)] [] =
      .ok (.CannotOptimize 1, []) := by
  refine ⟨rfl, ?_⟩
  exact (claimC4_pipeline_error_contained (fun _ _ => Except.error () : Oracle Unit) 0
    ⟨0, 0, ⟨[.function 1], [.call 0 []], [[]], [⟨[], [0], .ret []⟩]⟩, .acir .inlineTag⟩
    0 0 [(1, ⟨1, 0, ⟨[], [], [], [⟨[], [], .ret []⟩]⟩, .brillig .inlineTag⟩)] [] []
    1 ⟨1, 0, ⟨[], [], [], [⟨[], [], .ret []⟩]⟩, .brillig .inlineTag⟩ []
    ⟨1, 0, ⟨[], [], [], [⟨[], [], .ret []⟩]⟩, .brillig .inlineTag⟩ ()
    rfl rfl rfl rfl).1

/-- C7: An instruction whose specialization attempt fails leaves the caller exactly as it was:
the processing step reduces to re-appending the drained instruction at the end of the
re-emitted prefix of its block (its original relative position) and recursing, the caller's
value store, instruction arena and results are untouched, the block's parameters and
terminator are untouched, and every other block is untouched; all mutation of the failed
attempt was confined to the discarded working clone, which the caller never sees. -/
theorem claimC7_failure_frame {ε : Type} (oracle : Oracle ε) (agg : Int) (self : Func)
    (iid bid : Nat) (bf : List (Nat × Func)) (mk mk1 : List Nat) (rest : List Nat)
    (fid : Nat) (hb : bid < self.dfg.blocks.length)
    (h : optimizeConstBrilligCall oracle agg self iid bf mk = .ok (.CannotOptimize fid, mk1)) :
    processInstructions oracle agg bf bid (iid :: rest) self mk =
      processInstructions oracle agg bf bid rest (self.pushInstruction bid iid)
        (mk1.insert fid) ∧
    (self.pushInstruction bid iid).dfg.values = self.dfg.values ∧
    (self.pushInstruction bid iid).dfg.instructions = self.dfg.instructions ∧
    (self.pushInstruction bid iid).dfg.results = self.dfg.results ∧
    ((self.pushInstruction bid iid).dfg.getBlock bid).instructions =
      (self.dfg.getBlock bid).instructions ++ [iid] ∧
    ((self.pushInstruction bid iid).dfg.getBlock bid).parameters =
      (self.dfg.getBlock bid).parameters ∧
    ((self.pushInstruction bid iid).dfg.getBlock bid).terminator =
      (self.dfg.getBlock bid).terminator ∧
    ∀ b, b ≠ bid → (self.pushInstruction bid iid).dfg.getBlock b = self.dfg.getBlock b := by
  have hpush : (self.pushInstruction bid iid).dfg.getBlock bid =
      { self.dfg.getBlock bid with
        instructions := (self.dfg.getBlock bid).instructions ++ [iid] } := by
    simp only [Func.pushInstruction, DataFlowGraph.setBlock, DataFlowGraph.getBlock]
    exact getD_set_self_any _ _ _ _ hb
  refine ⟨processInstructions_cons_cannot _ _ _ _ _ _ _ _ _ _ h, rfl, rfl, rfl, ?_, ?_, ?_,
    ?_⟩
  · rw [hpush]
  · rw [hpush]
  · rw [hpush]
  · intro b hbne
    simp only [Func.pushInstruction, DataFlowGraph.setBlock, DataFlowGraph.getBlock]
    exact getD_set_ne_any _ _ _ _ _ hbne

/-- Witness for C7: the failed zero-argument call of the C4 scenario is re-appended to its
block and the caller's store is untouched. -/
theorem claimC7_failure_frame_witness :
    0 < ((⟨0, 0, ⟨[.function 1], [.call 0 []], [[]], [⟨[], [0], .ret []⟩]⟩,
        .acir .inlineTag⟩ : Func)).dfg.blocks.length ∧
    optimizeConstBrilligCall (fun _ _ => Except.error () : Oracle Unit) 0
        ⟨0, 0, ⟨[.function 1], [.call 0 []], [[]], [⟨[], [0], .ret []⟩]⟩, .acir .inlineTag⟩
        0 [(1, ⟨1, 0, ⟨[], [], [], [⟨[], [], .ret []⟩]⟩, .brillig .inlineTag⟩)] [] =
      .ok (.CannotOptimize 1, []) ∧
    ((Func.pushInstruction
        ⟨0, 0, ⟨[.function 1], [.call 0 []], [[]], [⟨[], [0], .ret []⟩]⟩, .acir .inlineTag⟩
        0 0).dfg.getBlock 0).instructions = [0, 0] := by
  refine ⟨by decide, rfl, ?_⟩
  have := (claimC7_failure_frame (fun _ _ => Except.error () : Oracle Unit) 0
    ⟨0, 0, ⟨[.function 1], [.call 0 []], [[]], [⟨[], [0], .ret []⟩]⟩, .acir .inlineTag⟩
    0 0 [(1, ⟨1, 0, ⟨[], [], [], [⟨[], [], .ret []⟩]⟩, .brillig .inlineTag⟩)] [] [] [] 1
    (by decide) rfl).2.2.2.2.1
  simpa using this

/-- C1: For a call whose callee is in the unconstrained snapshot and whose arguments are all
constants (and whose argument migration succeeds, producing the prepared working clone),
specialization succeeds if and only if the sub-pipeline succeeds on the working clone and the
transformed clone's entry block has no instructions, a Return terminator, and all returned
identifiers constant. On success the must-keep set is untouched, the returned function is the
transformed clone, and the processing step drops the call (it is not re-emitted: the
continuation state's blocks are unchanged) and rebinds each original result identifier, in
order, to a constant migrated from the clone's value store into the caller's value store
(denoting the same constant tree). -/
theorem claimC1_success_characterization {ε : Type} (oracle : Oracle ε) (agg : Int)
    (self : Func) (iid bid : Nat) (bf : List (Nat × Func)) (mk : List Nat)
    (rest : List Nat) (fid : Nat) (g : Func) (args : List Nat) (prepared : Func)
    (hc : candidateCallee self iid bf = some (fid, g, args))
    (hconst : args.all (fun a => self.dfg.isConstant a) = true)
    (hprep : preparedClone self fid g args = .ok prepared) :
    ((∃ fn rvs mk1, optimizeConstBrilligCall oracle agg self iid bf mk =
        .ok (.Optimized fn rvs, mk1)) ↔
      (∃ fn, optimize oracle agg prepared = .ok fn ∧
        (fn.dfg.getBlock g.entryBlock).instructions = [] ∧
        ∃ rvs, (fn.dfg.getBlock g.entryBlock).terminator = .ret rvs ∧
          rvs.all (fun v => fn.dfg.isConstant v) = true)) ∧
    (∀ fn rvs mk1,
      optimizeConstBrilligCall oracle agg self iid bf mk = .ok (.Optimized fn rvs, mk1) →
      mk1 = mk ∧
      optimize oracle agg prepared = .ok fn ∧
      (fn.dfg.getBlock g.entryBlock).terminator = .ret rvs ∧
      processInstructions oracle agg bf bid (iid :: rest) self mk =
        (match copyReturnValues fn ((self.dfg.instructionResults iid).zip rvs) self with
         | .error e => .error e
         | .ok self1 => processInstructions oracle agg bf bid rest self1 mk) ∧
      (∀ self1,
        copyReturnValues fn ((self.dfg.instructionResults iid).zip rvs) self = .ok self1 →
        (((self.dfg.instructionResults iid).zip rvs).map Prod.fst).Nodup →
        (∀ p ∈ (self.dfg.instructionResults iid).zip rvs,
          p.1 < self.dfg.values.length ∧ self.dfg.values.getD p.1 .other = .other) →
        self1.dfg.blocks = self.dfg.blocks ∧
        ∀ p ∈ (self.dfg.instructionResults iid).zip rvs,
          ∃ t, denoteConstant fn.dfg.values p.2 = some t ∧
            denoteConstant self1.dfg.values p.1 = some t)) := by
  have hatt := optimizeConstBrilligCall_attempt oracle agg self iid bf mk hc hconst
  constructor
  · constructor
    · rintro ⟨fn, rvs, mk1, h⟩
      rw [hatt] at h
      simp only [hprep] at h
      cases ho : optimize oracle agg prepared with
      | error e => simp only [ho] at h; simp at h
      | ok fn0 =>
        simp only [ho] at h
        cases hinst : (fn0.dfg.getBlock g.entryBlock).instructions with
        | cons i0 irest => rw [hinst] at h; simp at h
        | nil =>
          rw [hinst] at h
          cases hterm : (fn0.dfg.getBlock g.entryBlock).terminator with
          | other => simp only [hterm] at h; simp at h
          | ret rvs0 =>
            simp only [hterm] at h
            cases hrc : rvs0.all (fun v => fn0.dfg.isConstant v) with
            | false => rw [hrc] at h; simp at h
            | true => exact ⟨fn0, rfl, hinst, rvs0, hterm, hrc⟩
    · rintro ⟨fn, ho, hempty, rvs, hterm, hrc⟩
      refine ⟨fn, rvs, mk, ?_⟩
      rw [hatt]
      simp [hprep, ho, hempty, hterm, hrc]
  · intro fn rvs mk1 h
    rw [hatt] at h
    simp only [hprep] at h
    cases ho : optimize oracle agg prepared with
    | error e => simp only [ho] at h; simp at h
    | ok fn0 =>
      simp only [ho] at h
      cases hinst : (fn0.dfg.getBlock g.entryBlock).instructions with
      | cons i0 irest => rw [hinst] at h; simp at h
      | nil =>
        rw [hinst] at h
        cases hterm : (fn0.dfg.getBlock g.entryBlock).terminator with
        | other => simp only [hterm] at h; simp at h
        | ret rvs0 =>
          simp only [hterm] at h
          cases hrc : rvs0.all (fun v => fn0.dfg.isConstant v) with
          | false => rw [hrc] at h; simp at h
          | true =>
            rw [hrc] at h
            simp only [not_true, if_false, List.isEmpty_nil, Except.ok.injEq,
              Prod.mk.injEq, OptimizeResult.Optimized.injEq] at h
            obtain ⟨⟨hfn, hrvs⟩, hmk⟩ := h
            subst hfn
            subst hrvs
            subst hmk
            have horig : optimizeConstBrilligCall oracle agg self iid bf mk =
                .ok (.Optimized fn0 rvs0, mk) := by
              rw [hatt]
              simp [hprep, ho, hinst, hterm, hrc]
            refine ⟨rfl, rfl, hterm,
              processInstructions_cons_opt _ _ _ _ _ _ _ _ _ _ _ horig, ?_⟩
            intro self1 hcr hnd hmem
            obtain ⟨_, _, hblocks, _, _, _, _, hpairs, _, _⟩ :=
              copyReturnValues_spec fn0 ((self.dfg.instructionResults iid).zip rvs0)
                self self1 hcr hnd hmem
            exact ⟨hblocks, hpairs⟩

/-- Witness for C1: a zero-argument call to a snapshot function whose body is already a bare
constant return; with an identity sub-pipeline the clone folds and the call is specialized. -/
theorem claimC1_success_characterization_witness :
    candidateCallee ⟨0, 0, ⟨[.function 1], [.call 0 []], [[]], [⟨[], [0], .ret []⟩]⟩,
        .acir .inlineTag⟩ 0
        [(1, ⟨1, 0, ⟨[], [], [], [⟨[], [], .ret []⟩]⟩, .brillig .inlineTag⟩)] =
      some (1, ⟨1, 0, ⟨[], [], [], [⟨[], [], .ret []⟩]⟩, .brillig .inlineTag⟩, []) ∧
    ∃ fn rvs mk1,
      optimizeConstBrilligCall (fun _ f => Except.ok f : Oracle Unit) 0
          ⟨0, 0, ⟨[.function 1], [.call 0 []], [[]], [⟨[], [0], .ret []⟩]⟩, .acir .inlineTag⟩
          0 [(1, ⟨1, 0, ⟨[], [], [], [⟨[], [], .ret []⟩]⟩, .brillig .inlineTag⟩)] [] =
        .ok (.Optimized fn rvs, mk1) := by
  refine ⟨rfl, ?_⟩
  exact (claimC1_success_characterization (fun _ f => Except.ok f : Oracle Unit) 0
    ⟨0, 0, ⟨[.function 1], [.call 0 []], [[]], [⟨[], [0], .ret []⟩]⟩, .acir .inlineTag⟩
    0 0 [(1, ⟨1, 0, ⟨[], [], [], [⟨[], [], .ret []⟩]⟩, .brillig .inlineTag⟩)] [] []
    1 ⟨1, 0, ⟨[], [], [], [⟨[], [], .ret []⟩]⟩, .brillig .inlineTag⟩ []
    ⟨1, 0, ⟨[], [], [], [⟨[], [], .ret []⟩]⟩, .brillig .inlineTag⟩
    rfl rfl rfl).1.mpr
    ⟨⟨1, 0, ⟨[], [], [], [⟨[], [], .ret []⟩]⟩, .acir .inlineAlways⟩, rfl, rfl, [], rfl, rfl⟩

/-! ## Function-mapping lemmas -/

theorem assocFind_eq_none_iff (fns : List (Nat × Func)) (fid : Nat) :
    assocFind fns fid = none ↔ fid ∉ fns.map Prod.fst := by
  induction fns with
  | nil => simp [assocFind]
  | cons p rest ih =>
    obtain ⟨k, v⟩ := p
    by_cases hk : k = fid
    · subst hk
      simp [assocFind]
    · simp [assocFind, hk, ih, Ne.symm hk]

theorem assocFind_filter_ne (fns : List (Nat × Func)) (fid fid0 : Nat) (h : fid ≠ fid0) :
    assocFind (fns.filter fun q => ¬ q.1 = fid0) fid = assocFind fns fid := by
  induction fns with
  | nil => rfl
  | cons p rest ih =>
    obtain ⟨k, v⟩ := p
    by_cases hk : k = fid0
    · have h1 : ((k, v) :: rest).filter (fun q => ¬ q.1 = fid0) =
          rest.filter (fun q => ¬ q.1 = fid0) := by simp [List.filter_cons, hk]
      have hkfid : ¬ k = fid := by
        rw [hk]
        exact Ne.symm h
      rw [h1, ih]
      simp only [assocFind, if_neg hkfid]
    · have h1 : ((k, v) :: rest).filter (fun q => ¬ q.1 = fid0) =
          (k, v) :: rest.filter (fun q => ¬ q.1 = fid0) := by simp [List.filter_cons, hk]
      rw [h1]
      by_cases hkf : k = fid
      · simp only [assocFind, if_pos hkf]
      · simp only [assocFind, if_neg hkf]
        exact ih

theorem assocFind_filter_self (fns : List (Nat × Func)) (fid0 : Nat) :
    assocFind (fns.filter fun q => ¬ q.1 = fid0) fid0 = none := by
  induction fns with
  | nil => rfl
  | cons p rest ih =>
    obtain ⟨k, v⟩ := p
    by_cases hk : k = fid0
    · have h1 : ((k, v) :: rest).filter (fun q => ¬ q.1 = fid0) =
          rest.filter (fun q => ¬ q.1 = fid0) := by simp [List.filter_cons, hk]
      rw [h1, ih]
    · have h1 : ((k, v) :: rest).filter (fun q => ¬ q.1 = fid0) =
          (k, v) :: rest.filter (fun q => ¬ q.1 = fid0) := by simp [List.filter_cons, hk]
      rw [h1]
      simp only [assocFind, if_neg hk]
      exact ih

theorem removeFunctions_find (mainId : Nat) (entry mkeep : List Nat) :
    ∀ (ids : List Nat) (fns : List (Nat × Func)) (fid : Nat),
      assocFind (removeFunctions mainId entry mkeep ids fns) fid =
        if fid ∈ ids ∧ fid ≠ mainId ∧ fid ∉ mkeep ∧ fid ∉ entry then none
        else assocFind fns fid := by
  intro ids
  induction ids with
  | nil =>
    intro fns fid
    simp [removeFunctions]
  | cons fid0 rest ih =>
    intro fns fid
    by_cases h0 : fid0 = mainId
    · rw [show removeFunctions mainId entry mkeep (fid0 :: rest) fns =
          removeFunctions mainId entry mkeep rest fns by
        simp [removeFunctions, h0]]
      rw [ih]
      by_cases hf : fid = fid0
      · subst hf
        subst h0
        simp
      · simp [List.mem_cons, hf]
    · by_cases h1 : fid0 ∈ mkeep
      · rw [show removeFunctions mainId entry mkeep (fid0 :: rest) fns =
            removeFunctions mainId entry mkeep rest fns by
          simp [removeFunctions, h0, h1]]
        rw [ih]
        by_cases hf : fid = fid0
        · subst hf
          simp [h1]
        · simp [List.mem_cons, hf]
      · by_cases h2 : fid0 ∈ entry
        · rw [show removeFunctions mainId entry mkeep (fid0 :: rest) fns =
              removeFunctions mainId entry mkeep rest fns by
            simp [removeFunctions, h0, h1, h2]]
          rw [ih]
          by_cases hf : fid = fid0
          · subst hf
            simp [h2]
          · simp [List.mem_cons, hf]
        · rw [show removeFunctions mainId entry mkeep (fid0 :: rest) fns =
              removeFunctions mainId entry mkeep rest
                (fns.filter fun q => ¬ q.1 = fid0) by
            simp [removeFunctions, h0, h1, h2]]
          rw [ih]
          by_cases hf : fid = fid0
          · subst hf
            have hmem : fid ∈ fid :: rest := List.mem_cons_self _ _
            by_cases hr : fid ∈ rest
            · rw [if_pos ⟨hr, h0, h1, h2⟩, if_pos ⟨hmem, h0, h1, h2⟩]
            · rw [if_neg (by tauto), if_pos ⟨hmem, h0, h1, h2⟩]
              exact assocFind_filter_self fns fid
          · rw [assocFind_filter_ne fns fid fid0 hf]
            simp [List.mem_cons, hf]

theorem processFunctions_keys {ε : Type} (oracle : Oracle ε) (agg : Int)
    (bf : List (Nat × Func)) :
    ∀ (fns : List (Nat × Func)) (mk : List Nat) (fns1 : List (Nat × Func)) (mk1 : List Nat),
      processFunctions oracle agg bf fns mk = .ok (fns1, mk1) →
      fns1.map Prod.fst = fns.map Prod.fst := by
  intro fns
  induction fns with
  | nil =>
    intro mk fns1 mk1 h
    simp only [processFunctions] at h
    cases h
    rfl
  | cons p rest ih =>
    obtain ⟨fid, f⟩ := p
    intro mk fns1 mk1 h
    simp only [processFunctions] at h
    cases hf : Func.inlineConstBrilligCalls oracle agg bf f mk with
    | error e => rw [hf] at h; cases h
    | ok q =>
      obtain ⟨f1, mka⟩ := q
      rw [hf] at h
      cases hrest : processFunctions oracle agg bf rest mka with
      | error e => simp only [hrest] at h; cases h
      | ok q' =>
        obtain ⟨rest1, mkb⟩ := q'
        simp only [hrest, Except.ok.injEq, Prod.mk.injEq] at h
        obtain ⟨hfns, hmk⟩ := h
        subst hfns
        simp [ih mka rest1 mkb hrest]

/-- C2: At the end of the pass, a function identifier is removed from the program's function
mapping exactly when it was a snapshot (unconstrained) function, it is not `main`, it is not
in the must-keep set, and it is not an entry point. In particular `main`, entry points, and
every callee with a call site that could not be specialized survive. All deletions are
performed by `removeFunctions` on the output of `processFunctions`, that is, only after every
function has been processed. -/
theorem claimC2_deletion {ε : Type} (oracle : Oracle ε) (agg : Int) (s s1 : Ssa)
    (h : Ssa.inlineConstBrilligCalls oracle agg s = .ok s1) :
    s1.mainId = s.mainId ∧ s1.entryPoints = s.entryPoints ∧
    ∃ fns1 mkeep,
      processFunctions oracle agg (snapshotBrilligFunctions s.functions) s.functions [] =
        .ok (fns1, mkeep) ∧
      s1.functions = removeFunctions s.mainId s.entryPoints mkeep
        ((snapshotBrilligFunctions s.functions).map (fun p => p.1)) fns1 ∧
      (∀ fid, assocFind s1.functions fid = none ↔
        (assocFind s.functions fid = none ∨
          (fid ∈ (snapshotBrilligFunctions s.functions).map (fun p => p.1) ∧
            fid ≠ s.mainId ∧ fid ∉ mkeep ∧ fid ∉ s.entryPoints))) ∧
      (∀ f, assocFind s.functions s.mainId = some f →
        assocFind s1.functions s.mainId ≠ none) ∧
      (∀ fid, fid ∈ s.entryPoints → ∀ f, assocFind s.functions fid = some f →
        assocFind s1.functions fid ≠ none) ∧
      (∀ fid, fid ∈ mkeep → ∀ f, assocFind s.functions fid = some f →
        assocFind s1.functions fid ≠ none) := by
  simp only [Ssa.inlineConstBrilligCalls] at h
  cases hpf : processFunctions oracle agg (snapshotBrilligFunctions s.functions)
      s.functions [] with
  | error e => rw [hpf] at h; cases h
  | ok q =>
    obtain ⟨fns1, mkeep⟩ := q
    rw [hpf] at h
    simp only [Except.ok.injEq] at h
    have hfuns : s1.functions = removeFunctions s.mainId s.entryPoints mkeep
        ((snapshotBrilligFunctions s.functions).map (fun p => p.1)) fns1 := by
      rw [← h]
    have hmain : s1.mainId = s.mainId := by rw [← h]
    have hentry : s1.entryPoints = s.entryPoints := by rw [← h]
    have hkeys := processFunctions_keys oracle agg (snapshotBrilligFunctions s.functions)
      s.functions [] fns1 mkeep hpf
    have hnone : ∀ fid, assocFind fns1 fid = none ↔ assocFind s.functions fid = none := by
      intro fid
      rw [assocFind_eq_none_iff, assocFind_eq_none_iff, hkeys]
    refine ⟨hmain, hentry, fns1, mkeep, rfl, hfuns, ?_, ?_, ?_, ?_⟩
    · intro fid
      rw [hfuns, removeFunctions_find]
      by_cases hC : fid ∈ (snapshotBrilligFunctions s.functions).map (fun p => p.1) ∧
          fid ≠ s.mainId ∧ fid ∉ mkeep ∧ fid ∉ s.entryPoints
      · rw [if_pos hC]
        exact iff_of_true rfl (Or.inr hC)
      · rw [if_neg hC, hnone fid]
        constructor
        · exact Or.inl
        · rintro (hn | hC')
          · exact hn
          · exact absurd hC' hC
    · intro f hf
      rw [hfuns, removeFunctions_find, if_neg (by tauto)]
      simp [hnone s.mainId, hf]
    · intro fid hfe f hf
      rw [hfuns, removeFunctions_find, if_neg (by tauto)]
      simp [hnone fid, hf]
    · intro fid hfk f hf
      rw [hfuns, removeFunctions_find, if_neg (by tauto)]
      simp [hnone fid, hf]

/-- Witness for C2 on the concrete example program: the pass deletes `h` but keeps `main` and
the must-keep callee `g`; `main` still resolves. -/
theorem claimC2_deletion_witness :
    Ssa.inlineConstBrilligCalls identityOracle 0 exampleProgram = .ok exampleProgramOnce ∧
    exampleProgramOnce.mainId = exampleProgram.mainId := by
  have h : Ssa.inlineConstBrilligCalls identityOracle 0 exampleProgram =
      .ok exampleProgramOnce := by decide
  exact ⟨h, (claimC2_deletion identityOracle 0 exampleProgram exampleProgramOnce h).1⟩

/-! ## Idempotence: counterexample -/

/-- C9, counterexample: unconditional idempotence of the pass fails. On the three-function
program
(`main` calls the unconstrained `g`, which calls the unconstrained `h`), the first run
specializes the `h()` call inside `g` (the snapshot entry for `h` folds to an empty Return)
and deletes `h`, but the call `g()` inside `main` survives, since the snapshot clone of `g`
taken before any processing still contains a call instruction. In the second run, the fresh
snapshot holds the already-specialized body of `g`, the surviving call site in `main` becomes
specializable, and `g` is deleted: the second run does not return the first run's output
unchanged. -/
theorem claimC9_idempotence_counterexample :
    Ssa.inlineConstBrilligCalls identityOracle 0 exampleProgram = .ok exampleProgramOnce ∧
    Ssa.inlineConstBrilligCalls identityOracle 0 exampleProgramOnce =
      .ok exampleProgramTwice ∧
    exampleProgramTwice ≠ exampleProgramOnce := by
  refine ⟨by decide, by decide, by decide⟩

/-! ## Structural lemmas for the idempotence analysis -/

theorem resultsOfList_cons (dfg : DataFlowGraph) (iid : Nat) (L : List Nat) :
    resultsOfList dfg (iid :: L) =
      dfg.instructionResults iid ++ resultsOfList dfg L := by
  simp [resultsOfList]

theorem resultsOfList_append (dfg : DataFlowGraph) (L1 L2 : List Nat) :
    resultsOfList dfg (L1 ++ L2) = resultsOfList dfg L1 ++ resultsOfList dfg L2 := by
  simp [resultsOfList]

theorem mem_resultsOfList {dfg : DataFlowGraph} {L : List Nat} {r : Nat} :
    r ∈ resultsOfList dfg L ↔ ∃ j ∈ L, r ∈ dfg.instructionResults j := by
  simp [resultsOfList, List.mem_flatten]

theorem operands_congr {d1 d2 : DataFlowGraph} (hi : d1.instructions = d2.instructions)
    (iid : Nat) : operands d1 iid = operands d2 iid := by
  simp [operands, DataFlowGraph.getInstruction, hi]

theorem instructionResults_congr {d1 d2 : DataFlowGraph} (hr : d1.results = d2.results)
    (iid : Nat) : d1.instructionResults iid = d2.instructionResults iid := by
  simp [DataFlowGraph.instructionResults, hr]

theorem resultsOfList_congr {d1 d2 : DataFlowGraph} (hr : d1.results = d2.results)
    (L : List Nat) : resultsOfList d1 L = resultsOfList d2 L := by
  simp [resultsOfList, instructionResults_congr hr]

theorem defBeforeUseB_congr {d1 d2 : DataFlowGraph} (hi : d1.instructions = d2.instructions)
    (hr : d1.results = d2.results) :
    ∀ L, defBeforeUseB d1 L = defBeforeUseB d2 L := by
  intro L
  induction L with
  | nil => rfl
  | cons iid rest ih =>
    simp only [defBeforeUseB, ih, operands_congr hi, resultsOfList_congr hr]

theorem resultsSeparatedB_congr {d1 d2 : DataFlowGraph} (hr : d1.results = d2.results) :
    ∀ L, resultsSeparatedB d1 L = resultsSeparatedB d2 L := by
  intro L
  induction L with
  | nil => rfl
  | cons iid rest ih =>
    simp only [resultsSeparatedB, ih, instructionResults_congr hr, resultsOfList_congr hr]

theorem defBeforeUseB_cons {dfg : DataFlowGraph} {iid : Nat} {L : List Nat}
    (h : defBeforeUseB dfg (iid :: L) = true) :
    (∀ o ∈ operands dfg iid, o ∉ resultsOfList dfg L) ∧ defBeforeUseB dfg L = true := by
  simp only [defBeforeUseB, Bool.and_eq_true, List.all_eq_true, decide_eq_true_eq] at h
  refine ⟨?_, h.2⟩
  intro o ho hmem
  exact (h.1 o ho) _ hmem rfl

theorem resultsSeparatedB_cons {dfg : DataFlowGraph} {iid : Nat} {L : List Nat}
    (h : resultsSeparatedB dfg (iid :: L) = true) :
    (∀ r ∈ dfg.instructionResults iid, r ∉ resultsOfList dfg L) ∧
    resultsSeparatedB dfg L = true := by
  simp only [resultsSeparatedB, Bool.and_eq_true, List.all_eq_true, decide_eq_true_eq] at h
  refine ⟨?_, h.2⟩
  intro r hr hmem
  exact (h.1 r hr) _ hmem rfl

theorem defBeforeUseB_append {dfg : DataFlowGraph} :
    ∀ {L1 L2 : List Nat}, defBeforeUseB dfg (L1 ++ L2) = true →
      defBeforeUseB dfg L1 = true ∧ defBeforeUseB dfg L2 = true ∧
      ∀ i ∈ L1, ∀ o ∈ operands dfg i, o ∉ resultsOfList dfg L2 := by
  intro L1
  induction L1 with
  | nil =>
    intro L2 h
    exact ⟨rfl, h, by simp⟩
  | cons iid rest ih =>
    intro L2 h
    rw [List.cons_append] at h
    obtain ⟨hhead, htail⟩ := defBeforeUseB_cons h
    obtain ⟨h1, h2, h3⟩ := ih htail
    refine ⟨?_, h2, ?_⟩
    · simp only [defBeforeUseB, Bool.and_eq_true, List.all_eq_true, decide_eq_true_eq]
      refine ⟨?_, h1⟩
      intro o ho r hr heq
      exact (hhead o ho)
        (by rw [resultsOfList_append]; exact List.mem_append_left _ (heq ▸ hr))
    · intro i hi o ho hmem
      rcases List.mem_cons.mp hi with rfl | hi'
      · exact (hhead o ho) (by rw [resultsOfList_append]; exact List.mem_append_right _ hmem)
      · exact h3 i hi' o ho hmem

theorem resultsSeparatedB_append {dfg : DataFlowGraph} :
    ∀ {L1 L2 : List Nat}, resultsSeparatedB dfg (L1 ++ L2) = true →
      resultsSeparatedB dfg L1 = true ∧ resultsSeparatedB dfg L2 = true ∧
      ∀ i ∈ L1, ∀ r ∈ dfg.instructionResults i, r ∉ resultsOfList dfg L2 := by
  intro L1
  induction L1 with
  | nil =>
    intro L2 h
    exact ⟨rfl, h, by simp⟩
  | cons iid rest ih =>
    intro L2 h
    rw [List.cons_append] at h
    obtain ⟨hhead, htail⟩ := resultsSeparatedB_cons h
    obtain ⟨h1, h2, h3⟩ := ih htail
    refine ⟨?_, h2, ?_⟩
    · simp only [resultsSeparatedB, Bool.and_eq_true, List.all_eq_true, decide_eq_true_eq]
      refine ⟨?_, h1⟩
      intro r hr r1 hr1 heq
      exact (hhead r hr)
        (by rw [resultsOfList_append]; exact List.mem_append_left _ (heq ▸ hr1))
    · intro i hi r hr hmem
      rcases List.mem_cons.mp hi with rfl | hi'
      · exact (hhead r hr) (by rw [resultsOfList_append]; exact List.mem_append_right _ hmem)
      · exact h3 i hi' r hr hmem

theorem wellFormedFuncB_spec {f : Func} (h : wellFormedFuncB f = true) :
    defBeforeUseB f.dfg (flatInstructions f) = true ∧
    resultsSeparatedB f.dfg (flatInstructions f) = true ∧
    (∀ iid ∈ flatInstructions f, (f.dfg.instructionResults iid).Nodup ∧
      (∀ r ∈ f.dfg.instructionResults iid,
        r < f.dfg.values.length ∧ f.dfg.values.getD r .other = .other) ∧
      ∀ o ∈ operands f.dfg iid, o < f.dfg.values.length) := by
  simp only [wellFormedFuncB, Bool.and_eq_true, List.all_eq_true, decide_eq_true_eq] at h
  refine ⟨h.1.1, h.1.2, ?_⟩
  intro iid hiid
  obtain ⟨⟨hnd, hres⟩, hops⟩ := h.2 iid hiid
  exact ⟨hnd, fun r hr => (hres r hr), hops⟩

theorem blockInstrs_cons (f : Func) (b : Nat) (rest : List Nat) :
    blockInstrs f (b :: rest) = (f.dfg.getBlock b).instructions ++ blockInstrs f rest := by
  simp [blockInstrs]

theorem mem_blockInstrs {f : Func} {bids : List Nat} {iid : Nat} :
    iid ∈ blockInstrs f bids ↔ ∃ b ∈ bids, iid ∈ (f.dfg.getBlock b).instructions := by
  simp [blockInstrs, List.mem_flatten]

theorem blockInstrs_congr {f1 f2 : Func} {bids : List Nat}
    (h : ∀ b ∈ bids, f1.dfg.getBlock b = f2.dfg.getBlock b) :
    blockInstrs f1 bids = blockInstrs f2 bids := by
  simp only [blockInstrs]
  congr 1
  exact List.map_congr_left fun b hb => by rw [h b hb]

theorem zip_map_fst_sublist {α β : Type} :
    ∀ (l1 : List α) (l2 : List β), ((l1.zip l2).map Prod.fst).Sublist l1 := by
  intro l1
  induction l1 with
  | nil => intro l2; simp
  | cons a rest ih =>
    intro l2
    cases l2 with
    | nil => simp
    | cons b l2' =>
      simp only [List.zip_cons_cons, List.map_cons]
      exact (ih l2').cons₂ a

theorem arenaFrame_refl (V : Func) : arenaFrame V V :=
  ⟨rfl, rfl, rfl, rfl, rfl, rfl, le_refl _⟩

theorem arenaFrame_trans {V1 V2 V3 : Func} (h1 : arenaFrame V1 V2)
    (h2 : arenaFrame V2 V3) : arenaFrame V1 V3 := by
  obtain ⟨a1, a2, a3, a4, a5, a6, a7⟩ := h1
  obtain ⟨b1, b2, b3, b4, b5, b6, b7⟩ := h2
  exact ⟨b1.trans a1, b2.trans a2, b3.trans a3, b4.trans a4, b5.trans a5, b6.trans a6,
    le_trans a7 b7⟩

theorem storeStable_refl (V : Func) (S : List Nat) : storeStable V V S :=
  ⟨fun _ _ _ => rfl, fun _ _ h _ => h⟩

theorem storeStable_trans {V1 V2 V3 : Func} {S : List Nat}
    (hlen : V1.dfg.values.length ≤ V2.dfg.values.length)
    (h1 : storeStable V1 V2 S) (h2 : storeStable V2 V3 S) : storeStable V1 V3 S := by
  refine ⟨?_, ?_⟩
  · intro id hlt hni
    rw [h2.1 id (by omega) hni]
    exact h1.1 id hlt hni
  · intro id t hd hni
    exact h2.2 id t (h1.2 id t hd hni) hni

theorem storeStable_mono {V1 V2 : Func} {S1 S2 : List Nat}
    (h : storeStable V1 V2 S1) (hsub : ∀ id, id ∉ S2 → id ∉ S1) :
    storeStable V1 V2 S2 :=
  ⟨fun id hlt hni => h.1 id hlt (hsub id hni),
   fun id t hd hni => h.2 id t hd (hsub id hni)⟩

/-! ## Frame facts about re-emitting an instruction -/

theorem pushInstruction_values (self : Func) (bid iid : Nat) :
    (self.pushInstruction bid iid).dfg.values = self.dfg.values := rfl

theorem pushInstruction_instructions (self : Func) (bid iid : Nat) :
    (self.pushInstruction bid iid).dfg.instructions = self.dfg.instructions := rfl

theorem pushInstruction_results (self : Func) (bid iid : Nat) :
    (self.pushInstruction bid iid).dfg.results = self.dfg.results := rfl

theorem pushInstruction_blocks_length (self : Func) (bid iid : Nat) :
    (self.pushInstruction bid iid).dfg.blocks.length = self.dfg.blocks.length := by
  simp [Func.pushInstruction, DataFlowGraph.setBlock]

theorem pushInstruction_getBlock_self (self : Func) (bid iid : Nat)
    (h : bid < self.dfg.blocks.length) :
    (self.pushInstruction bid iid).dfg.getBlock bid =
      { self.dfg.getBlock bid with
        instructions := (self.dfg.getBlock bid).instructions ++ [iid] } := by
  simp only [Func.pushInstruction, DataFlowGraph.setBlock, DataFlowGraph.getBlock]
  exact getD_set_self_any _ _ _ _ h

theorem pushInstruction_getBlock_ne (self : Func) (bid iid b : Nat) (h : b ≠ bid) :
    (self.pushInstruction bid iid).dfg.getBlock b = self.dfg.getBlock b := by
  simp only [Func.pushInstruction, DataFlowGraph.setBlock, DataFlowGraph.getBlock]
  exact getD_set_ne_any _ _ _ _ _ h

theorem set_getD_self {α : Type} (l : List α) (n : Nat) (d : α) (h : n < l.length) :
    l.set n (l.getD n d) = l := by
  apply List.ext_getElem?
  intro i
  by_cases hi : i = n
  · subst hi
    rw [List.getElem?_set_self (by omega)]
    rw [List.getD_eq_getElem?_getD]
    rw [List.getElem?_eq_getElem h]
    rfl
  · exact List.getElem?_set_ne (by omega)

/-! ## Congruence of the call specializer in the caller state -/

theorem all_congr_mem {α : Type} {p q : α → Bool} :
    ∀ {l : List α}, (∀ a ∈ l, p a = q a) → l.all p = l.all q := by
  intro l
  induction l with
  | nil => intro _; rfl
  | cons a rest ih =>
    intro h
    simp only [List.all_cons, h a (List.mem_cons_self _ _),
      ih fun b hb => h b (List.mem_cons_of_mem _ hb)]

theorem copyList_congr_of (f : Nat)
    (hP : ∀ (src1 src2 : DataFlowGraph), src1.values = src2.values →
      ∀ cid dst, copyConstantFueled f src1 cid dst = copyConstantFueled f src2 cid dst) :
    ∀ (ids : List Nat) (src1 src2 : DataFlowGraph), src1.values = src2.values →
      ∀ dst, copyConstantListFueled f src1 ids dst =
        copyConstantListFueled f src2 ids dst := by
  intro ids
  induction ids with
  | nil => intro src1 src2 hv dst; simp [copyConstantListFueled]
  | cons c rest ih =>
    intro src1 src2 hv dst
    simp only [copyConstantListFueled, hP src1 src2 hv c dst]
    cases copyConstantFueled f src2 c dst with
    | error e => rfl
    | ok q =>
      obtain ⟨dst1, nid⟩ := q
      simp only [ih src1 src2 hv dst1]

theorem copy_congr :
    ∀ (f : Nat) (src1 src2 : DataFlowGraph), src1.values = src2.values →
      ∀ cid dst, copyConstantFueled f src1 cid dst = copyConstantFueled f src2 cid dst := by
  intro f
  induction f with
  | zero => intro src1 src2 hv cid dst; simp [copyConstantFueled]
  | succ f ih =>
    intro src1 src2 hv cid dst
    have h1 : src1.getNumericConstantWithType cid = src2.getNumericConstantWithType cid := by
      simp [DataFlowGraph.getNumericConstantWithType, DataFlowGraph.getValue, hv]
    have h2 : src1.getArrayConstant cid = src2.getArrayConstant cid := by
      simp [DataFlowGraph.getArrayConstant, DataFlowGraph.getValue, hv]
    simp only [copyConstantFueled, h1, h2]
    cases src2.getNumericConstantWithType cid with
    | some p => rfl
    | none =>
      cases src2.getArrayConstant cid with
      | none => rfl
      | some q =>
        obtain ⟨elements, typ⟩ := q
        simp only [copyList_congr_of f ih elements src1 src2 hv dst]

theorem copyConstantToFunction_congr {d1 d2 : DataFlowGraph} (hv : d1.values = d2.values)
    (cid : Nat) (dst : DataFlowGraph) :
    copyConstantToFunction d1 cid dst = copyConstantToFunction d2 cid dst := by
  simp only [copyConstantToFunction, hv, copy_congr _ d1 d2 hv]

theorem copyArguments_congr {self self2 : Func} (hv : self.dfg.values = self2.dfg.values) :
    ∀ (pairs : List (Nat × Nat)) (fn : Func),
      copyArgumentsIntoFunction self pairs fn = copyArgumentsIntoFunction self2 pairs fn := by
  intro pairs
  induction pairs with
  | nil => intro fn; rfl
  | cons p rest ih =>
    intro fn
    obtain ⟨pid, aid⟩ := p
    simp only [copyArgumentsIntoFunction, copyConstantToFunction_congr hv aid fn.dfg]
    cases copyConstantToFunction self2.dfg aid fn.dfg with
    | error e => rfl
    | ok q =>
      obtain ⟨dfg1, nid⟩ := q
      simp only [ih]

theorem preparedClone_congr {self self2 : Func} (hv : self.dfg.values = self2.dfg.values)
    (fid : Nat) (g : Func) (args : List Nat) :
    preparedClone self fid g args = preparedClone self2 fid g args := by
  simp only [preparedClone, copyArguments_congr hv]

theorem isConstant_congr {d1 d2 : DataFlowGraph} (hv : d1.values = d2.values) (a : Nat) :
    d1.isConstant a = d2.isConstant a := by
  simp [DataFlowGraph.isConstant, DataFlowGraph.getValue, hv]

theorem candidateCallee_congr {self self2 : Func}
    (hv : self.dfg.values = self2.dfg.values)
    (hi : self.dfg.instructions = self2.dfg.instructions)
    (iid : Nat) (bf : List (Nat × Func)) :
    candidateCallee self iid bf = candidateCallee self2 iid bf := by
  simp [candidateCallee, DataFlowGraph.getInstruction, DataFlowGraph.getValue, hv, hi]

theorem optimizeConstBrilligCall_congr {ε : Type} (oracle : Oracle ε) (agg : Int)
    {self self2 : Func} (hv : self.dfg.values = self2.dfg.values)
    (hi : self.dfg.instructions = self2.dfg.instructions)
    (iid : Nat) (bf : List (Nat × Func)) (mk : List Nat) :
    optimizeConstBrilligCall oracle agg self iid bf mk =
      optimizeConstBrilligCall oracle agg self2 iid bf mk := by
  have h1 : self.dfg.getInstruction iid = self2.dfg.getInstruction iid := by
    simp [DataFlowGraph.getInstruction, hi]
  have h2 : ∀ v, self.dfg.getValue v = self2.dfg.getValue v := by
    intro v
    simp [DataFlowGraph.getValue, hv]
  have h3 : ∀ a, self.dfg.isConstant a = self2.dfg.isConstant a :=
    fun a => isConstant_congr hv a
  have h4 : ∀ fid g args, preparedClone self fid g args = preparedClone self2 fid g args :=
    fun fid g args => preparedClone_congr hv fid g args
  simp only [optimizeConstBrilligCall, h1, h2, h3, h4]

/-! ## Stability of the classifier and of failure certificates -/

theorem candidate_operands {self : Func} {iid : Nat} {bf : List (Nat × Func)}
    {fid : Nat} {g : Func} {args : List Nat}
    (h : candidateCallee self iid bf = some (fid, g, args)) :
    ∃ fv, operands self.dfg iid = fv :: args ∧ self.dfg.getValue fv = .function fid ∧
      assocFind bf fid = some g := by
  obtain ⟨fv, h1, h2, h3⟩ := candidateCallee_some h
  exact ⟨fv, by simp [operands, h1], h2, h3⟩

theorem candidateCallee_stable {self self2 : Func} {iid : Nat} (bf : List (Nat × Func))
    (hi : self2.dfg.instructions = self.dfg.instructions)
    (hst : ∀ o ∈ operands self.dfg iid,
      self2.dfg.values.getD o .other = self.dfg.values.getD o .other) :
    candidateCallee self2 iid bf = candidateCallee self iid bf := by
  have h1 : self2.dfg.getInstruction iid = self.dfg.getInstruction iid := by
    simp [DataFlowGraph.getInstruction, hi]
  cases hins : self.dfg.getInstruction iid with
  | other => simp [candidateCallee, h1, hins]
  | call fv args =>
    have hfv : fv ∈ operands self.dfg iid := by
      simp [operands, hins]
    have h2 : self2.dfg.getValue fv = self.dfg.getValue fv := by
      simp only [DataFlowGraph.getValue]
      exact hst fv hfv
    simp only [candidateCallee, h1, hins, h2]

theorem copyArguments_denotes {self : Func} :
    ∀ (pairs : List (Nat × Nat)) (fn fn1 : Func),
      copyArgumentsIntoFunction self pairs fn = .ok fn1 →
      ∀ p ∈ pairs, ∃ t, denoteConstant self.dfg.values p.2 = some t := by
  intro pairs
  induction pairs with
  | nil =>
    intro fn fn1 _ p hp
    cases hp
  | cons q rest ih =>
    obtain ⟨pid, aid⟩ := q
    intro fn fn1 h p hp
    cases hc : copyConstantToFunction self.dfg aid fn.dfg with
    | error e =>
      simp only [copyArgumentsIntoFunction, hc] at h
      cases h
    | ok r =>
      obtain ⟨dfg1, nid⟩ := r
      simp only [copyArgumentsIntoFunction, hc] at h
      rcases List.mem_cons.mp hp with rfl | hp'
      · obtain ⟨t, ht, _⟩ := copyConstantToFunction_ok hc
        exact ⟨t, ht⟩
      · exact ih _ fn1 h p hp'

theorem copyArguments_det {self self2 : Func} :
    ∀ (pairs : List (Nat × Nat)) (fn fn1 : Func),
      copyArgumentsIntoFunction self pairs fn = .ok fn1 →
      (∀ p ∈ pairs, ∀ t, denoteConstant self.dfg.values p.2 = some t →
        denoteConstant self2.dfg.values p.2 = some t) →
      copyArgumentsIntoFunction self2 pairs fn = .ok fn1 := by
  intro pairs
  induction pairs with
  | nil =>
    intro fn fn1 h _
    exact h
  | cons q rest ih =>
    obtain ⟨pid, aid⟩ := q
    intro fn fn1 h hden
    cases hc : copyConstantToFunction self.dfg aid fn.dfg with
    | error e =>
      simp only [copyArgumentsIntoFunction, hc] at h
      cases h
    | ok r =>
      obtain ⟨dfg1, nid⟩ := r
      simp only [copyArgumentsIntoFunction, hc] at h
      obtain ⟨t, ht, hpq⟩ := copyConstantToFunction_ok hc
      have ht2 : denoteConstant self2.dfg.values aid = some t :=
        hden (pid, aid) (List.mem_cons_self _ _) t ht
      have hc2 : copyConstantToFunction self2.dfg aid fn.dfg = .ok (dfg1, nid) := by
        rw [copyConstantToFunction_eq ht2, ← hpq]
      simp only [copyArgumentsIntoFunction, hc2]
      exact ih _ fn1 h fun p hp t1 ht1 => hden p (List.mem_cons_of_mem _ hp) t1 ht1

theorem preparedClone_det {self self2 : Func} {fid : Nat} {g : Func} {args : List Nat}
    {fp : Func} (h : preparedClone self fid g args = .ok fp)
    (hden : ∀ a ∈ args, ∀ t, denoteConstant self.dfg.values a = some t →
      denoteConstant self2.dfg.values a = some t) :
    preparedClone self2 fid g args = .ok fp := by
  simp only [preparedClone] at h ⊢
  refine copyArguments_det _ _ _ h ?_
  intro p hp t ht
  obtain ⟨a, b⟩ := p
  exact hden b (List.of_mem_zip hp).2 t ht

theorem failsCert_transport {ε : Type} {oracle : Oracle ε} {agg : Int}
    {bf : List (Nat × Func)} {self self2 : Func} {iid : Nat}
    (hi : self2.dfg.instructions = self.dfg.instructions)
    (hst : ∀ o ∈ operands self.dfg iid,
      self2.dfg.values.getD o .other = self.dfg.values.getD o .other)
    (hden : ∀ o ∈ operands self.dfg iid, ∀ t,
      denoteConstant self.dfg.values o = some t →
      denoteConstant self2.dfg.values o = some t)
    (h : FailsCert oracle agg bf self iid) : FailsCert oracle agg bf self2 iid := by
  have hcand := candidateCallee_stable bf hi hst
  rcases h with hnone | ⟨fid, g, args, hc, hrest⟩
  · exact Or.inl (hcand.trans hnone)
  · refine Or.inr ⟨fid, g, args, hcand.trans hc, ?_⟩
    obtain ⟨fv, hops, _, _⟩ := candidate_operands hc
    have hconst : ∀ a ∈ args, self2.dfg.isConstant a = self.dfg.isConstant a := by
      intro a ha
      simp only [DataFlowGraph.isConstant, DataFlowGraph.getValue]
      rw [hst a (by rw [hops]; exact List.mem_cons_of_mem _ ha)]
    have hall : (args.all fun a => self2.dfg.isConstant a) =
        (args.all fun a => self.dfg.isConstant a) :=
      all_congr_mem hconst
    rcases hrest with hfalse | ⟨htrue, fp, hprep, hinner⟩
    · exact Or.inl (hall.trans hfalse)
    · refine Or.inr ⟨hall.trans htrue, fp, ?_, hinner⟩
      refine preparedClone_det hprep ?_
      intro a ha t ht
      exact hden a (by rw [hops]; exact List.mem_cons_of_mem _ ha) t ht

theorem failsCert_bf_transport {ε : Type} {oracle : Oracle ε} {agg : Int}
    {bf1 bf2 : List (Nat × Func)} {self : Func} {iid : Nat}
    (hbf : ∀ fid, assocFind bf2 fid = assocFind bf1 fid ∨ assocFind bf2 fid = none)
    (h : FailsCert oracle agg bf1 self iid) : FailsCert oracle agg bf2 self iid := by
  rcases h with hnone | ⟨fid, g, args, hc, hrest⟩
  · left
    cases hins : self.dfg.getInstruction iid with
    | other => simp [candidateCallee, hins]
    | call fv args =>
      simp only [candidateCallee, hins] at hnone ⊢
      cases hval : self.dfg.getValue fv with
      | function fid =>
        simp only [hval] at hnone ⊢
        cases hf1 : assocFind bf1 fid with
        | some g => simp [hf1] at hnone
        | none =>
          rcases hbf fid with heq | hnone2
          · simp [heq, hf1]
          · simp [hnone2]
      | numericConstant v t => simp [hval]
      | arrayConstant e t => simp [hval]
      | other => simp [hval]
  · obtain ⟨fv, h1, h2, h3⟩ := candidateCallee_some hc
    rcases hbf fid with heq | hnone2
    · refine Or.inr ⟨fid, g, args, ?_, hrest⟩
      simp only [candidateCallee, h1, h2, heq, h3]
    · left
      simp only [candidateCallee, h1, h2, hnone2]

/-! ## Inversion of the call specializer -/

theorem optimizeConstBrilligCall_inv {ε : Type} {oracle : Oracle ε} {agg : Int}
    {self : Func} {iid : Nat} {bf : List (Nat × Func)} {mk : List Nat}
    {res : OptimizeResult} {mkA : List Nat}
    (h : optimizeConstBrilligCall oracle agg self iid bf mk = .ok (res, mkA)) :
    (res = .NotABrilligCall ∧ mkA = mk ∧ candidateCallee self iid bf = none) ∨
    (∃ fid g args, candidateCallee self iid bf = some (fid, g, args) ∧
      ((res = .CannotOptimize fid ∧ (mkA = mk ∨ mkA = mk.insert fid) ∧
        FailsCert oracle agg bf self iid) ∨
       (∃ fn rvs, res = .Optimized fn rvs ∧ mkA = mk ∧
         args.all (fun a => self.dfg.isConstant a) = true ∧
         (∃ fp, preparedClone self fid g args = .ok fp ∧
           optimize oracle agg fp = .ok fn) ∧
         (fn.dfg.getBlock g.entryBlock).instructions = [] ∧
         (fn.dfg.getBlock g.entryBlock).terminator = .ret rvs ∧
         rvs.all (fun v => fn.dfg.isConstant v) = true))) := by
  cases hc : candidateCallee self iid bf with
  | none =>
    rw [optimizeConstBrilligCall_not_candidate oracle agg self iid bf mk hc] at h
    simp only [Except.ok.injEq, Prod.mk.injEq] at h
    exact Or.inl ⟨h.1.symm, h.2.symm, rfl⟩
  | some trip =>
    obtain ⟨fid, gargs⟩ := trip
    obtain ⟨g, args⟩ := gargs
    cases hall : args.all (fun a => self.dfg.isConstant a) with
    | false =>
      rw [optimizeConstBrilligCall_nonconst oracle agg self iid bf mk hc hall] at h
      simp only [Except.ok.injEq, Prod.mk.injEq] at h
      exact Or.inr ⟨fid, g, args, rfl,
        Or.inl ⟨h.1.symm, Or.inl h.2.symm, Or.inr ⟨fid, g, args, hc, Or.inl hall⟩⟩⟩
    | true =>
      rw [optimizeConstBrilligCall_attempt oracle agg self iid bf mk hc hall] at h
      cases hp : preparedClone self fid g args with
      | error e =>
        rw [hp] at h
        cases h
      | ok fp =>
        rw [hp] at h
        cases ho : optimize oracle agg fp with
        | error e =>
          simp only [ho, Except.ok.injEq, Prod.mk.injEq] at h
          exact Or.inr ⟨fid, g, args, rfl,
            Or.inl ⟨h.1.symm, Or.inl h.2.symm,
              Or.inr ⟨fid, g, args, hc,
                Or.inr ⟨hall, fp, hp, Or.inl ⟨e, ho⟩⟩⟩⟩⟩
        | ok fn1 =>
          simp only [ho] at h
          cases hie : (fn1.dfg.getBlock g.entryBlock).instructions.isEmpty with
          | false =>
            simp only [hie, Bool.false_eq_true, not_false_iff, if_true,
              Except.ok.injEq, Prod.mk.injEq] at h
            exact Or.inr ⟨fid, g, args, rfl,
              Or.inl ⟨h.1.symm, Or.inr h.2.symm,
                Or.inr ⟨fid, g, args, hc,
                  Or.inr ⟨hall, fp, hp, Or.inr ⟨fn1, ho, Or.inl hie⟩⟩⟩⟩⟩
          | true =>
            simp only [hie, not_true, if_false, ite_false, Bool.true_eq_false] at h
            cases hterm : (fn1.dfg.getBlock g.entryBlock).terminator with
            | other =>
              simp only [hterm, Except.ok.injEq, Prod.mk.injEq] at h
              exact Or.inr ⟨fid, g, args, rfl,
                Or.inl ⟨h.1.symm, Or.inl h.2.symm,
                  Or.inr ⟨fid, g, args, hc,
                    Or.inr ⟨hall, fp, hp,
                      Or.inr ⟨fn1, ho, Or.inr ⟨hie, Or.inr hterm⟩⟩⟩⟩⟩⟩
            | ret rvs =>
              simp only [hterm] at h
              cases hrvs : rvs.all (fun v => fn1.dfg.isConstant v) with
              | false =>
                simp only [hrvs, Bool.false_eq_true, not_false_iff, if_true,
                  Except.ok.injEq, Prod.mk.injEq] at h
                exact Or.inr ⟨fid, g, args, rfl,
                  Or.inl ⟨h.1.symm, Or.inl h.2.symm,
                    Or.inr ⟨fid, g, args, hc,
                      Or.inr ⟨hall, fp, hp,
                        Or.inr ⟨fn1, ho,
                          Or.inr ⟨hie, Or.inl ⟨rvs, hterm, hrvs⟩⟩⟩⟩⟩⟩⟩
              | true =>
                simp only [hrvs, not_true, ite_false, if_false, Bool.true_eq_false,
                  Except.ok.injEq, Prod.mk.injEq] at h
                refine Or.inr ⟨fid, g, args, rfl,
                  Or.inr ⟨fn1, rvs, h.1.symm, h.2.symm, hall, ⟨fp, hp, ho⟩,
                    List.isEmpty_iff.mp hie, hterm, hrvs⟩⟩

theorem failsCert_outcome {ε : Type} {oracle : Oracle ε} {agg : Int}
    {bf : List (Nat × Func)} {self : Func} {iid : Nat}
    (h : FailsCert oracle agg bf self iid) (mk : List Nat) :
    (candidateCallee self iid bf = none ∧
      optimizeConstBrilligCall oracle agg self iid bf mk = .ok (.NotABrilligCall, mk)) ∨
    (∃ fid g args, candidateCallee self iid bf = some (fid, g, args) ∧
      ∃ mkA, optimizeConstBrilligCall oracle agg self iid bf mk =
        .ok (.CannotOptimize fid, mkA) ∧ (mkA = mk ∨ mkA = mk.insert fid)) := by
  rcases h with hnone | ⟨fid, g, args, hc, hrest⟩
  · exact Or.inl ⟨hnone,
      optimizeConstBrilligCall_not_candidate oracle agg self iid bf mk hnone⟩
  · refine Or.inr ⟨fid, g, args, hc, ?_⟩
    rcases hrest with hfalse | ⟨htrue, fp, hprep, hinner⟩
    · exact ⟨mk, optimizeConstBrilligCall_nonconst oracle agg self iid bf mk hc hfalse,
        Or.inl rfl⟩
    · rw [optimizeConstBrilligCall_attempt oracle agg self iid bf mk hc htrue]
      rcases hinner with ⟨e, he⟩ | ⟨fn1, hfn, hshape⟩
      · exact ⟨mk, by simp [hprep, he], Or.inl rfl⟩
      · rcases hshape with hie | ⟨hie, hbad⟩
        · exact ⟨mk.insert fid, by simp [hprep, hfn, hie], Or.inr rfl⟩
        · rcases hbad with ⟨rvs, hterm, hrvs⟩ | hterm
          · exact ⟨mk, by simp [hprep, hfn, hie, hterm, hrvs], Or.inl rfl⟩
          · exact ⟨mk, by simp [hprep, hfn, hie, hterm], Or.inl rfl⟩

/-! ## Replaying a fully-failing instruction list is the identity -/

theorem pushInstruction_as_append (self : Func) (bid iid : Nat) :
    self.pushInstruction bid iid = appendToBlock self bid [iid] := rfl

theorem appendToBlock_values (self : Func) (bid : Nat) (L : List Nat) :
    (appendToBlock self bid L).dfg.values = self.dfg.values := rfl

theorem appendToBlock_instructions (self : Func) (bid : Nat) (L : List Nat) :
    (appendToBlock self bid L).dfg.instructions = self.dfg.instructions := rfl

theorem appendToBlock_results (self : Func) (bid : Nat) (L : List Nat) :
    (appendToBlock self bid L).dfg.results = self.dfg.results := rfl

theorem appendToBlock_blocks_length (self : Func) (bid : Nat) (L : List Nat) :
    (appendToBlock self bid L).dfg.blocks.length = self.dfg.blocks.length := by
  simp [appendToBlock, DataFlowGraph.setBlock]

theorem appendToBlock_getBlock_self (self : Func) (bid : Nat) (L : List Nat)
    (h : bid < self.dfg.blocks.length) :
    (appendToBlock self bid L).dfg.getBlock bid = { self.dfg.getBlock bid with
      instructions := (self.dfg.getBlock bid).instructions ++ L } := by
  simp only [appendToBlock, DataFlowGraph.setBlock, DataFlowGraph.getBlock]
  exact getD_set_self_any _ _ _ _ h

theorem appendToBlock_getBlock_ne (self : Func) (bid : Nat) (L : List Nat) (b : Nat)
    (h : b ≠ bid) :
    (appendToBlock self bid L).dfg.getBlock b = self.dfg.getBlock b := by
  simp only [appendToBlock, DataFlowGraph.setBlock, DataFlowGraph.getBlock]
  exact getD_set_ne_any _ _ _ _ _ h

theorem appendToBlock_nil (self : Func) (bid : Nat) (h : bid < self.dfg.blocks.length) :
    appendToBlock self bid [] = self := by
  simp only [appendToBlock, DataFlowGraph.setBlock, List.append_nil]
  have hset := set_getD_self self.dfg.blocks bid emptyBlock h
  show ({ self with dfg := { self.dfg with
    blocks := self.dfg.blocks.set bid (self.dfg.getBlock bid) } } : Func) = self
  rw [show self.dfg.getBlock bid = self.dfg.blocks.getD bid emptyBlock from rfl, hset]

theorem appendToBlock_append (self : Func) (bid : Nat) (L1 L2 : List Nat)
    (h : bid < self.dfg.blocks.length) :
    appendToBlock (appendToBlock self bid L1) bid L2 = appendToBlock self bid (L1 ++ L2) := by
  simp only [appendToBlock, DataFlowGraph.setBlock, DataFlowGraph.getBlock]
  rw [getD_set_self_any self.dfg.blocks bid _ emptyBlock h]
  simp only [List.set_set, List.append_assoc]

theorem replay_processInstructions {ε : Type} (oracle : Oracle ε) (agg : Int)
    (bf : List (Nat × Func)) (bid : Nat) :
    ∀ (L : List Nat) (self : Func) (mk : List Nat),
      bid < self.dfg.blocks.length →
      (∀ iid ∈ L, FailsCert oracle agg bf self iid) →
      ∃ mk1,
        processInstructions oracle agg bf bid L self mk =
          .ok (appendToBlock self bid L, mk1) ∧
        (∀ x ∈ mk, x ∈ mk1) ∧
        (∀ iid ∈ L, ∀ fid g args, candidateCallee self iid bf = some (fid, g, args) →
          fid ∈ mk1) ∧
        (∀ x ∈ mk1, x ∈ mk ∨
          ∃ iid ∈ L, ∃ g args, candidateCallee self iid bf = some (x, g, args)) := by
  intro L
  induction L with
  | nil =>
    intro self mk hbid hcert
    refine ⟨mk, ?_, fun x hx => hx, by simp, fun x hx => Or.inl hx⟩
    rw [appendToBlock_nil self bid hbid]
    rfl
  | cons iid rest ih =>
    intro self mk hbid hcert
    have hcert0 := hcert iid (List.mem_cons_self _ _)
    have hvals : self.dfg.values = (self.pushInstruction bid iid).dfg.values := rfl
    have hinstr : self.dfg.instructions = (self.pushInstruction bid iid).dfg.instructions :=
      rfl
    have hccongr : ∀ j, candidateCallee self j bf =
        candidateCallee (self.pushInstruction bid iid) j bf :=
      fun j => candidateCallee_congr hvals hinstr j bf
    have hbid' : bid < (self.pushInstruction bid iid).dfg.blocks.length := by
      rw [pushInstruction_blocks_length]
      exact hbid
    have hcert' : ∀ j ∈ rest, FailsCert oracle agg bf (self.pushInstruction bid iid) j := by
      intro j hj
      refine failsCert_transport (pushInstruction_instructions self bid iid) ?_ ?_
        (hcert j (List.mem_cons_of_mem _ hj))
      · intro o _
        rfl
      · intro o _ t ht
        exact ht
    have hstate : appendToBlock (self.pushInstruction bid iid) bid rest =
        appendToBlock self bid (iid :: rest) := by
      rw [pushInstruction_as_append, appendToBlock_append self bid [iid] rest hbid]
      rfl
    rcases failsCert_outcome hcert0 mk with ⟨hcnone, hout⟩ |
      ⟨fid, g, args, hcs, mkA, hout, hmkA⟩
    · rw [processInstructions_cons_not oracle agg bf bid iid rest self mk mk hout]
      obtain ⟨mk1, heq, hmono, hins, hacc⟩ := ih (self.pushInstruction bid iid) mk
        hbid' hcert'
      refine ⟨mk1, ?_, hmono, ?_, ?_⟩
      · rw [heq, hstate]
      · intro j hj fid1 g1 args1 hc1
        rcases List.mem_cons.mp hj with rfl | hj'
        · rw [hc1] at hcnone
          cases hcnone
        · exact hins j hj' fid1 g1 args1 ((hccongr j).symm.trans hc1).symm.symm
      · intro x hx
        rcases hacc x hx with hxm | ⟨j, hj, g1, args1, hc1⟩
        · exact Or.inl hxm
        · exact Or.inr ⟨j, List.mem_cons_of_mem _ hj, g1, args1,
            (hccongr j).trans hc1⟩
    · rw [processInstructions_cons_cannot oracle agg bf bid iid rest self mk mkA fid hout]
      obtain ⟨mk1, heq, hmono, hins, hacc⟩ := ih (self.pushInstruction bid iid)
        (mkA.insert fid) hbid' hcert'
      have hmkAmono : ∀ x ∈ mk, x ∈ mkA.insert fid := by
        intro x hx
        rcases hmkA with rfl | rfl
        · exact List.mem_insert_of_mem hx
        · exact List.mem_insert_of_mem (List.mem_insert_of_mem hx)
      have hmkAsub : ∀ x ∈ mkA.insert fid, x = fid ∨ x ∈ mk := by
        intro x hx
        rcases List.mem_insert_iff.mp hx with rfl | hx'
        · exact Or.inl rfl
        · rcases hmkA with rfl | rfl
          · exact Or.inr hx'
          · rcases List.mem_insert_iff.mp hx' with rfl | hx''
            · exact Or.inl rfl
            · exact Or.inr hx''
      refine ⟨mk1, ?_, fun x hx => hmono x (hmkAmono x hx), ?_, ?_⟩
      · rw [heq, hstate]
      · intro j hj fid1 g1 args1 hc1
        rcases List.mem_cons.mp hj with rfl | hj'
        · rw [hc1] at hcs
          injection hcs with hcs'
          injection hcs' with h1 h2
          subst h1
          exact hmono fid1 (List.mem_insert_self _ _)
        · exact hins j hj' fid1 g1 args1 ((hccongr j).symm.trans hc1).symm.symm
      · intro x hx
        rcases hacc x hx with hxm | ⟨j, hj, g1, args1, hc1⟩
        · rcases hmkAsub x hxm with rfl | hx'
          · exact Or.inr ⟨iid, List.mem_cons_self _ _, g, args, hcs⟩
          · exact Or.inl hx'
        · exact Or.inr ⟨j, List.mem_cons_of_mem _ hj, g1, args1,
            (hccongr j).trans hc1⟩

theorem drain_append_self (self : Func) (b : Nat) (h : b < self.dfg.blocks.length) :
    appendToBlock { self with
        dfg := self.dfg.setBlock b { self.dfg.getBlock b with instructions := [] } } b
      (self.dfg.getBlock b).instructions = self := by
  simp only [appendToBlock, DataFlowGraph.setBlock, DataFlowGraph.getBlock]
  rw [getD_set_self_any self.dfg.blocks b _ emptyBlock h]
  simp only [List.set_set, List.nil_append]
  have he : ({ parameters := (self.dfg.blocks.getD b emptyBlock).parameters,
               instructions := (self.dfg.blocks.getD b emptyBlock).instructions,
               terminator := (self.dfg.blocks.getD b emptyBlock).terminator } : Block) =
      self.dfg.blocks.getD b emptyBlock := rfl
  rw [he, set_getD_self _ _ _ h]

theorem replay_processBlocks {ε : Type} (oracle : Oracle ε) (agg : Int)
    (bf : List (Nat × Func)) :
    ∀ (bids : List Nat) (self : Func) (mk : List Nat),
      (∀ b ∈ bids, b < self.dfg.blocks.length) →
      (∀ b ∈ bids, ∀ iid ∈ (self.dfg.getBlock b).instructions,
        FailsCert oracle agg bf self iid) →
      ∃ mk1,
        processBlocks oracle agg bf bids self mk = .ok (self, mk1) ∧
        (∀ x ∈ mk, x ∈ mk1) ∧
        (∀ b ∈ bids, ∀ iid ∈ (self.dfg.getBlock b).instructions,
          ∀ fid g args, candidateCallee self iid bf = some (fid, g, args) → fid ∈ mk1) ∧
        (∀ x ∈ mk1, x ∈ mk ∨ ∃ b ∈ bids, ∃ iid ∈ (self.dfg.getBlock b).instructions,
          ∃ g args, candidateCallee self iid bf = some (x, g, args)) := by
  intro bids
  induction bids with
  | nil =>
    intro self mk _ _
    exact ⟨mk, rfl, fun x hx => hx, by simp, fun x hx => Or.inl hx⟩
  | cons b rest ih =>
    intro self mk hlt hcert
    have hb : b < self.dfg.blocks.length := hlt b (List.mem_cons_self _ _)
    have hvals : self.dfg.values = ({ self with
        dfg := self.dfg.setBlock b { self.dfg.getBlock b with
          instructions := [] } } : Func).dfg.values := rfl
    have hinstr : self.dfg.instructions = ({ self with
        dfg := self.dfg.setBlock b { self.dfg.getBlock b with
          instructions := [] } } : Func).dfg.instructions := rfl
    have hbid1 : b < ({ self with
        dfg := self.dfg.setBlock b { self.dfg.getBlock b with
          instructions := [] } } : Func).dfg.blocks.length := by
      simp only [DataFlowGraph.setBlock]
      simpa using hb
    have hcert1 : ∀ iid ∈ (self.dfg.getBlock b).instructions,
        FailsCert oracle agg bf ({ self with
          dfg := self.dfg.setBlock b { self.dfg.getBlock b with
            instructions := [] } } : Func) iid := by
      intro iid hiid
      refine failsCert_transport hinstr.symm ?_ ?_
        (hcert b (List.mem_cons_self _ _) iid hiid)
      · intro o _
        rfl
      · intro o _ t ht
        exact ht
    obtain ⟨mkb, hPI, hmono1, hins1, hacc1⟩ :=
      replay_processInstructions oracle agg bf b (self.dfg.getBlock b).instructions
        ({ self with dfg := self.dfg.setBlock b { self.dfg.getBlock b with
          instructions := [] } } : Func) mk hbid1 hcert1
    rw [drain_append_self self b hb] at hPI
    obtain ⟨mk1, hPB, hmono2, hins2, hacc2⟩ := ih self mkb
      (fun b' hb' => hlt b' (List.mem_cons_of_mem _ hb'))
      (fun b' hb' iid hiid => hcert b' (List.mem_cons_of_mem _ hb') iid hiid)
    have hccongr : ∀ j, candidateCallee ({ self with
        dfg := self.dfg.setBlock b { self.dfg.getBlock b with
          instructions := [] } } : Func) j bf = candidateCallee self j bf :=
      fun j => candidateCallee_congr hvals.symm hinstr.symm j bf
    refine ⟨mk1, ?_, fun x hx => hmono2 x (hmono1 x hx), ?_, ?_⟩
    · simp only [processBlocks, hPI]
      exact hPB
    · intro b' hb' iid hiid fid g args hc
      rcases List.mem_cons.mp hb' with rfl | hb''
      · exact hmono2 fid (hins1 iid hiid fid g args ((hccongr iid).trans hc))
      · exact hins2 b' hb'' iid hiid fid g args hc
    · intro x hx
      rcases hacc2 x hx with hxb | ⟨b', hb', iid, hiid, g, args, hc⟩
      · rcases hacc1 x hxb with hxm | ⟨iid, hiid, g, args, hc⟩
        · exact Or.inl hxm
        · exact Or.inr ⟨b, List.mem_cons_self _ _, iid, hiid, g, args,
            ((hccongr iid).symm.trans hc).symm.symm⟩
      · exact Or.inr ⟨b', List.mem_cons_of_mem _ hb', iid, hiid, g, args, hc⟩

theorem replay_function {ε : Type} (oracle : Oracle ε) (agg : Int)
    (bf : List (Nat × Func)) (f : Func) (mk : List Nat)
    (hcert : ∀ iid ∈ flatInstructions f, FailsCert oracle agg bf f iid) :
    ∃ mk1, Func.inlineConstBrilligCalls oracle agg bf f mk = .ok (f, mk1) ∧
      (∀ x ∈ mk, x ∈ mk1) ∧
      (∀ iid ∈ flatInstructions f, ∀ fid g args,
        candidateCallee f iid bf = some (fid, g, args) → fid ∈ mk1) ∧
      (∀ x ∈ mk1, x ∈ mk ∨ ∃ iid ∈ flatInstructions f, ∃ g args,
        candidateCallee f iid bf = some (x, g, args)) := by
  obtain ⟨mk1, h, hmono, hins, hacc⟩ := replay_processBlocks oracle agg bf
    (List.range f.dfg.blocks.length) f mk
    (fun b hb => List.mem_range.mp hb)
    (fun b hb iid hiid => hcert iid (mem_blockInstrs.mpr ⟨b, hb, hiid⟩))
  refine ⟨mk1, h, hmono, ?_, ?_⟩
  · intro iid hiid fid g args hc
    obtain ⟨b, hb, hbi⟩ := mem_blockInstrs.mp hiid
    exact hins b hb iid hbi fid g args hc
  · intro x hx
    rcases hacc x hx with hxm | ⟨b, hb, iid, hiid, g, args, hc⟩
    · exact Or.inl hxm
    · exact Or.inr ⟨iid, mem_blockInstrs.mpr ⟨b, hb, hiid⟩, g, args, hc⟩

theorem replay_processFunctions {ε : Type} (oracle : Oracle ε) (agg : Int)
    (bf : List (Nat × Func)) :
    ∀ (fns : List (Nat × Func)) (mk : List Nat),
      (∀ q ∈ fns, ∀ iid ∈ flatInstructions q.2, FailsCert oracle agg bf q.2 iid) →
      ∃ mk1, processFunctions oracle agg bf fns mk = .ok (fns, mk1) ∧
        (∀ x ∈ mk, x ∈ mk1) ∧
        (∀ q ∈ fns, ∀ iid ∈ flatInstructions q.2, ∀ fid g args,
          candidateCallee q.2 iid bf = some (fid, g, args) → fid ∈ mk1) := by
  intro fns
  induction fns with
  | nil =>
    intro mk _
    exact ⟨mk, rfl, fun x hx => hx, by simp⟩
  | cons p rest ih =>
    obtain ⟨fid0, f⟩ := p
    intro mk hcert
    obtain ⟨mkA, hf, hmonoA, hinsA, _⟩ := replay_function oracle agg bf f mk
      (hcert (fid0, f) (List.mem_cons_self _ _))
    obtain ⟨mk1, hrest, hmonoB, hinsB⟩ := ih mkA
      (fun q hq => hcert q (List.mem_cons_of_mem _ hq))
    refine ⟨mk1, ?_, fun x hx => hmonoB x (hmonoA x hx), ?_⟩
    · simp only [processFunctions, hf, hrest]
    · intro q hq iid hiid fid g args hc
      rcases List.mem_cons.mp hq with rfl | hq'
      · exact hmonoB fid (hinsA iid hiid fid g args hc)
      · exact hinsB q hq' iid hiid fid g args hc

/-! ## Mapping lemmas for the snapshot and the deletion loop -/

theorem removeFunctions_id (mainId : Nat) (entry mkeep : List Nat) :
    ∀ (ids : List Nat) (fns : List (Nat × Func)),
      (∀ fid ∈ ids, fid = mainId ∨ fid ∈ mkeep ∨ fid ∈ entry) →
      removeFunctions mainId entry mkeep ids fns = fns := by
  intro ids
  induction ids with
  | nil =>
    intro fns _
    rfl
  | cons fid0 rest ih =>
    intro fns h
    rcases h fid0 (List.mem_cons_self _ _) with h0 | h0 | h0
    · simp only [removeFunctions, if_pos h0]
      exact ih fns fun fid hf => h fid (List.mem_cons_of_mem _ hf)
    · by_cases hmain : fid0 = mainId
      · simp only [removeFunctions, if_pos hmain]
        exact ih fns fun fid hf => h fid (List.mem_cons_of_mem _ hf)
      · simp only [removeFunctions, if_neg hmain, if_pos h0]
        exact ih fns fun fid hf => h fid (List.mem_cons_of_mem _ hf)
    · by_cases hmain : fid0 = mainId
      · simp only [removeFunctions, if_pos hmain]
        exact ih fns fun fid hf => h fid (List.mem_cons_of_mem _ hf)
      · by_cases hmk : fid0 ∈ mkeep
        · simp only [removeFunctions, if_neg hmain, if_pos hmk]
          exact ih fns fun fid hf => h fid (List.mem_cons_of_mem _ hf)
        · simp only [removeFunctions, if_neg hmain, if_neg hmk, if_pos h0]
          exact ih fns fun fid hf => h fid (List.mem_cons_of_mem _ hf)

theorem removeFunctions_sublist (mainId : Nat) (entry mkeep : List Nat) :
    ∀ (ids : List Nat) (fns : List (Nat × Func)),
      (removeFunctions mainId entry mkeep ids fns).Sublist fns := by
  intro ids
  induction ids with
  | nil =>
    intro fns
    exact List.Sublist.refl fns
  | cons fid0 rest ih =>
    intro fns
    by_cases h0 : fid0 = mainId
    · simp only [removeFunctions, if_pos h0]
      exact ih fns
    · by_cases h1 : fid0 ∈ mkeep
      · simp only [removeFunctions, if_neg h0, if_pos h1]
        exact ih fns
      · by_cases h2 : fid0 ∈ entry
        · simp only [removeFunctions, if_neg h0, if_neg h1, if_pos h2]
          exact ih fns
        · simp only [removeFunctions, if_neg h0, if_neg h1, if_neg h2]
          exact (ih _).trans (List.filter_sublist fns)

theorem removeFunctions_mem (mainId : Nat) (entry mkeep : List Nat) :
    ∀ (ids : List Nat) (fns : List (Nat × Func)) (q : Nat × Func),
      q ∈ fns → q.1 ∉ ids → q ∈ removeFunctions mainId entry mkeep ids fns := by
  intro ids
  induction ids with
  | nil =>
    intro fns q hq _
    exact hq
  | cons fid0 rest ih =>
    intro fns q hq hni
    have hne : q.1 ≠ fid0 := fun h => hni (h ▸ List.mem_cons_self _ _)
    have hni' : q.1 ∉ rest := fun h => hni (List.mem_cons_of_mem _ h)
    by_cases h0 : fid0 = mainId
    · simp only [removeFunctions, if_pos h0]
      exact ih fns q hq hni'
    · by_cases h1 : fid0 ∈ mkeep
      · simp only [removeFunctions, if_neg h0, if_pos h1]
        exact ih fns q hq hni'
      · by_cases h2 : fid0 ∈ entry
        · simp only [removeFunctions, if_neg h0, if_neg h1, if_pos h2]
          exact ih fns q hq hni'
        · simp only [removeFunctions, if_neg h0, if_neg h1, if_neg h2]
          refine ih _ q ?_ hni'
          exact List.mem_filter.mpr ⟨hq, by simpa using hne⟩

theorem assocFind_of_mem_nodup {fns : List (Nat × Func)}
    (hnd : (fns.map Prod.fst).Nodup) {q : Nat × Func} (hq : q ∈ fns) :
    assocFind fns q.1 = some q.2 := by
  induction fns with
  | nil => cases hq
  | cons p rest ih =>
    simp only [List.map_cons, List.nodup_cons] at hnd
    rcases List.mem_cons.mp hq with rfl | hq'
    · simp [assocFind]
    · have hne : p.1 ≠ q.1 := by
        intro h
        exact hnd.1 (h ▸ List.mem_map_of_mem Prod.fst hq')
      simp only [assocFind, if_neg hne]
      exact ih hnd.2 hq'

theorem assocFind_mem :
    ∀ {fns : List (Nat × Func)} {fid : Nat} {f : Func},
      assocFind fns fid = some f → (fid, f) ∈ fns := by
  intro fns
  induction fns with
  | nil =>
    intro fid f h
    cases h
  | cons p rest ih =>
    intro fid f h
    simp only [assocFind] at h
    by_cases hk : p.1 = fid
    · rw [if_pos hk] at h
      injection h with h'
      have hqp : (fid, f) = p := by
        rw [← hk, ← h']
      rw [hqp]
      exact List.mem_cons_self _ _
    · rw [if_neg hk] at h
      exact List.mem_cons_of_mem _ (ih h)

theorem snapshot_keys_subset {fns : List (Nat × Func)} {fid : Nat}
    (h : fid ∈ (snapshotBrilligFunctions fns).map Prod.fst) : fid ∈ fns.map Prod.fst := by
  simp only [snapshotBrilligFunctions, List.map_map, List.mem_map] at h
  obtain ⟨p, hp, hfid⟩ := h
  simp only [Function.comp] at hfid
  exact hfid ▸ List.mem_map_of_mem Prod.fst (List.mem_of_mem_filter hp)

theorem snapshot_assocFind {fns : List (Nat × Func)}
    (hnd : (fns.map Prod.fst).Nodup) (fid : Nat) :
    assocFind (snapshotBrilligFunctions fns) fid =
      match assocFind fns fid with
      | some f => if isBrillig f then some (cloneWithId fid f) else none
      | none => none := by
  induction fns with
  | nil => rfl
  | cons p rest ih =>
    obtain ⟨k, v⟩ := p
    simp only [List.map_cons, List.nodup_cons] at hnd
    by_cases hb : isBrillig v
    · have hs : snapshotBrilligFunctions ((k, v) :: rest) =
          (k, cloneWithId k v) :: snapshotBrilligFunctions rest := by
        simp [snapshotBrilligFunctions, List.filter_cons, hb]
      rw [hs]
      by_cases hk : k = fid
      · subst hk
        simp [assocFind, hb]
      · simp only [assocFind, if_neg hk]
        exact ih hnd.2
    · have hs : snapshotBrilligFunctions ((k, v) :: rest) =
          snapshotBrilligFunctions rest := by
        simp [snapshotBrilligFunctions, List.filter_cons, hb]
      rw [hs]
      by_cases hk : k = fid
      · subst hk
        simp only [assocFind, if_pos rfl]
        have hnone : assocFind (snapshotBrilligFunctions rest) k = none := by
          rw [assocFind_eq_none_iff]
          intro hmem
          exact hnd.1 (snapshot_keys_subset hmem)
        rw [hnone]
        simp [hb]
      · simp only [assocFind, if_neg hk]
        exact ih hnd.2

theorem forall₂_mem_right {α β : Type} {R : α → β → Prop} :
    ∀ {l1 : List α} {l2 : List β}, List.Forall₂ R l1 l2 →
      ∀ q ∈ l2, ∃ p ∈ l1, R p q := by
  intro l1 l2 h
  induction h with
  | nil =>
    intro q hq
    cases hq
  | cons hR hrest ih =>
    intro q hq
    rcases List.mem_cons.mp hq with rfl | hq'
    · exact ⟨_, List.mem_cons_self _ _, hR⟩
    · obtain ⟨p, hp, hpR⟩ := ih q hq'
      exact ⟨p, List.mem_cons_of_mem _ hp, hpR⟩

theorem assocFind_forall₂ {R : Func → Func → Prop} :
    ∀ {fns out : List (Nat × Func)},
      List.Forall₂ (fun p q => p.1 = q.1 ∧ R p.2 q.2) fns out →
      ∀ fid f1, assocFind out fid = some f1 →
        ∃ f0, assocFind fns fid = some f0 ∧ R f0 f1 := by
  intro fns out h
  induction h with
  | nil =>
    intro fid f1 h1
    cases h1
  | @cons p q fns' out' hR hrest ih =>
    intro fid f1 h1
    simp only [assocFind] at h1 ⊢
    by_cases hk : q.1 = fid
    · rw [if_pos hk] at h1
      injection h1 with h1'
      rw [if_pos (hR.1.trans hk)]
      exact ⟨p.2, rfl, h1' ▸ hR.2⟩
    · rw [if_neg hk] at h1
      rw [if_neg (hR.1 ▸ hk)]
      exact ih fid f1 h1

/-! ## Characterization of the first run, per instruction list -/

theorem run1_processInstructions {ε : Type} (oracle : Oracle ε) (agg : Int)
    (bf : List (Nat × Func)) (bid : Nat) (len0 : Nat) :
    ∀ (L : List Nat) (V : Func) (mk : List Nat) (self1 : Func) (mk2 : List Nat),
      processInstructions oracle agg bf bid L V mk = .ok (self1, mk2) →
      bid < V.dfg.blocks.length →
      len0 ≤ V.dfg.values.length →
      defBeforeUseB V.dfg L = true →
      resultsSeparatedB V.dfg L = true →
      (∀ j ∈ L, (V.dfg.instructionResults j).Nodup ∧
        ∀ r ∈ V.dfg.instructionResults j,
          r < len0 ∧ V.dfg.values.getD r .other = .other) →
      (∀ j ∈ L, ∀ o ∈ operands V.dfg j, o < len0) →
      ∃ surv,
        arenaFrame V self1 ∧
        storeStable V self1 (resultsOfList V.dfg L) ∧
        surv.Sublist L ∧
        self1.dfg.getBlock bid = { V.dfg.getBlock bid with
          instructions := (V.dfg.getBlock bid).instructions ++ surv } ∧
        (∀ b, b ≠ bid → self1.dfg.getBlock b = V.dfg.getBlock b) ∧
        (∀ x ∈ mk, x ∈ mk2) ∧
        survCerts oracle agg bf self1 mk2 surv ∧
        (∀ x ∈ mk2, x ∈ mk ∨ ∃ j ∈ surv, ∃ g args,
          candidateCallee self1 j bf = some (x, g, args)) := by
  intro L
  induction L with
  | nil =>
    intro V mk self1 mk2 hrun hbid hlen0 hdbu hrs hres hops
    simp only [processInstructions] at hrun
    injection hrun with hrun'
    injection hrun' with h1 h2
    subst h1
    subst h2
    refine ⟨[], arenaFrame_refl V, storeStable_refl V _, List.nil_sublist _,
      by rw [List.append_nil], fun b _ => rfl, fun x hx => hx,
      fun j hj => absurd hj (List.not_mem_nil _), fun x hx => Or.inl hx⟩
  | cons iid rest ih =>
    intro V mk self1 mk2 hrun hbid hlen0 hdbu hrs hres hops
    obtain ⟨hdbu0, hdbu'⟩ := defBeforeUseB_cons hdbu
    obtain ⟨hrs0, hrs'⟩ := resultsSeparatedB_cons hrs
    obtain ⟨hnd0, hres0⟩ := hres iid (List.mem_cons_self _ _)
    cases hocbc : optimizeConstBrilligCall oracle agg V iid bf mk with
    | error e =>
      simp only [processInstructions, hocbc] at hrun
      cases hrun
    | ok q =>
      obtain ⟨res, mkA⟩ := q
      rcases optimizeConstBrilligCall_inv hocbc with
        ⟨hresq, hmkA, hcnone⟩ | ⟨fid, g, args, hcs, hcase⟩
      · -- Not a brillig call
        subst hresq
        rw [processInstructions_cons_not oracle agg bf bid iid rest V mk mkA hocbc] at hrun
        have hbid' : bid < (V.pushInstruction bid iid).dfg.blocks.length := by
          rw [pushInstruction_blocks_length]
          exact hbid
        have hdbu'' : defBeforeUseB (V.pushInstruction bid iid).dfg rest = true := by
          rw [defBeforeUseB_congr (pushInstruction_instructions V bid iid)
            (pushInstruction_results V bid iid)]
          exact hdbu'
        have hrs'' : resultsSeparatedB (V.pushInstruction bid iid).dfg rest = true := by
          rw [resultsSeparatedB_congr (pushInstruction_results V bid iid)]
          exact hrs'
        obtain ⟨surv', hframe, hstable, hsub, hblk, hblkne, hmono, hcerts, hacc⟩ :=
          ih (V.pushInstruction bid iid) mkA self1 mk2 hrun hbid' hlen0 hdbu'' hrs''
            (fun j hj => hres j (List.mem_cons_of_mem _ hj))
            (fun j hj => hops j (List.mem_cons_of_mem _ hj))
        have hframe0 : arenaFrame V (V.pushInstruction bid iid) :=
          ⟨rfl, rfl, rfl, rfl, rfl, pushInstruction_blocks_length V bid iid, le_refl _⟩
        have hframeT := arenaFrame_trans hframe0 hframe
        have hstableR : storeStable V self1 (resultsOfList V.dfg rest) := by
          refine storeStable_trans (le_refl _) (storeStable_refl _ _) ?_
          refine storeStable_mono hstable ?_
          intro id hni
          rwa [resultsOfList_congr (pushInstruction_results V bid iid)]
        have hstT : ∀ o ∈ operands V.dfg iid,
            self1.dfg.values.getD o .other = V.dfg.values.getD o .other := by
          intro o ho
          have holt : o < len0 := hops iid (List.mem_cons_self _ _) o ho
          exact hstableR.1 o (by omega) (hdbu0 o ho)
        have hdenT : ∀ o ∈ operands V.dfg iid, ∀ t,
            denoteConstant V.dfg.values o = some t →
            denoteConstant self1.dfg.values o = some t := by
          intro o ho t ht
          exact hstableR.2 o t ht (hdbu0 o ho)
        have hcstab : candidateCallee self1 iid bf = candidateCallee V iid bf :=
          candidateCallee_stable bf hframeT.1 hstT
        refine ⟨iid :: surv', hframeT, ?_, hsub.cons₂ iid, ?_, ?_,
          fun x hx => hmono x (hmkA.symm ▸ hx), ?_, ?_⟩
        · refine storeStable_trans (le_refl _) (storeStable_refl _ _) ?_
          refine storeStable_mono hstable ?_
          intro id hni
          rw [resultsOfList_congr (pushInstruction_results V bid iid)]
          intro hmem
          refine hni ?_
          rw [resultsOfList_cons]
          exact List.mem_append_right _ hmem
        · have hgb := pushInstruction_getBlock_self V bid iid hbid
          rw [hgb] at hblk
          rw [show ({ V.dfg.getBlock bid with
            instructions := (V.dfg.getBlock bid).instructions ++ [iid] } : Block).instructions
            = (V.dfg.getBlock bid).instructions ++ [iid] from rfl] at hblk
          rw [List.append_assoc, List.singleton_append] at hblk
          exact hblk
        · intro b hb
          rw [hblkne b hb, pushInstruction_getBlock_ne V bid iid b hb]
        · intro j hj
          rcases List.mem_cons.mp hj with rfl | hj'
          · refine ⟨failsCert_transport hframeT.1 hstT hdenT (Or.inl hcnone), ?_⟩
            intro fid1 g1 args1 hc1
            rw [hcstab, hcnone] at hc1
            cases hc1
          · exact hcerts j hj'
        · intro x hx
          rcases hacc x hx with hxm | ⟨j, hj, g1, args1, hc1⟩
          · exact Or.inl (hmkA ▸ hxm)
          · exact Or.inr ⟨j, List.mem_cons_of_mem _ hj, g1, args1, hc1⟩
      · rcases hcase with ⟨hresq, hmkA, hcertV⟩ | ⟨fn, rvs, hresq, hmkA, hall, hprep,
          hie, hterm, hrvs⟩
        · -- Candidate that cannot be optimized
          subst hresq
          rw [processInstructions_cons_cannot oracle agg bf bid iid rest V mk mkA fid
            hocbc] at hrun
          have hbid' : bid < (V.pushInstruction bid iid).dfg.blocks.length := by
            rw [pushInstruction_blocks_length]
            exact hbid
          have hdbu'' : defBeforeUseB (V.pushInstruction bid iid).dfg rest = true := by
            rw [defBeforeUseB_congr (pushInstruction_instructions V bid iid)
              (pushInstruction_results V bid iid)]
            exact hdbu'
          have hrs'' : resultsSeparatedB (V.pushInstruction bid iid).dfg rest = true := by
            rw [resultsSeparatedB_congr (pushInstruction_results V bid iid)]
            exact hrs'
          obtain ⟨surv', hframe, hstable, hsub, hblk, hblkne, hmono, hcerts, hacc⟩ :=
            ih (V.pushInstruction bid iid) (mkA.insert fid) self1 mk2 hrun hbid' hlen0
              hdbu'' hrs''
              (fun j hj => hres j (List.mem_cons_of_mem _ hj))
              (fun j hj => hops j (List.mem_cons_of_mem _ hj))
          have hframe0 : arenaFrame V (V.pushInstruction bid iid) :=
            ⟨rfl, rfl, rfl, rfl, rfl, pushInstruction_blocks_length V bid iid, le_refl _⟩
          have hframeT := arenaFrame_trans hframe0 hframe
          have hstableR : storeStable V self1 (resultsOfList V.dfg rest) := by
            refine storeStable_trans (le_refl _) (storeStable_refl _ _) ?_
            refine storeStable_mono hstable ?_
            intro id hni
            rwa [resultsOfList_congr (pushInstruction_results V bid iid)]
          have hstT : ∀ o ∈ operands V.dfg iid,
              self1.dfg.values.getD o .other = V.dfg.values.getD o .other := by
            intro o ho
            have holt : o < len0 := hops iid (List.mem_cons_self _ _) o ho
            exact hstableR.1 o (by omega) (hdbu0 o ho)
          have hdenT : ∀ o ∈ operands V.dfg iid, ∀ t,
              denoteConstant V.dfg.values o = some t →
              denoteConstant self1.dfg.values o = some t := by
            intro o ho t ht
            exact hstableR.2 o t ht (hdbu0 o ho)
          have hcstab : candidateCallee self1 iid bf = candidateCallee V iid bf :=
            candidateCallee_stable bf hframeT.1 hstT
          have hmkmono : ∀ x ∈ mk, x ∈ mkA.insert fid := by
            intro x hx
            rcases hmkA with rfl | rfl
            · exact List.mem_insert_of_mem hx
            · exact List.mem_insert_of_mem (List.mem_insert_of_mem hx)
          have hmkAsub : ∀ x ∈ mkA.insert fid, x = fid ∨ x ∈ mk := by
            intro x hx
            rcases List.mem_insert_iff.mp hx with rfl | hx'
            · exact Or.inl rfl
            · rcases hmkA with rfl | rfl
              · exact Or.inr hx'
              · rcases List.mem_insert_iff.mp hx' with rfl | hx''
                · exact Or.inl rfl
                · exact Or.inr hx''
          refine ⟨iid :: surv', hframeT, ?_, hsub.cons₂ iid, ?_, ?_,
            fun x hx => hmono x (hmkmono x hx), ?_, ?_⟩
          · refine storeStable_trans (le_refl _) (storeStable_refl _ _) ?_
            refine storeStable_mono hstable ?_
            intro id hni
            rw [resultsOfList_congr (pushInstruction_results V bid iid)]
            intro hmem
            refine hni ?_
            rw [resultsOfList_cons]
            exact List.mem_append_right _ hmem
          · have hgb := pushInstruction_getBlock_self V bid iid hbid
            rw [hgb] at hblk
            rw [show ({ V.dfg.getBlock bid with
              instructions := (V.dfg.getBlock bid).instructions ++ [iid] } : Block).instructions
              = (V.dfg.getBlock bid).instructions ++ [iid] from rfl] at hblk
            rw [List.append_assoc, List.singleton_append] at hblk
            exact hblk
          · intro b hb
            rw [hblkne b hb, pushInstruction_getBlock_ne V bid iid b hb]
          · intro j hj
            rcases List.mem_cons.mp hj with rfl | hj'
            · refine ⟨failsCert_transport hframeT.1 hstT hdenT hcertV, ?_⟩
              intro fid1 g1 args1 hc1
              rw [hcstab, hcs] at hc1
              injection hc1 with hc1'
              injection hc1' with he1 he2
              subst he1
              exact hmono fid (List.mem_insert_self _ _)
            · exact hcerts j hj'
          · intro x hx
            rcases hacc x hx with hxm | ⟨j, hj, g1, args1, hc1⟩
            · rcases hmkAsub x hxm with rfl | hx'
              · refine Or.inr ⟨iid, List.mem_cons_self _ _, g, args, ?_⟩
                rw [hcstab]
                exact hcs
              · exact Or.inl hx'
            · exact Or.inr ⟨j, List.mem_cons_of_mem _ hj, g1, args1, hc1⟩
        · -- Optimized: the call is folded away
          subst hresq
          rw [processInstructions_cons_opt oracle agg bf bid iid rest V mk mkA fn rvs
            hocbc] at hrun
          cases hcrv : copyReturnValues fn ((V.dfg.instructionResults iid).zip rvs) V with
          | error e =>
            rw [hcrv] at hrun
            cases hrun
          | ok Vc =>
            rw [hcrv] at hrun
            have hndp : (((V.dfg.instructionResults iid).zip rvs).map Prod.fst).Nodup :=
              (zip_map_fst_sublist _ _).nodup hnd0
            have hmemp : ∀ p ∈ (V.dfg.instructionResults iid).zip rvs,
                p.1 < V.dfg.values.length ∧ V.dfg.values.getD p.1 .other = .other := by
              intro p hp
              obtain ⟨a, b⟩ := p
              have hmem := (List.of_mem_zip hp).1
              obtain ⟨hlt, hother⟩ := hres0 a hmem
              exact ⟨by omega, hother⟩
            obtain ⟨c1, c2, c3, c4, c5, c6, c7, c8, c9, c10, c11⟩ :=
              copyReturnValues_spec fn ((V.dfg.instructionResults iid).zip rvs) V Vc
                hcrv hndp hmemp
            have hfsts : ∀ x, x ∈ (((V.dfg.instructionResults iid).zip rvs).map Prod.fst) →
                x ∈ resultsOfList V.dfg (iid :: rest) := by
              intro x hx
              rw [resultsOfList_cons]
              exact List.mem_append_left _ ((zip_map_fst_sublist _ _).subset hx)
            have hbidc : bid < Vc.dfg.blocks.length := by
              rw [c3]
              exact hbid
            have hlen0c : len0 ≤ Vc.dfg.values.length := le_trans hlen0 c7
            have hdbuc : defBeforeUseB Vc.dfg rest = true := by
              rw [defBeforeUseB_congr c1 c2]
              exact hdbu'
            have hrsc : resultsSeparatedB Vc.dfg rest = true := by
              rw [resultsSeparatedB_congr c2]
              exact hrs'
            have hresc : ∀ j ∈ rest, (Vc.dfg.instructionResults j).Nodup ∧
                ∀ r ∈ Vc.dfg.instructionResults j,
                  r < len0 ∧ Vc.dfg.values.getD r .other = .other := by
              intro j hj
              rw [instructionResults_congr c2]
              obtain ⟨hndj, hresj⟩ := hres j (List.mem_cons_of_mem _ hj)
              refine ⟨hndj, ?_⟩
              intro r hr
              obtain ⟨hlt, hother⟩ := hresj r hr
              have hnotin : r ∉ ((V.dfg.instructionResults iid).zip rvs).map Prod.fst := by
                intro hmem
                exact hrs0 r ((zip_map_fst_sublist _ _).subset hmem)
                  (mem_resultsOfList.mpr ⟨j, hj, hr⟩)
              refine ⟨hlt, ?_⟩
              rw [c11 r (by omega) hnotin]
              exact hother
            have hopsc : ∀ j ∈ rest, ∀ o ∈ operands Vc.dfg j, o < len0 := by
              intro j hj
              rw [operands_congr c1]
              exact hops j (List.mem_cons_of_mem _ hj)
            obtain ⟨surv', hframe, hstable, hsub, hblk, hblkne, hmono, hcerts, hacc⟩ :=
              ih Vc mkA self1 mk2 hrun hbidc hlen0c hdbuc hrsc hresc hopsc
            have hframe0 : arenaFrame V Vc := ⟨c1, c2, c5, c4, c6, by rw [c3], c7⟩
            have hgbc : Vc.dfg.getBlock bid = V.dfg.getBlock bid := by
              simp [DataFlowGraph.getBlock, c3]
            refine ⟨surv', arenaFrame_trans hframe0 hframe, ?_, hsub.cons iid, ?_, ?_,
              fun x hx => hmono x (hmkA.symm ▸ hx), hcerts, ?_⟩
            · have hs1 : storeStable V Vc (resultsOfList V.dfg (iid :: rest)) := by
                refine ⟨?_, ?_⟩
                · intro id hlt hni
                  exact c11 id hlt fun hm => hni (hfsts id hm)
                · intro id t hd hni
                  exact c9 id t hd fun hm => hni (hfsts id hm)
              have hs2 : storeStable Vc self1 (resultsOfList V.dfg (iid :: rest)) := by
                refine storeStable_mono hstable ?_
                intro id hni
                rw [resultsOfList_congr c2]
                intro hmem
                refine hni ?_
                rw [resultsOfList_cons]
                exact List.mem_append_right _ hmem
              exact storeStable_trans c7 hs1 hs2
            · rw [hgbc] at hblk
              exact hblk
            · intro b hb
              rw [hblkne b hb]
              simp [DataFlowGraph.getBlock, c3]
            · intro x hx
              rcases hacc x hx with hxm | ⟨j, hj, g1, args1, hc1⟩
              · exact Or.inl (hmkA ▸ hxm)
              · exact Or.inr ⟨j, hj, g1, args1, hc1⟩

/-! ## Characterization of the first run, per block list -/

theorem run1_processBlocks {ε : Type} (oracle : Oracle ε) (agg : Int)
    (bf : List (Nat × Func)) (len0 : Nat) :
    ∀ (bids : List Nat) (V : Func) (mk : List Nat) (self1 : Func) (mk2 : List Nat),
      processBlocks oracle agg bf bids V mk = .ok (self1, mk2) →
      bids.Nodup →
      (∀ b ∈ bids, b < V.dfg.blocks.length) →
      len0 ≤ V.dfg.values.length →
      defBeforeUseB V.dfg (blockInstrs V bids) = true →
      resultsSeparatedB V.dfg (blockInstrs V bids) = true →
      (∀ j ∈ blockInstrs V bids, (V.dfg.instructionResults j).Nodup ∧
        ∀ r ∈ V.dfg.instructionResults j,
          r < len0 ∧ V.dfg.values.getD r .other = .other) →
      (∀ j ∈ blockInstrs V bids, ∀ o ∈ operands V.dfg j, o < len0) →
      arenaFrame V self1 ∧
      storeStable V self1 (resultsOfList V.dfg (blockInstrs V bids)) ∧
      (∀ b, b ∉ bids → self1.dfg.getBlock b = V.dfg.getBlock b) ∧
      (∀ b ∈ bids, ((self1.dfg.getBlock b).instructions).Sublist
          ((V.dfg.getBlock b).instructions) ∧
        (self1.dfg.getBlock b).parameters = (V.dfg.getBlock b).parameters ∧
        (self1.dfg.getBlock b).terminator = (V.dfg.getBlock b).terminator) ∧
      (∀ x ∈ mk, x ∈ mk2) ∧
      (∀ b ∈ bids, survCerts oracle agg bf self1 mk2
        (self1.dfg.getBlock b).instructions) ∧
      (∀ x ∈ mk2, x ∈ mk ∨ ∃ b ∈ bids, ∃ j ∈ (self1.dfg.getBlock b).instructions,
        ∃ g args, candidateCallee self1 j bf = some (x, g, args)) := by
  intro bids
  induction bids with
  | nil =>
    intro V mk self1 mk2 hrun _ _ _ _ _ _ _
    simp only [processBlocks] at hrun
    injection hrun with hrun'
    injection hrun' with h1 h2
    subst h1
    subst h2
    exact ⟨arenaFrame_refl V, storeStable_refl V _, fun b _ => rfl, by simp,
      fun x hx => hx, by simp, fun x hx => Or.inl hx⟩
  | cons b rest ih =>
    intro V mk self1 mk2 hrun hnd hlt hlen0 hdbu hrs hres hops
    simp only [List.nodup_cons] at hnd
    obtain ⟨hbnotin, hndrest⟩ := hnd
    have hb : b < V.dfg.blocks.length := hlt b (List.mem_cons_self _ _)
    rw [blockInstrs_cons] at hdbu hrs hres hops
    obtain ⟨hdbu1, hdbu2, hdbucross⟩ := defBeforeUseB_append hdbu
    obtain ⟨hrs1, hrs2, hrscross⟩ := resultsSeparatedB_append hrs
    have hgbd : ({ V with
        dfg := V.dfg.setBlock b { V.dfg.getBlock b with
          instructions := [] } }  : Func).dfg.getBlock b =
        { V.dfg.getBlock b with instructions := [] } := by
      simp only [DataFlowGraph.setBlock, DataFlowGraph.getBlock]
      exact getD_set_self_any _ _ _ _ hb
    have hgbne : ∀ b', b' ≠ b → ({ V with
        dfg := V.dfg.setBlock b { V.dfg.getBlock b with
          instructions := [] } }  : Func).dfg.getBlock b' = V.dfg.getBlock b' := by
      intro b' hb'
      simp only [DataFlowGraph.setBlock, DataFlowGraph.getBlock]
      exact getD_set_ne_any _ _ _ _ _ hb'
    simp only [processBlocks] at hrun
    cases hPI : processInstructions oracle agg bf b (V.dfg.getBlock b).instructions
        ({ V with
          dfg := V.dfg.setBlock b { V.dfg.getBlock b with
            instructions := [] } }  : Func) mk with
    | error e =>
      rw [hPI] at hrun
      cases hrun
    | ok p =>
      obtain ⟨Vb, mkb⟩ := p
      rw [hPI] at hrun
      have hbidd : b < ({ V with
          dfg := V.dfg.setBlock b { V.dfg.getBlock b with
            instructions := [] } }  : Func).dfg.blocks.length := by
        simp only [DataFlowGraph.setBlock]
        simpa using hb
      have hPIres := run1_processInstructions oracle agg bf b len0
        (V.dfg.getBlock b).instructions
        ({ V with
          dfg := V.dfg.setBlock b { V.dfg.getBlock b with
            instructions := [] } } : Func) mk Vb mkb hPI hbidd hlen0
        (((@defBeforeUseB_congr ({ V with
            dfg := V.dfg.setBlock b { V.dfg.getBlock b with
              instructions := [] } } : Func).dfg V.dfg rfl rfl)
          ((V.dfg.getBlock b).instructions)).trans hdbu1)
        (((@resultsSeparatedB_congr ({ V with
            dfg := V.dfg.setBlock b { V.dfg.getBlock b with
              instructions := [] } } : Func).dfg V.dfg rfl)
          ((V.dfg.getBlock b).instructions)).trans hrs1)
        (fun j hj => hres j (List.mem_append_left _ hj))
        (fun j hj => hops j (List.mem_append_left _ hj))
      obtain ⟨surv, pframe, pstable, psub, pblkB, pblkne, pmono, pcerts, pacc⟩ := hPIres
      have hVbB : Vb.dfg.getBlock b = { V.dfg.getBlock b with instructions := surv } := by
        rw [pblkB, hgbd]
        rfl
      have hVbne : ∀ b', b' ≠ b → Vb.dfg.getBlock b' = V.dfg.getBlock b' := by
        intro b' hb'
        rw [pblkne b' hb', hgbne b' hb']
      have hframeVVd : arenaFrame V ({ V with
          dfg := V.dfg.setBlock b { V.dfg.getBlock b with
            instructions := [] } } : Func) := by
        refine ⟨rfl, rfl, rfl, rfl, rfl, ?_, le_refl _⟩
        simp [DataFlowGraph.setBlock]
      have hframeVVb := arenaFrame_trans hframeVVd pframe
      have hbi : blockInstrs Vb rest = blockInstrs V rest := by
        refine blockInstrs_congr ?_
        intro b' hb'
        exact hVbne b' fun h => hbnotin (h ▸ hb')
      have hresultsVbV : resultsOfList Vb.dfg (blockInstrs Vb rest) =
          resultsOfList V.dfg (blockInstrs V rest) := by
        rw [hbi, resultsOfList_congr hframeVVb.2.1]
      have hSdrained : resultsOfList ({ V with
          dfg := V.dfg.setBlock b { V.dfg.getBlock b with
            instructions := [] } } : Func).dfg
          ((V.dfg.getBlock b).instructions) =
          resultsOfList V.dfg ((V.dfg.getBlock b).instructions) := rfl
      have hstableVVb : storeStable V Vb
          (resultsOfList V.dfg ((V.dfg.getBlock b).instructions)) := by
        refine storeStable_trans (le_refl _) (storeStable_refl _ _) ?_
        exact storeStable_mono pstable (fun id hni => by rwa [hSdrained])
      -- getD and denote facts needed for rest hypotheses
      have hstepgetD : ∀ r, r < len0 →
          r ∉ resultsOfList V.dfg ((V.dfg.getBlock b).instructions) →
          Vb.dfg.values.getD r .other = V.dfg.values.getD r .other := by
        intro r hlt0 hni
        exact hstableVVb.1 r (by omega) hni
      have hcrossmem : ∀ r, r ∈ resultsOfList V.dfg (blockInstrs V rest) →
          r ∉ resultsOfList V.dfg ((V.dfg.getBlock b).instructions) := by
        intro r hmem hmem'
        obtain ⟨i, hi, hri⟩ := mem_resultsOfList.mp hmem'
        exact hrscross i hi r hri hmem
      obtain ⟨qframe, qstable, qblkne, qblocks, qmono, qcerts, qacc⟩ :=
        ih Vb mkb self1 mk2 hrun hndrest
          (by
            intro b' hb'
            have := hlt b' (List.mem_cons_of_mem _ hb')
            rw [hframeVVb.2.2.2.2.2.1]
            exact this)
          (le_trans hlen0 hframeVVb.2.2.2.2.2.2)
          (by
            rw [hbi, defBeforeUseB_congr hframeVVb.1 hframeVVb.2.1]
            exact hdbu2)
          (by
            rw [hbi, resultsSeparatedB_congr hframeVVb.2.1]
            exact hrs2)
          (by
            rw [hbi]
            intro j hj
            rw [instructionResults_congr hframeVVb.2.1]
            obtain ⟨hndj, hresj⟩ := hres j (List.mem_append_right _ hj)
            refine ⟨hndj, ?_⟩
            intro r hr
            obtain ⟨hlt0, hother⟩ := hresj r hr
            refine ⟨hlt0, ?_⟩
            rw [hstepgetD r hlt0 (hcrossmem r (mem_resultsOfList.mpr ⟨j, hj, hr⟩))]
            exact hother)
          (by
            rw [hbi]
            intro j hj
            rw [operands_congr hframeVVb.1]
            exact hops j (List.mem_append_right _ hj))
      -- transports of head-block certificates to the final state
      have hsurvmem : ∀ j ∈ surv, j ∈ (V.dfg.getBlock b).instructions :=
        fun j hj => psub.subset hj
      have hopsconvVb : ∀ j, operands Vb.dfg j = operands V.dfg j :=
        fun j => operands_congr hframeVVb.1 j
      have hstT : ∀ j ∈ surv, ∀ o ∈ operands Vb.dfg j,
          self1.dfg.values.getD o .other = Vb.dfg.values.getD o .other := by
        intro j hj o ho
        rw [hopsconvVb j] at ho
        have holt : o < len0 := hops j (List.mem_append_left _ (hsurvmem j hj)) o ho
        refine qstable.1 o (by
          have := hframeVVb.2.2.2.2.2.2
          omega) ?_
        rw [hresultsVbV]
        exact hdbucross j (hsurvmem j hj) o ho
      have hdenT : ∀ j ∈ surv, ∀ o ∈ operands Vb.dfg j, ∀ t,
          denoteConstant Vb.dfg.values o = some t →
          denoteConstant self1.dfg.values o = some t := by
        intro j hj o ho t ht
        rw [hopsconvVb j] at ho
        refine qstable.2 o t ht ?_
        rw [hresultsVbV]
        exact hdbucross j (hsurvmem j hj) o ho
      have hcstabT : ∀ j ∈ surv, candidateCallee self1 j bf = candidateCallee Vb j bf :=
        fun j hj => candidateCallee_stable bf qframe.1 (hstT j hj)
      have hblockb : self1.dfg.getBlock b = { V.dfg.getBlock b with
          instructions := surv } := by
        rw [qblkne b hbnotin, hVbB]
      refine ⟨arenaFrame_trans hframeVVb qframe, ?_, ?_, ?_, ?_, ?_, ?_⟩
      · -- store stability for the whole processed region
        have hs1 : storeStable V Vb
            (resultsOfList V.dfg (blockInstrs V (b :: rest))) := by
          refine storeStable_mono hstableVVb ?_
          intro id hni hmem
          refine hni ?_
          rw [blockInstrs_cons, resultsOfList_append]
          exact List.mem_append_left _ hmem
        have hs2 : storeStable Vb self1
            (resultsOfList V.dfg (blockInstrs V (b :: rest))) := by
          refine storeStable_mono qstable ?_
          intro id hni
          rw [hresultsVbV]
          intro hmem
          refine hni ?_
          rw [blockInstrs_cons, resultsOfList_append]
          exact List.mem_append_right _ hmem
        exact storeStable_trans hframeVVb.2.2.2.2.2.2 hs1 hs2
      · intro b' hb'
        have hne : b' ≠ b := fun h => hb' (h ▸ List.mem_cons_self _ _)
        have hnr : b' ∉ rest := fun h => hb' (List.mem_cons_of_mem _ h)
        rw [qblkne b' hnr, hVbne b' hne]
      · intro b' hb'
        rcases List.mem_cons.mp hb' with rfl | hb''
        · rw [hblockb]
          exact ⟨psub, rfl, rfl⟩
        · obtain ⟨hsb, hpb, htb⟩ := qblocks b' hb''
          have hgbe : Vb.dfg.getBlock b' = V.dfg.getBlock b' :=
            hVbne b' fun h => hbnotin (h ▸ hb'')
          rw [hgbe] at hsb hpb htb
          exact ⟨hsb, hpb, htb⟩
      · exact fun x hx => qmono x (pmono x hx)
      · intro b' hb'
        rcases List.mem_cons.mp hb' with rfl | hb''
        · intro j hj
          rw [hblockb] at hj
          have hjsurv : j ∈ surv := hj
          obtain ⟨hcert, hmk⟩ := pcerts j hjsurv
          refine ⟨failsCert_transport qframe.1 (hstT j hjsurv) (hdenT j hjsurv) hcert, ?_⟩
          intro fid g args hc
          rw [hcstabT j hjsurv] at hc
          exact qmono fid (hmk fid g args hc)
        · exact qcerts b' hb''
      · intro x hx
        rcases qacc x hx with hxb | ⟨b', hb', j, hj, g, args, hc⟩
        · rcases pacc x hxb with hxm | ⟨j, hj, g, args, hc⟩
          · exact Or.inl hxm
          · refine Or.inr ⟨b, List.mem_cons_self _ _, j, ?_, g, args, ?_⟩
            · rw [hblockb]
              exact hj
            · rw [hcstabT j hj]
              exact hc
        · exact Or.inr ⟨b', List.mem_cons_of_mem _ hb', j, hj, g, args, hc⟩

/-! ## Characterization of the first run, per function and per program -/

theorem run1_function {ε : Type} (oracle : Oracle ε) (agg : Int) (bf : List (Nat × Func))
    (f f1 : Func) (mk mk2 : List Nat)
    (hwf : wellFormedFuncB f = true)
    (hrun : Func.inlineConstBrilligCalls oracle agg bf f mk = .ok (f1, mk2)) :
    arenaFrame f f1 ∧
    (∀ iid ∈ flatInstructions f1, iid ∈ flatInstructions f) ∧
    (∀ iid ∈ flatInstructions f1, FailsCert oracle agg bf f1 iid) ∧
    (∀ iid ∈ flatInstructions f1, ∀ fid g args,
      candidateCallee f1 iid bf = some (fid, g, args) → fid ∈ mk2) ∧
    (∀ x ∈ mk, x ∈ mk2) ∧
    (∀ x ∈ mk2, x ∈ mk ∨ ∃ iid ∈ flatInstructions f1, ∃ g args,
      candidateCallee f1 iid bf = some (x, g, args)) ∧
    ((∀ iid ∈ flatInstructions f, candidateCallee f iid bf = none) → f1 = f) := by
  obtain ⟨hdbu, hrs, hmain⟩ := wellFormedFuncB_spec hwf
  unfold Func.inlineConstBrilligCalls at hrun
  have hPB := run1_processBlocks oracle agg bf f.dfg.values.length
    (List.range f.dfg.blocks.length) f mk f1 mk2 hrun (List.nodup_range _)
    (fun b hb => List.mem_range.mp hb) (le_refl _) hdbu hrs
    (fun j hj => ⟨(hmain j hj).1, fun r hr => ((hmain j hj).2.1 r hr)⟩)
    (fun j hj => (hmain j hj).2.2)
  obtain ⟨qframe, qstable, qblkne, qblocks, qmono, qcerts, qacc⟩ := hPB
  have hlen : f1.dfg.blocks.length = f.dfg.blocks.length := qframe.2.2.2.2.2.1
  have hmem : ∀ iid ∈ flatInstructions f1, ∃ b ∈ List.range f.dfg.blocks.length,
      iid ∈ (f1.dfg.getBlock b).instructions := by
    intro iid hiid
    obtain ⟨b, hb, hbi⟩ := mem_blockInstrs.mp hiid
    rw [hlen] at hb
    exact ⟨b, hb, hbi⟩
  refine ⟨qframe, ?_, ?_, ?_, qmono, ?_, ?_⟩
  · intro iid hiid
    obtain ⟨b, hb, hbi⟩ := hmem iid hiid
    exact mem_blockInstrs.mpr ⟨b, hb, (qblocks b hb).1.subset hbi⟩
  · intro iid hiid
    obtain ⟨b, hb, hbi⟩ := hmem iid hiid
    exact (qcerts b hb iid hbi).1
  · intro iid hiid fid g args hc
    obtain ⟨b, hb, hbi⟩ := hmem iid hiid
    exact (qcerts b hb iid hbi).2 fid g args hc
  · intro x hx
    rcases qacc x hx with hxm | ⟨b, hb, j, hj, g, args, hc⟩
    · exact Or.inl hxm
    · refine Or.inr ⟨j, ?_, g, args, hc⟩
      refine mem_blockInstrs.mpr ⟨b, ?_, hj⟩
      rwa [hlen]
  · intro hnone
    obtain ⟨mk1, hrep, _, _, _⟩ := replay_function oracle agg bf f mk
      (fun iid hiid => Or.inl (hnone iid hiid))
    unfold Func.inlineConstBrilligCalls at hrep
    rw [hrun] at hrep
    simp only [Except.ok.injEq, Prod.mk.injEq] at hrep
    exact hrep.1

theorem run1_processFunctions {ε : Type} (oracle : Oracle ε) (agg : Int)
    (bf : List (Nat × Func)) :
    ∀ (fns : List (Nat × Func)) (mk : List Nat) (out : List (Nat × Func)) (mk2 : List Nat),
      processFunctions oracle agg bf fns mk = .ok (out, mk2) →
      (∀ p ∈ fns, wellFormedFuncB p.2 = true) →
      out.map Prod.fst = fns.map Prod.fst ∧
      (∀ x ∈ mk, x ∈ mk2) ∧
      (∀ x ∈ mk2, x ∈ mk ∨ ∃ q ∈ out, ∃ iid ∈ flatInstructions q.2, ∃ g args,
        candidateCallee q.2 iid bf = some (x, g, args)) ∧
      (∀ q ∈ out, ∀ iid ∈ flatInstructions q.2, FailsCert oracle agg bf q.2 iid) ∧
      (∀ q ∈ out, ∀ iid ∈ flatInstructions q.2, ∀ fid g args,
        candidateCallee q.2 iid bf = some (fid, g, args) → fid ∈ mk2) ∧
      List.Forall₂ (fun p q => p.1 = q.1 ∧ arenaFrame p.2 q.2 ∧
        ((∀ iid ∈ flatInstructions p.2, candidateCallee p.2 iid bf = none) →
          q.2 = p.2)) fns out := by
  intro fns
  induction fns with
  | nil =>
    intro mk out mk2 h hwf
    simp only [processFunctions] at h
    injection h with h'
    injection h' with h1 h2
    subst h1
    subst h2
    exact ⟨rfl, fun x hx => hx, fun x hx => Or.inl hx, by simp, by simp,
      List.Forall₂.nil⟩
  | cons p rest ih =>
    obtain ⟨fid0, f⟩ := p
    intro mk out mk2 h hwf
    simp only [processFunctions] at h
    cases hf : Func.inlineConstBrilligCalls oracle agg bf f mk with
    | error e =>
      rw [hf] at h
      cases h
    | ok q =>
      obtain ⟨f1, mka⟩ := q
      simp only [hf] at h
      cases hrest : processFunctions oracle agg bf rest mka with
      | error e =>
        simp only [hrest] at h
        cases h
      | ok q' =>
        obtain ⟨rest1, mkb⟩ := q'
        simp only [hrest] at h
        simp only [Except.ok.injEq, Prod.mk.injEq] at h
        obtain ⟨hout, hmk2⟩ := h
        subst hout
        subst hmk2
        obtain ⟨aframe, amem, acert, ains, amono, aacc, anoop⟩ :=
          run1_function oracle agg bf f f1 mk mka
            (hwf (fid0, f) (List.mem_cons_self _ _)) hf
        obtain ⟨bkeys, bmono, bacc, bcert, bins, bfor⟩ := ih mka rest1 mkb hrest
          (fun q hq => hwf q (List.mem_cons_of_mem _ hq))
        refine ⟨by simp [bkeys], fun x hx => bmono x (amono x hx), ?_, ?_, ?_, ?_⟩
        · intro x hx
          rcases bacc x hx with hxa | ⟨q, hq, iid, hiid, g, args, hc⟩
          · rcases aacc x hxa with hxm | ⟨iid, hiid, g, args, hc⟩
            · exact Or.inl hxm
            · exact Or.inr ⟨(fid0, f1), List.mem_cons_self _ _, iid, hiid, g, args, hc⟩
          · exact Or.inr ⟨q, List.mem_cons_of_mem _ hq, iid, hiid, g, args, hc⟩
        · intro q hq iid hiid
          rcases List.mem_cons.mp hq with rfl | hq'
          · exact acert iid hiid
          · exact bcert q hq' iid hiid
        · intro q hq iid hiid fid g args hc
          rcases List.mem_cons.mp hq with rfl | hq'
          · exact bmono fid (ains iid hiid fid g args hc)
          · exact bins q hq' iid hiid fid g args hc
        · exact List.Forall₂.cons ⟨rfl, aframe, anoop⟩ bfor

theorem isBrillig_congr {f g : Func} (h : f.runtime = g.runtime) :
    isBrillig f = isBrillig g := by
  simp [isBrillig, h]

/-- C9 (amended): conditional idempotence. The unconditional claim is false (see the
counterexample); it holds under the proviso that no unconstrained function's body contains a
call to an unconstrained function, together with static well-formedness of every function
(definitions precede uses in processing order, result identifiers are separated, in range and
unbound, operands in range) and key-uniqueness of the function mapping. Under these
hypotheses a second run of the pass returns its input unchanged: no surviving call site
becomes specializable and no further function is deleted. -/
theorem claimC9_conditional_idempotence {ε : Type} (oracle : Oracle ε) (agg : Int)
    (s s1 : Ssa)
    (hnodup : (s.functions.map Prod.fst).Nodup)
    (hwf : ∀ p ∈ s.functions, wellFormedFuncB p.2 = true)
    (hbrillig : ∀ p ∈ s.functions, isBrillig p.2 = true →
      ∀ iid ∈ flatInstructions p.2,
        candidateCallee p.2 iid (snapshotBrilligFunctions s.functions) = none)
    (h1 : Ssa.inlineConstBrilligCalls oracle agg s = .ok s1) :
    Ssa.inlineConstBrilligCalls oracle agg s1 = .ok s1 := by
  simp only [Ssa.inlineConstBrilligCalls] at h1
  cases hpf : processFunctions oracle agg (snapshotBrilligFunctions s.functions)
      s.functions [] with
  | error e =>
    rw [hpf] at h1
    cases h1
  | ok q =>
    obtain ⟨out1, mk1⟩ := q
    rw [hpf] at h1
    simp only [Except.ok.injEq] at h1
    have hfuns : s1.functions = removeFunctions s.mainId s.entryPoints mk1
        ((snapshotBrilligFunctions s.functions).map fun p => p.1) out1 := by
      rw [← h1]
    have hmain : s1.mainId = s.mainId := by rw [← h1]
    have hentry : s1.entryPoints = s.entryPoints := by rw [← h1]
    obtain ⟨okeys, _, oacc, ocert, oins, ofor⟩ :=
      run1_processFunctions oracle agg (snapshotBrilligFunctions s.functions)
        s.functions [] out1 mk1 hpf hwf
    have hnodupout : (out1.map Prod.fst).Nodup := by
      rw [okeys]
      exact hnodup
    have hfunssub : s1.functions.Sublist out1 := by
      rw [hfuns]
      exact removeFunctions_sublist _ _ _ _ _
    have hnodupP1 : (s1.functions.map Prod.fst).Nodup :=
      (hfunssub.map Prod.fst).nodup hnodupout
    have hbrilligkey : ∀ q ∈ out1, ∀ f0, assocFind s.functions q.1 = some f0 →
        isBrillig f0 = true → q.2 = f0 := by
      intro q hq f0 hfind hbf0
      obtain ⟨p, hp, hpk, hframe, hnoop⟩ := forall₂_mem_right ofor q hq
      have hfindp : assocFind s.functions p.1 = some p.2 :=
        assocFind_of_mem_nodup hnodup hp
      rw [hpk] at hfindp
      rw [hfindp] at hfind
      injection hfind with hfind'
      subst hfind'
      exact hnoop (hbrillig p hp hbf0)
    have hattr_nokey : ∀ q ∈ out1, ∀ iid ∈ flatInstructions q.2, ∀ x g args,
        candidateCallee q.2 iid (snapshotBrilligFunctions s.functions) =
          some (x, g, args) →
        q.1 ∉ (snapshotBrilligFunctions s.functions).map fun p => p.1 := by
      intro q hq iid hiid x g args hc hkey
      have hne : assocFind (snapshotBrilligFunctions s.functions) q.1 ≠ none := by
        intro heq
        exact ((assocFind_eq_none_iff _ _).mp heq) hkey
      rw [snapshot_assocFind hnodup q.1] at hne
      cases hfind : assocFind s.functions q.1 with
      | none =>
        simp only [hfind] at hne
        exact hne rfl
      | some f0 =>
        simp only [hfind] at hne
        by_cases hbf0 : isBrillig f0 = true
        · have hq2 : q.2 = f0 := hbrilligkey q hq f0 hfind hbf0
          have hp : (q.1, f0) ∈ s.functions := assocFind_mem hfind
          have hnonec := hbrillig (q.1, f0) hp hbf0
          rw [hq2] at hc hiid
          rw [hnonec iid hiid] at hc
          cases hc
        · rw [if_neg hbf0] at hne
          exact hne rfl
    have hbf : ∀ fid, assocFind (snapshotBrilligFunctions s1.functions) fid =
        assocFind (snapshotBrilligFunctions s.functions) fid ∨
        assocFind (snapshotBrilligFunctions s1.functions) fid = none := by
      intro fid
      rw [snapshot_assocFind hnodupP1 fid]
      cases hfindP : assocFind s1.functions fid with
      | none =>
        right
        rfl
      | some f' =>
        by_cases hbf' : isBrillig f' = true
        · left
          have hout : assocFind out1 fid = some f' := by
            rw [hfuns, removeFunctions_find] at hfindP
            by_cases hC : fid ∈ ((snapshotBrilligFunctions s.functions).map fun p => p.1) ∧
                fid ≠ s.mainId ∧ fid ∉ mk1 ∧ fid ∉ s.entryPoints
            · rw [if_pos hC] at hfindP
              cases hfindP
            · rw [if_neg hC] at hfindP
              exact hfindP
          obtain ⟨f0, hfind0, hframe0, hnoop0⟩ := (@assocFind_forall₂ (fun a b => arenaFrame a b ∧
              ((∀ iid ∈ flatInstructions a,
                candidateCallee a iid (snapshotBrilligFunctions s.functions) = none) →
                b = a)) s.functions out1 ofor fid f' hout)
          have hrt : f'.runtime = f0.runtime := hframe0.2.2.2.2.1
          have hbf0 : isBrillig f0 = true := (isBrillig_congr hrt).symm.trans hbf'
          have hp : (fid, f0) ∈ s.functions := assocFind_mem hfind0
          have hnoop := hnoop0 (hbrillig (fid, f0) hp hbf0)
          rw [snapshot_assocFind hnodup fid]
          simp only [hfind0, hnoop]
        · right
          simp only [if_neg hbf']
    have hcert2 : ∀ q ∈ s1.functions, ∀ iid ∈ flatInstructions q.2,
        FailsCert oracle agg (snapshotBrilligFunctions s1.functions) q.2 iid := by
      intro q hq iid hiid
      exact failsCert_bf_transport hbf (ocert q (hfunssub.subset hq) iid hiid)
    obtain ⟨mk2, hrun2, _, hins2⟩ :=
      replay_processFunctions oracle agg (snapshotBrilligFunctions s1.functions)
        s1.functions [] hcert2
    have hskip : ∀ fid ∈ (snapshotBrilligFunctions s1.functions).map fun p => p.1,
        fid = s1.mainId ∨ fid ∈ mk2 ∨ fid ∈ s1.entryPoints := by
      intro fid hkey
      have hne2 : assocFind (snapshotBrilligFunctions s1.functions) fid ≠ none := by
        intro heq
        exact ((assocFind_eq_none_iff _ _).mp heq) hkey
      rw [snapshot_assocFind hnodupP1 fid] at hne2
      cases hfindP : assocFind s1.functions fid with
      | none =>
        simp only [hfindP] at hne2
        exact absurd rfl hne2
      | some f' =>
        simp only [hfindP] at hne2
        by_cases hbf' : isBrillig f' = true
        · have hfindP' := hfindP
          rw [hfuns, removeFunctions_find] at hfindP'
          by_cases hC : fid ∈ ((snapshotBrilligFunctions s.functions).map fun p => p.1) ∧
              fid ≠ s.mainId ∧ fid ∉ mk1 ∧ fid ∉ s.entryPoints
          · rw [if_pos hC] at hfindP'
            cases hfindP'
          · rw [if_neg hC] at hfindP'
            obtain ⟨f0, hfind0, hframe0, hnoop0⟩ := (@assocFind_forall₂ (fun a b => arenaFrame a b ∧
              ((∀ iid ∈ flatInstructions a,
                candidateCallee a iid (snapshotBrilligFunctions s.functions) = none) →
                b = a)) s.functions out1 ofor fid f' hfindP')
            have hrt : f'.runtime = f0.runtime := hframe0.2.2.2.2.1
            have hbf0 : isBrillig f0 = true := (isBrillig_congr hrt).symm.trans hbf'
            have hkey1 : fid ∈ (snapshotBrilligFunctions s.functions).map fun p => p.1 := by
              by_contra hnk
              have hnone1 : assocFind (snapshotBrilligFunctions s.functions) fid = none :=
                (assocFind_eq_none_iff _ _).mpr hnk
              rw [snapshot_assocFind hnodup fid] at hnone1
              simp only [hfind0] at hnone1
              rw [if_pos hbf0] at hnone1
              cases hnone1
            by_cases hm : fid = s.mainId
            · left
              rw [hmain]
              exact hm
            · by_cases hk : fid ∈ mk1
              · right
                left
                rcases oacc fid hk with habs | ⟨qa, hqa, iid, hiid, g', args', hca⟩
                · exact absurd habs (List.not_mem_nil _)
                · have hqain : qa ∈ s1.functions := by
                    rw [hfuns]
                    exact removeFunctions_mem _ _ _ _ _ qa hqa
                      (hattr_nokey qa hqa iid hiid fid g' args' hca)
                  have hc2 : candidateCallee qa.2 iid
                      (snapshotBrilligFunctions s1.functions) =
                      some (fid, g', args') := by
                    obtain ⟨fv, hi1, hi2, hi3⟩ := candidateCallee_some hca
                    rcases hbf fid with heq | hnone
                    · simp only [candidateCallee, hi1, hi2, heq, hi3]
                    · exfalso
                      have hsome2 : assocFind (snapshotBrilligFunctions s1.functions) fid =
                          some (cloneWithId fid f') := by
                        rw [snapshot_assocFind hnodupP1 fid]
                        simp only [hfindP]
                        rw [if_pos hbf']
                      rw [hsome2] at hnone
                      cases hnone
                  exact hins2 qa hqain iid hiid fid g' args' hc2
              · by_cases he : fid ∈ s.entryPoints
                · right
                  right
                  rw [hentry]
                  exact he
                · exact absurd ⟨hkey1, hm, hk, he⟩ hC
        · rw [if_neg hbf'] at hne2
          exact absurd rfl hne2
    simp only [Ssa.inlineConstBrilligCalls, hrun2]
    rw [removeFunctions_id s1.mainId s1.entryPoints mk2
      ((snapshotBrilligFunctions s1.functions).map fun p => p.1) s1.functions hskip]

/-- Witness for the amended C9 on the concrete example: `exampleProgramOnce` satisfies the
provisos (its only unconstrained function no longer calls an unconstrained function), one run
takes it to `exampleProgramTwice`, and by the theorem the pass fixes `exampleProgramTwice`. -/
theorem claimC9_conditional_idempotence_witness :
    Ssa.inlineConstBrilligCalls identityOracle 0 exampleProgramTwice =
      .ok exampleProgramTwice :=
  claimC9_conditional_idempotence identityOracle 0 exampleProgramOnce exampleProgramTwice
    (by decide) (by decide) (by decide) (by decide)
